import Mathlib

/-!
# hcl2: diagnostics lists and the hclwrite edit layer

A shallow embedding of `hcl/diagnostic.go` and `hclwrite/ast_block.go`, with
the parts of package hclwrite these two files and their tests rely on (tokens,
the node tree, the tree builder, the attribute and block lookups, the attribute
setter, the formatter) modelled from the specification.

Go strings and byte slices are Lean `String`s, Go slices are `List`s, and a
`*node` pointer into a child list is the position of that node in the list.
An unchecked type assertion or a nil dereference is a panic in Go; the
functions that contain one return `Option`, with `none` standing for the panic.
-/

set_option autoImplicit false

namespace hcl

/-! ## hcl/diagnostic.go -/

/-- DiagnosticSeverity is declared `type DiagnosticSeverity int`. -/
abbrev DiagnosticSeverity := Int

/-- DiagInvalid is the invalid zero value of DiagnosticSeverity (`iota` = 0). -/
def DiagInvalid : DiagnosticSeverity := 0

/-- DiagError is the second constant of the `iota` block. -/
def DiagError : DiagnosticSeverity := 1

/-- DiagWarning is the third constant of the `iota` block. -/
def DiagWarning : DiagnosticSeverity := 2

/-- Modelled from the spec: the source position `{line, col, byte}`; the type
`Pos` is declared in a file of package hcl that is not part of the sources. -/
structure Pos where
  Line : Int
  Column : Int
  Byte : Int
deriving DecidableEq, Repr

/-- Modelled from the spec: the source range `{start, end}`; the type `Range`
is declared in a file of package hcl that is not part of the sources. -/
structure Range where
  Start : Pos
  End : Pos
deriving DecidableEq, Repr

/-- Diagnostic, field for field. `Subject` and `Context` are nil-able pointers.
`Expression` and `EvalContext` are handles the diagnostics code never looks
into; `none` is nil. -/
structure Diagnostic where
  Severity : DiagnosticSeverity
  Summary : String
  Detail : String
  Subject : Option Range
  Context : Option Range
  Expression : Option Nat
  EvalContext : Option Nat
deriving DecidableEq, Repr

/-- Diagnostics is `[]*Diagnostic`. The entries are taken to be non-nil
pointers, as every caller appends `&hcl.Diagnostic{...}`. -/
abbrev Diagnostics := List Diagnostic

/-- Append: `return append(d, diag)`. -/
def Diagnostics.Append (d : Diagnostics) (diag : Diagnostic) : Diagnostics :=
  d ++ [diag]

/-- Extend: `return append(d, diags...)`. -/
def Diagnostics.Extend (d : Diagnostics) (diags : Diagnostics) : Diagnostics :=
  d ++ diags

/-- HasErrors: the `for ... range d` loop that returns true at the first entry
whose severity is DiagError and false once the list is exhausted. -/
def Diagnostics.HasErrors : Diagnostics → Bool
  | [] => false
  | diag :: rest =>
    if diag.Severity = DiagError then true else Diagnostics.HasErrors rest

/-- The `for _, diag := range d` loop of `Errs`: `errs` is the slice built so
far, and an entry whose severity is DiagError is appended to it. -/
def Diagnostics.Errs.loop : Diagnostics → List Diagnostic → List Diagnostic
  | [], errs => errs
  | diag :: rest, errs =>
    if diag.Severity = DiagError then Diagnostics.Errs.loop rest (errs ++ [diag])
    else Diagnostics.Errs.loop rest errs

/-- Errs: the entries of severity DiagError as a slice of `error` values; the
nil slice `var errs []error` is the empty list. -/
def Diagnostics.Errs (d : Diagnostics) : List Diagnostic :=
  Diagnostics.Errs.loop d []

/-- The method `Diagnostic.Error`: `fmt.Sprintf("%s; %s", d.Summary, d.Detail)`
when `Subject` is nil, and `fmt.Sprintf("%s: %s; %s", d.Subject, d.Summary,
d.Detail)` otherwise. The verb `%s` prints the subject through its `String`
method, which is declared in a file that is not part of the sources and is the
parameter `rangeString`. -/
def Diagnostic.Error (rangeString : Range → String) (d : Diagnostic) : String :=
  match d.Subject with
  | none => d.Summary ++ "; " ++ d.Detail
  | some subject => rangeString subject ++ ": " ++ d.Summary ++ "; " ++ d.Detail

/-- The method `Diagnostics.Error`: the `switch` on `count := len(d)`, with
`d[0]` the first entry; the verb `%d` prints `count-1` in decimal. -/
def Diagnostics.Error (rangeString : Range → String) (d : Diagnostics) : String :=
  let count := d.length
  match d with
  | [] => "no diagnostics"
  | [d0] => Diagnostic.Error rangeString d0
  | d0 :: _ :: _ =>
    Diagnostic.Error rangeString d0 ++ ", and " ++ toString (count - 1)
      ++ " other diagnostic(s)"

/-- Modelled from the spec: one step of a traversal after its root (the types
of package hcl for traversals are declared outside the sources): an attribute
step `.name` or an index step `[index]` with a number. -/
inductive Traverser where
  | TraverseAttr (Name : String)
  | TraverseIndex (Key : Nat)
deriving DecidableEq, Repr

/-- Modelled from the spec: an absolute traversal, a root name followed by zero
or more steps. -/
structure Traversal where
  RootName : String
  steps : List Traverser
deriving DecidableEq, Repr

end hcl

/-! ## Go library functions used by the sources -/

namespace strings

/-- Trim: Go's `strings.Trim(s, cutset)`, the string `s` with all leading and
trailing code points contained in `cutset` removed. -/
def Trim (s : String) (cutset : String) : String :=
  String.mk (List.rdropWhile (fun c => decide (c ∈ cutset.data))
    (List.dropWhile (fun c => decide (c ∈ cutset.data)) s.data))

end strings

namespace cty

/-- Modelled from the spec: the literal values of the dynamic value system that
the renderer is given here (null, bool, string); package cty is
an external library. `StringVal`, `True` and `False` are the constructors the
sources call. -/
inductive Value where
  | NullVal
  | BoolVal (b : Bool)
  | StringVal (s : String)
deriving DecidableEq, Repr

/-- The value `cty.True`. -/
def True : Value := Value.BoolVal true

/-- The value `cty.False`. -/
def False : Value := Value.BoolVal false

/-- The constructor `cty.StringVal`. -/
def StringVal (s : String) : Value := Value.StringVal s

end cty

namespace hclwrite

/-! ## Tokens -/

/-- Modelled from the spec: the token kinds of section 3 (`hclsyntax.TokenType`
is declared outside the sources); the names are those the sources and their
tests use, completed in the same style. -/
inductive TokenType where
  | TokenOBrace | TokenCBrace | TokenOBrack | TokenCBrack | TokenOParen | TokenCParen
  | TokenOQuote | TokenCQuote | TokenOHeredoc | TokenCHeredoc
  | TokenQuotedLit | TokenStringLit | TokenNumberLit | TokenIdent
  | TokenTemplateInterp | TokenTemplateControl | TokenTemplateSeqEnd
  | TokenEqual | TokenDot | TokenComma | TokenColon | TokenQuestion | TokenBang
  | TokenBinaryOp | TokenUnaryOp
  | TokenNewline | TokenEOF | TokenComment | TokenInvalid
deriving DecidableEq, Repr

open TokenType

/-- Token of package hclwrite: its kind, its bytes and the number of spaces
before it. A composite literal that names no `SpacesBefore` has it 0. -/
structure Token where
  Type_ : TokenType
  Bytes : String
  SpacesBefore : Nat := 0
deriving DecidableEq, Repr

/-- Tokens is `[]*Token`. -/
abbrev Tokens := List Token

/-- Modelled from the spec: `Tokens.Bytes` (declared outside the sources), the
concatenation, in order, of each token's `SpacesBefore` spaces then its bytes. -/
def Tokens.Bytes : Tokens → String
  | [] => ""
  | t :: rest =>
    String.mk (List.replicate t.SpacesBefore ' ') ++ t.Bytes ++ Tokens.Bytes rest

/-- Modelled from the spec: `newIdentToken` (declared outside the sources), the
identifier token whose bytes are the given name. -/
def newIdentToken (name : String) : Token :=
  { Type_ := TokenIdent, Bytes := name }

/-- The two hexadecimal digits of a code point below 256. -/
def hex2 (n : Nat) : List Char :=
  [Nat.digitChar (n / 16 % 16), Nat.digitChar (n % 16)]

/-- Modelled from the spec: the escape rules of the value renderer for one code
point of a string (section 4.6): a double quote, a backslash, newline, tab and
carriage return get their two-character escapes, any other C0 control becomes
`\u00XX`, everything else passes through. -/
def escapeChar (c : Char) : List Char :=
  if c = '"' then ['\\', '"']
  else if c = '\\' then ['\\', '\\']
  else if c = '\n' then ['\\', 'n']
  else if c = '\t' then ['\\', 't']
  else if c = '\r' then ['\\', 'r']
  else if c.toNat < 32 then ['\\', 'u', '0', '0'] ++ hex2 c.toNat
  else [c]

/-- Modelled from the spec: the escaped form of a string literal's content. -/
def escapeQuotedStringLit (s : String) : String :=
  String.mk (s.data.flatMap escapeChar)

/-- Modelled from the spec: `TokensForValue` (declared outside the sources), the
value renderer of section 4.6: null and bool are identifiers, a string is an
open quote, the quoted literal with the escaped content, and a close quote. -/
def TokensForValue : cty.Value → Tokens
  | cty.Value.NullVal => [{ Type_ := TokenIdent, Bytes := "null" }]
  | cty.Value.BoolVal true => [{ Type_ := TokenIdent, Bytes := "true" }]
  | cty.Value.BoolVal false => [{ Type_ := TokenIdent, Bytes := "false" }]
  | cty.Value.StringVal s =>
    [ { Type_ := TokenOQuote, Bytes := "\"" },
      { Type_ := TokenQuotedLit, Bytes := escapeQuotedStringLit s },
      { Type_ := TokenCQuote, Bytes := "\"" } ]

/-! ## The physical tree -/

/-- Modelled from the spec: `nodeSet` (declared outside the sources), a set of
child nodes held next to the child list; a node is named by its position in
the child list. -/
abbrev nodeSet := List Nat

/-- Modelled from the spec: the content of a node (section 3), one constructor
for each variant. The children of a node with children are its `inTree` child
list; a `*node` field is the position of the child it points to, `none` when
nil. An expression is the token run the edit layer treats it as. -/
inductive nodeContent where
  | comments (tokens : Tokens)
  | identifier (token : Token)
  | quoted (tokens : Tokens)
  | Tokens (tokens : Tokens)
  | Expression (tokens : Tokens)
  | Attribute (children : List nodeContent) (leadComments name expr : Option Nat)
  | Block (children : List nodeContent) (leadComments typeName : Option Nat)
      (labels : nodeSet) (open_ body close : Option Nat)
  | Body (children : List nodeContent)

/-- Modelled from the spec: `nodes` (declared outside the sources), the ordered
child list of a node. -/
abbrev nodes := List nodeContent

/-- Modelled from the spec: `nodes.Append`, which adds a node holding the given
content at the end of the list and returns the new node. -/
def nodes.Append (ns : nodes) (c : nodeContent) : nodes × Option Nat :=
  (ns ++ [c], some ns.length)

/-- Modelled from the spec: `nodes.AppendUnstructuredTokens`, which adds a node
holding a run of unstructured tokens. -/
def nodes.AppendUnstructuredTokens (ns : nodes) (tokens : Tokens) : nodes × Option Nat :=
  nodes.Append ns (nodeContent.Tokens tokens)

/-- The content of the node a pointer names: `n.content`, `none` when the
pointer is nil (the dereference panics). -/
def nodes.content (ns : nodes) : Option Nat → Option nodeContent
  | none => none
  | some i => ns[i]?

/-- Modelled from the spec: `newNodeSet`, the empty set. -/
def newNodeSet : nodeSet := []

/-- Modelled from the spec: `nodeSet.Add`. -/
def nodeSet.Add (ns : nodeSet) (n : Option Nat) : nodeSet :=
  match n with
  | none => ns
  | some i => if i ∈ ns then ns else ns ++ [i]

/-- Modelled from the spec: `nodeSet.List`, the nodes of the set in the order
of the child list they belong to (the i-th label is the i-th label node of the
block). -/
def nodeSet.List (ns : nodeSet) (children : nodes) : List Nat :=
  (List.range children.length).filter (fun i => decide (i ∈ ns))

/-- Modelled from the spec: `newComments`. -/
def newComments (tokens : Tokens) : nodeContent := nodeContent.comments tokens

/-- Modelled from the spec: `newIdentifier`. -/
def newIdentifier (token : Token) : nodeContent := nodeContent.identifier token

/-- Modelled from the spec: `newQuoted`. -/
def newQuoted (tokens : Tokens) : nodeContent := nodeContent.quoted tokens

mutual
/-- Modelled from the spec: `BuildTokens` of a node's content (called with a
nil accumulator), the tokens the subtree owns, in order. -/
def nodeContent.BuildTokens : nodeContent → Tokens
  | nodeContent.comments tokens => tokens
  | nodeContent.identifier token => [token]
  | nodeContent.quoted tokens => tokens
  | nodeContent.Tokens tokens => tokens
  | nodeContent.Expression tokens => tokens
  | nodeContent.Attribute children _ _ _ => nodes.BuildTokens children
  | nodeContent.Block children _ _ _ _ _ _ => nodes.BuildTokens children
  | nodeContent.Body children => nodes.BuildTokens children
/-- Modelled from the spec: `BuildTokens` of a child list, the concatenation of
the children's tokens in order. -/
def nodes.BuildTokens : List nodeContent → Tokens
  | [] => []
  | c :: rest => nodeContent.BuildTokens c ++ nodes.BuildTokens rest
end

/-- Modelled from the spec: `Body` (declared outside the sources), an ordered
sequence of children. -/
structure Body where
  children : nodes

/-- Modelled from the spec: `newBody`, a body with no children. -/
def newBody : Body := { children := [] }

/-- A body as the content of a node. -/
def Body.toContent (b : Body) : nodeContent := nodeContent.Body b.children

/-- BuildTokens of a body: the tokens of its children. -/
def Body.BuildTokens (b : Body) : Tokens := nodes.BuildTokens b.children

/-! ## hclwrite/ast_block.go -/

/-- Block: the `inTree` child list and the pointer fields of the struct. -/
structure Block where
  children : nodes
  leadComments : Option Nat
  typeName : Option Nat
  labels : nodeSet
  open_ : Option Nat
  body : Option Nat
  close : Option Nat

/-- A block as the content of a node. -/
def Block.toContent (b : Block) : nodeContent :=
  nodeContent.Block b.children b.leadComments b.typeName b.labels b.open_ b.body b.close

/-- BuildTokens of a block: the tokens of its children. -/
def Block.BuildTokens (b : Block) : Tokens := nodes.BuildTokens b.children

/-- The function `newBlock`: a block with an empty child list, an empty label
set and nil pointer fields. -/
def newBlock : Block :=
  { children := [], leadComments := none, typeName := none, labels := newNodeSet,
    open_ := none, body := none, close := none }

/-- One iteration of the `for _, label := range labels` loop of `Block.init`. -/
def Block.init.labelStep (st : nodes × nodeSet) (label : String) : nodes × nodeSet :=
  let labelToks := TokensForValue (cty.StringVal label)
  let labelObj := newQuoted labelToks
  let r := nodes.Append st.1 labelObj
  (r.1, nodeSet.Add st.2 r.2)

/-- The method `Block.init`, statement by statement. -/
def Block.init (b : Block) (typeName : String) (labels : List String) : Block :=
  let nameTok := newIdentToken typeName
  let nameObj := newIdentifier nameTok
  let r1 := nodes.Append b.children (newComments [])
  let r2 := nodes.Append r1.1 nameObj
  let r3 := labels.foldl Block.init.labelStep (r2.1, b.labels)
  let r4 := nodes.AppendUnstructuredTokens r3.1
    [ { Type_ := TokenOBrace, Bytes := "\x7b" },
      { Type_ := TokenNewline, Bytes := "\n" } ]
  let body := newBody
  let r5 := nodes.Append r4.1 body.toContent
  let r6 := nodes.AppendUnstructuredTokens r5.1
    [ { Type_ := TokenCBrace, Bytes := "\x7d" },
      { Type_ := TokenNewline, Bytes := "\n" } ]
  { children := r6.1, leadComments := r1.2, typeName := r2.2, labels := r3.2,
    open_ := r4.2, body := r5.2, close := r6.2 }

/-- NewBlock constructs a new, empty block with the given type name and labels. -/
def NewBlock (typeName : String) (labels : List String) : Block :=
  Block.init newBlock typeName labels

/-- Body returns the body that represents the content of the receiving block:
`b.body.content.(*Body)`; `none` is the panic of the dereference or of the
type assertion. -/
def Block.Body (b : Block) : Option Body :=
  match nodes.content b.children b.body with
  | some (nodeContent.Body children) => some { children := children }
  | _ => none

/-- Type returns the type name of the block:
`string(b.typeName.content.(*identifier).token.Bytes)`. -/
def Block.Type_ (b : Block) : Option String :=
  match nodes.content b.children b.typeName with
  | some (nodeContent.identifier token) => some token.Bytes
  | _ => none

/-- The `for _, label := range list` loop of `Block.Labels`. -/
def Block.Labels.loop (children : nodes) : List Nat → List String → Option (List String)
  | [], labelNames => some labelNames
  | label :: rest, labelNames =>
    match nodes.content children (some label) with
    | some (nodeContent.quoted tokens) =>
      let labelString := Tokens.Bytes tokens
      let trimmed := strings.Trim labelString " \""
      Block.Labels.loop children rest (labelNames ++ [trimmed])
    | _ => none

/-- Labels returns the labels of the block. -/
def Block.Labels (b : Block) : Option (List String) :=
  let list := nodeSet.List b.labels b.children
  Block.Labels.loop b.children list []

/-! ## Attributes, bodies and the tree builder -/

/-- Modelled from the spec: `Attribute` (declared outside the sources): the
child list with the slots `leadComments, name, equals, expr, lineComments,
trailingNewline` in this order, and the pointers to three of them. -/
structure Attribute where
  children : nodes
  leadComments : Option Nat
  name : Option Nat
  expr : Option Nat

/-- An attribute as the content of a node. -/
def Attribute.toContent (a : Attribute) : nodeContent :=
  nodeContent.Attribute a.children a.leadComments a.name a.expr

/-- BuildTokens of an attribute: the tokens of its children. -/
def Attribute.BuildTokens (a : Attribute) : Tokens := nodes.BuildTokens a.children

/-- The name of an attribute, `attr.name.content.(*identifier).token.Bytes`;
`none` is the panic of the dereference or of the type assertion. -/
def Attribute.Name (a : Attribute) : Option String :=
  match nodes.content a.children a.name with
  | some (nodeContent.identifier token) => some token.Bytes
  | _ => none

/-- The type assertion `content.(*Attribute)` in its two-result form. -/
def asAttribute : nodeContent → Option Attribute
  | nodeContent.Attribute children leadComments name expr =>
    some { children := children, leadComments := leadComments, name := name, expr := expr }
  | _ => none

/-- The type assertion `content.(*Block)` in its two-result form. -/
def asBlock : nodeContent → Option Block
  | nodeContent.Block children leadComments typeName labels open_ body close =>
    some { children := children, leadComments := leadComments, typeName := typeName,
           labels := labels, open_ := open_, body := body, close := close }
  | _ => none

/-- Modelled from the spec: `Body.Blocks`, the blocks of the body in document
order; only the direct children of the body are looked at. -/
def Body.Blocks (b : Body) : List Block :=
  b.children.filterMap asBlock

/-- Modelled from the spec: `Body.Attributes` as a list in document order. -/
def Body.AttributeList (b : Body) : List Attribute :=
  b.children.filterMap asAttribute

/-- Modelled from the spec: the label comparison of the block lookup: the two
sequences have the same length and the i-th strings are equal for each i. -/
def labelsEqual : List String → List String → Bool
  | [], [] => true
  | a :: as, b :: bs => decide (a = b) && labelsEqual as bs
  | _, _ => false

/-- The text of a label: the bytes of its tokens, in order. The spaces before a
token are no part of the label. -/
def labelText (tokens : Tokens) : String :=
  String.join (tokens.map (fun t => t.Bytes))

/-- Modelled from the spec: the unquoted string of a label (section 4.4): one
pair of double quotes is stripped and no escape is interpreted. -/
def unquoteLabel (s : String) : String :=
  match s.data with
  | '"' :: rest => if rest.getLast? = some '"' then String.mk rest.dropLast else s
  | _ => s

/-- The loop over the label nodes of a block that collects the unquoted string
of each label. -/
def Block.unquotedLabels.loop (children : nodes) : List Nat → List String →
    Option (List String)
  | [], labelNames => some labelNames
  | label :: rest, labelNames =>
    match nodes.content children (some label) with
    | some (nodeContent.quoted tokens) =>
      Block.unquotedLabels.loop children rest (labelNames ++ [unquoteLabel (labelText tokens)])
    | _ => none

/-- Modelled from the spec: the label sequence the block lookup compares
(section 4.4): the unquoted string of each label node of the block, in order;
`none` is the panic of a nil pointer or of the type assertion. -/
def Block.unquotedLabels (b : Block) : Option (List String) :=
  Block.unquotedLabels.loop b.children (nodeSet.List b.labels b.children) []

/-- Modelled from the spec: the scan of `Body.GetBlock` (declared outside the
sources) over the blocks in document order; a block matches when its type
equals the given one, it has as many labels as are given, and the unquoted
string of its i-th label equals the i-th given label for each i. The outer
`none` is a panic of the type or label access, `some none` the nil result. -/
def Body.GetBlock.loop (typeName : String) (labels : List String) :
    List Block → Option (Option Block)
  | [] => some none
  | block :: rest =>
    match block.Type_ with
    | none => none
    | some ty =>
      if ty = typeName then
        match block.unquotedLabels with
        | none => none
        | some labelNames =>
          if labelsEqual labelNames labels then some (some block)
          else Body.GetBlock.loop typeName labels rest
      else Body.GetBlock.loop typeName labels rest

/-- Modelled from the spec: `Body.GetBlock(type, labels)`, the first block in
document order whose type matches and whose label sequence matches
element-wise; nil otherwise. -/
def Body.GetBlock (b : Body) (typeName : String) (labels : List String) :
    Option (Option Block) :=
  Body.GetBlock.loop typeName labels b.Blocks

/-- Modelled from the spec: the scan of `Body.GetAttribute` (declared outside
the sources) over the attribute nodes of the body, comparing the name. The outer
`none` is a panic of the name access, `some none` the nil result. -/
def Body.GetAttribute.loop (name : String) : List Attribute → Option (Option Attribute)
  | [] => some none
  | attr :: rest =>
    match attr.Name with
    | none => none
    | some n => if n = name then some (some attr) else Body.GetAttribute.loop name rest

/-- Modelled from the spec: `Body.GetAttribute(name)`, the first attribute with
that name in this body; nil if absent. -/
def Body.GetAttribute (b : Body) (name : String) : Option (Option Attribute) :=
  Body.GetAttribute.loop name b.AttributeList

/-- Modelled from the spec: what the parser hands the tree builder for one body
(the parser is outside the sources): the constructs of the semantic AST in
document order, each with the tokens it spans and, in `before`, the tokens
between the previous construct and its first token. -/
inductive Item where
  | ofAttribute (before : Tokens) (name : Token) (equals : Token) (expr : Tokens)
      (lineComments : Tokens) (newline : Tokens)
  | ofBlock (before : Tokens) (typeName : Token) (labels : List Tokens) (open_ : Tokens)
      (body : List Item) (bodyTrailing : Tokens) (close : Tokens)

/-- Modelled from the spec: the lead comments among the tokens before a
construct: the comment tokens that immediately precede its first token, that
is the longest run of comment tokens at the end of `before`. A newline token
of a blank line after the comments ends the run at once. -/
def leadCommentTokens (before : Tokens) : Tokens :=
  List.rtakeWhile (fun t => decide (t.Type_ = TokenComment)) before

/-- Modelled from the spec: the tokens before a construct that are not its lead
comments. -/
def strayTokens (before : Tokens) : Tokens :=
  List.rdropWhile (fun t => decide (t.Type_ = TokenComment)) before

/-- Modelled from the spec: stray tokens become one `UnstructuredTokens` child;
no child is made for an empty run. -/
def strayNode (tokens : Tokens) : List nodeContent :=
  if tokens = [] then [] else [nodeContent.Tokens tokens]

/-- Modelled from the spec: the attribute node the tree builder makes: the
slots `leadComments, name, equals, expr, lineComments, trailingNewline` in
order, the lead comments being those among the tokens before the name. -/
def buildAttribute (before : Tokens) (name equals : Token) (expr lineComments newline : Tokens) :
    Attribute :=
  { children :=
      [ nodeContent.comments (leadCommentTokens before),
        nodeContent.identifier name,
        nodeContent.Tokens [equals],
        nodeContent.Expression expr,
        nodeContent.comments lineComments,
        nodeContent.Tokens newline ],
    leadComments := some 0,
    name := some 1,
    expr := some 3 }

/-- The name of the attribute a construct is; `none` for a block. -/
def Item.attrName : Item → Option String
  | Item.ofAttribute _ name _ _ _ _ => some name.Bytes
  | Item.ofBlock _ _ _ _ _ _ _ => none

/-- The attribute node the tree builder makes of a construct; `none` for a
block. -/
def Item.attr : Item → Option Attribute
  | Item.ofAttribute before name equals expr lineComments newline =>
    some (buildAttribute before name equals expr lineComments newline)
  | Item.ofBlock _ _ _ _ _ _ _ => none

mutual
/-- Modelled from the spec: the physical tree builder (section 4.3) for one
construct: the child for the stray tokens before it, then the attribute or block
node with its slots in order. -/
def buildItem : Item → List nodeContent
  | Item.ofAttribute before name equals expr lineComments newline =>
    strayNode (strayTokens before) ++
      [(buildAttribute before name equals expr lineComments newline).toContent]
  | Item.ofBlock before typeName labels open_ body bodyTrailing close =>
    strayNode (strayTokens before) ++
      [nodeContent.Block
        ([ nodeContent.comments (leadCommentTokens before),
           nodeContent.identifier typeName ]
          ++ labels.map nodeContent.quoted
          ++ [ nodeContent.Tokens open_,
               nodeContent.Body (buildItems body ++ strayNode bodyTrailing),
               nodeContent.Tokens close ])
        (some 0) (some 1) (List.range' 2 labels.length)
        (some (2 + labels.length)) (some (3 + labels.length)) (some (4 + labels.length))]
/-- Modelled from the spec: the tree builder for the constructs of a body. -/
def buildItems : List Item → List nodeContent
  | [] => []
  | item :: rest => buildItem item ++ buildItems rest
end

/-- Modelled from the spec: the body the tree builder makes of the constructs
of a body and the stray tokens after the last one. -/
def buildBody (items : List Item) (trailing : Tokens) : Body :=
  { children := buildItems items ++ strayNode trailing }

/-! ## Files and the attribute setter -/

/-- Modelled from the spec: `File` (declared outside the sources), the root
node: a body followed by the terminal EOF run. -/
structure File where
  body : Body
  eof : Tokens

/-- Modelled from the spec: `File.BuildTokens`, the tokens of the body, then
the EOF run. -/
def File.BuildTokens (f : File) : Tokens := f.body.BuildTokens ++ f.eof

/-- Modelled from the spec: the file the tree builder makes of the constructs
of the root body: the body, then one EOF token with empty bytes. -/
def buildFile (items : List Item) (trailing : Tokens) : File :=
  { body := buildBody items trailing,
    eof := [{ Type_ := TokenEOF, Bytes := "" }] }

/-- Modelled from the spec: replacing the token run of the `expr` child of an
attribute, every other child left as it is; `none` is the panic of a nil or
dangling `expr` pointer. -/
def Attribute.setExpr (a : Attribute) (tokens : Tokens) : Option Attribute :=
  match a.expr with
  | none => none
  | some i =>
    if i < a.children.length then
      some { a with children := a.children.set i (nodeContent.Expression tokens) }
    else none

/-- Modelled from the spec: the update path of the attribute setter over the
children of a body: the first attribute child with the given name gets the new
expression tokens in place. `some none` says that no attribute has the name,
the outer `none` is a panic. -/
def Body.SetAttributeValue.update (name : String) (tokens : Tokens) :
    List nodeContent → Option (Option (List nodeContent))
  | [] => some none
  | c :: rest =>
    match asAttribute c with
    | none =>
      (Body.SetAttributeValue.update name tokens rest).map (Option.map (fun cs => c :: cs))
    | some attr =>
      match attr.Name with
      | none => none
      | some n =>
        if n = name then
          (attr.setExpr tokens).map (fun a => some (a.toContent :: rest))
        else
          (Body.SetAttributeValue.update name tokens rest).map
            (Option.map (fun cs => c :: cs))

/-- Modelled from the spec: the attribute of the insert path: `ident(name)`,
`equals`, the rendered expression tokens, `newline`. -/
def newAttribute (name : String) (expr : Tokens) : Attribute :=
  buildAttribute [] (newIdentToken name) { Type_ := TokenEqual, Bytes := "=" } expr []
    [{ Type_ := TokenNewline, Bytes := "\n" }]

/-- Modelled from the spec: the newline the insert path puts first when the
last token of the body is not a newline token. -/
def newlineBeforeAppend (bodyTokens : Tokens) : List nodeContent :=
  match bodyTokens.getLast? with
  | none => []
  | some t =>
    if t.Type_ = TokenNewline then []
    else [nodeContent.Tokens [{ Type_ := TokenNewline, Bytes := "\n" }]]

/-- Modelled from the spec: `Body.SetAttributeValue(name, value)` (declared
outside the sources): if an attribute of that name is present, its expression
token run is replaced with the rendered value; else a new attribute is appended
at the end of the body. `none` is a panic. -/
def Body.SetAttributeValue (b : Body) (name : String) (val : cty.Value) : Option Body :=
  let expr := TokensForValue val
  match Body.SetAttributeValue.update name expr b.children with
  | none => none
  | some (some children) => some { children := children }
  | some none =>
    some { children :=
      b.children ++ newlineBeforeAppend b.BuildTokens ++ [(newAttribute name expr).toContent] }

/-- The file after the call `f.Body().SetAttributeValue(name, value)`, which
changes the body of the file in place. -/
def setAttributeValueInFile (f : File) (name : String) (val : cty.Value) : Option File :=
  (f.body.SetAttributeValue name val).map (fun b => { f with body := b })

/-- Modelled from the spec: `Body.AppendNewBlock(type, labels)` (declared outside
the sources): a freshly constructed block is appended at the end of the body
and returned. The result is the body after the call and the block. -/
def Body.AppendNewBlock (b : Body) (typeName : String) (labels : List String) :
    Body × Block :=
  let block := NewBlock typeName labels
  ({ children := b.children ++ [block.toContent] }, block)

/-- The file after the call `f.Body().AppendNewBlock(type, labels)`, which
changes the body of the file in place. -/
def appendNewBlockInFile (f : File) (typeName : String) (labels : List String) : File :=
  { f with body := (f.body.AppendNewBlock typeName labels).1 }

/-- Modelled from the spec: the tokens of one step of a traversal (section 4.7):
a dot and the identifier of the name, or an open bracket, the number literal of
the index in decimal, and a close bracket. -/
def TokensForTraverser : hcl.Traverser → Tokens
  | hcl.Traverser.TraverseAttr name =>
    [ { Type_ := TokenDot, Bytes := "." },
      { Type_ := TokenIdent, Bytes := name } ]
  | hcl.Traverser.TraverseIndex key =>
    [ { Type_ := TokenOBrack, Bytes := "[" },
      { Type_ := TokenNumberLit, Bytes := toString key },
      { Type_ := TokenCBrack, Bytes := "]" } ]

/-- Modelled from the spec: `TokensForTraversal` (declared outside the sources),
the traversal renderer of section 4.7: the identifier of the root, then the
tokens of each step, with no spaces between adjacent tokens. -/
def TokensForTraversal (traversal : hcl.Traversal) : Tokens :=
  { Type_ := TokenIdent, Bytes := traversal.RootName }
    :: traversal.steps.flatMap TokensForTraverser

/-- Modelled from the spec: `Body.SetAttributeTraversal(name, traversal)`
(declared outside the sources): the same as `SetAttributeValue`, but the new
expression is the rendered traversal. -/
def Body.SetAttributeTraversal (b : Body) (name : String) (traversal : hcl.Traversal) :
    Option Body :=
  let expr := TokensForTraversal traversal
  match Body.SetAttributeValue.update name expr b.children with
  | none => none
  | some (some children) => some { children := children }
  | some none =>
    some { children :=
      b.children ++ newlineBeforeAppend b.BuildTokens ++ [(newAttribute name expr).toContent] }

/-- The file after the call `f.Body().SetAttributeTraversal(name, traversal)`,
which changes the body of the file in place. -/
def setAttributeTraversalInFile (f : File) (name : String) (traversal : hcl.Traversal) :
    Option File :=
  (f.body.SetAttributeTraversal name traversal).map (fun b => { f with body := b })

/-- Modelled from the spec: a change made in place to the body of a block, as
by a call on the pointer `block.Body()` returns: the body child of the block is
given to `change` and replaced by what it returns. `none` is a panic of the
dereference, of the type assertion or of `change`. -/
def Block.changeBody (b : Block) (change : hclwrite.Body → Option hclwrite.Body) :
    Option Block :=
  match b.body with
  | none => none
  | some i =>
    match b.children[i]? with
    | some (nodeContent.Body children) =>
      (change { children := children }).map
        (fun body => { b with children := b.children.set i body.toContent })
    | _ => none

/-- Modelled from the spec: the children of a body after a change made in place
to the body of the block `GetBlock(type, labels)` returns: the scan of
`GetBlock` over the direct children, with the block it finds replaced by the
changed block. `none` is a panic; the call `Body()` on the nil result of a
lookup that finds nothing is one. -/
def Body.changeBlockBody.loop (typeName : String) (labels : List String)
    (change : Body → Option Body) : List nodeContent → Option (List nodeContent)
  | [] => none
  | c :: rest =>
    match asBlock c with
    | none =>
      (Body.changeBlockBody.loop typeName labels change rest).map (fun cs => c :: cs)
    | some block =>
      match block.Type_ with
      | none => none
      | some ty =>
        if ty = typeName then
          match block.unquotedLabels with
          | none => none
          | some labelNames =>
            if labelsEqual labelNames labels then
              (block.changeBody change).map (fun blk => blk.toContent :: rest)
            else
              (Body.changeBlockBody.loop typeName labels change rest).map
                (fun cs => c :: cs)
        else
          (Body.changeBlockBody.loop typeName labels change rest).map (fun cs => c :: cs)

/-- The body after the calls `b.GetBlock(type, labels).Body()` and a change made
through the pointer that returns. -/
def Body.changeBlockBody (b : Body) (typeName : String) (labels : List String)
    (change : Body → Option Body) : Option Body :=
  (Body.changeBlockBody.loop typeName labels change b.children).map
    (fun cs => { children := cs })

/-- The lookup on the body of the block an outer lookup returned:
`parent.Body().GetBlock(type, labels)`; `none` is a panic, also that of
`Body()` on a nil block. -/
def getBlockInBlock (r : Option (Option Block)) (typeName : String) (labels : List String) :
    Option (Option Block) :=
  match r with
  | some (some parent) =>
    match parent.Body with
    | some body => body.GetBlock typeName labels
    | none => none
  | _ => none

/-- The type name of the block a construct is; `none` for an attribute. -/
def Item.blockType : Item → Option String
  | Item.ofBlock _ typeName _ _ _ _ _ => some typeName.Bytes
  | Item.ofAttribute _ _ _ _ _ _ => none

/-- The label sequence of the block a construct is: the unquoted string of each
label; `none` for an attribute. -/
def Item.blockLabels : Item → Option (List String)
  | Item.ofBlock _ _ labels _ _ _ _ =>
    some (labels.map (fun toks => unquoteLabel (labelText toks)))
  | Item.ofAttribute _ _ _ _ _ _ => none

/-- The block node the tree builder makes of a block construct, for a given
child list of its body. -/
def builtBlock (before : Tokens) (typeName : Token) (labels : List Tokens) (open_ : Tokens)
    (bodyChildren : List nodeContent) (close : Tokens) : Block :=
  { children :=
      [ nodeContent.comments (leadCommentTokens before),
        nodeContent.identifier typeName ]
        ++ labels.map nodeContent.quoted
        ++ [ nodeContent.Tokens open_,
             nodeContent.Body bodyChildren,
             nodeContent.Tokens close ],
    leadComments := some 0,
    typeName := some 1,
    labels := List.range' 2 labels.length,
    open_ := some (2 + labels.length),
    body := some (3 + labels.length),
    close := some (4 + labels.length) }

/-- Modelled from the spec: `SetAttributeValue(name, val)` on the body reached
from `b` through the chain of calls `GetBlock(type, labels).Body()` the path
lists, outermost block first; the empty path is the call on `b` itself. -/
def setAttributeValueAt : List (String × List String) → Body → String → cty.Value →
    Option Body
  | [], b, name, val => b.SetAttributeValue name val
  | (typeName, labels) :: path, b, name, val =>
    b.changeBlockBody typeName labels (fun inner => setAttributeValueAt path inner name val)

/-- A block that encloses a body, seen from the body that holds the block: the
constructs before the block, the tokens of the block around its body, the
constructs after the block and the stray tokens that end the holding body. -/
structure Enclosing where
  pre : List Item
  before : Tokens
  typeName : Token
  labels : List Tokens
  open_ : Tokens
  close : Tokens
  post : List Item
  trailing : Tokens

/-- The constructs and the trailing tokens of the outermost body, when the body
with the given constructs and trailing tokens lies inside the given blocks,
outermost first. -/
def enclose : List Enclosing → List Item × Tokens → List Item × Tokens
  | [], p => p
  | e :: es, p =>
    (e.pre ++ Item.ofBlock e.before e.typeName e.labels e.open_
        (enclose es p).1 (enclose es p).2 e.close :: e.post,
      e.trailing)

/-- The type name and the labels by which `GetBlock` finds each enclosing block. -/
def enclosingPath (es : List Enclosing) : List (String × List String) :=
  es.map (fun e =>
    (e.typeName.Bytes, e.labels.map (fun toks => unquoteLabel (labelText toks))))

/-- The tokens of the outermost body that come before the innermost body: for
each enclosing block, outermost first, the constructs before it, the tokens
before it, its type name, its labels and its open brace run. -/
def tokensBeforeInner : List Enclosing → Tokens
  | [] => []
  | e :: es =>
    nodes.BuildTokens (buildItems e.pre) ++ e.before ++ [e.typeName] ++ e.labels.flatten
      ++ e.open_ ++ tokensBeforeInner es

/-- The tokens of the outermost body that come after the innermost body: for
each enclosing block, innermost first, its close brace run, the constructs after
it and the trailing tokens of the body that holds it. -/
def tokensAfterInner : List Enclosing → Tokens
  | [] => []
  | e :: es =>
    tokensAfterInner es ++ e.close ++ nodes.BuildTokens (buildItems e.post) ++ e.trailing

/-! ## The formatter -/

/-- Modelled from the spec: a token that ends its line: a newline token, or a
line comment, whose bytes include the trailing newline (section 4.1). -/
def tokenIsNewline (t : Token) : Bool :=
  decide (t.Type_ = TokenNewline)
    || (decide (t.Type_ = TokenComment) && decide (t.Bytes.data.getLast? = some '\n'))

/-- The lines of a token sequence, each with the token that ends it; `cur` holds
the tokens of the line being read. -/
def linesForFormat.go : Tokens → Tokens → List Tokens
  | [], [] => []
  | [], t :: cur => [t :: cur]
  | t :: rest, cur =>
    if tokenIsNewline t then (cur ++ [t]) :: linesForFormat.go rest []
    else linesForFormat.go rest (cur ++ [t])

/-- Modelled from the spec: the lines the formatter works on (its rules are
applied per line). -/
def linesForFormat (tokens : Tokens) : List Tokens :=
  linesForFormat.go tokens []

/-- A token with its `SpacesBefore` set; kind and bytes are kept. -/
def Token.withSpaces (t : Token) (n : Nat) : Token :=
  { t with SpacesBefore := n }

/-- Close punctuation: `)`, `]`, `}`. -/
def isClosePunct (t : Token) : Bool :=
  decide (t.Type_ = TokenCParen) || decide (t.Type_ = TokenCBrack)
    || decide (t.Type_ = TokenCBrace)

/-- Open punctuation: `(`, `[`, `{`. -/
def isOpenPunct (t : Token) : Bool :=
  decide (t.Type_ = TokenOParen) || decide (t.Type_ = TokenOBrack)
    || decide (t.Type_ = TokenOBrace)

/-- The suffix tokens `,`, `.`, `:`, `?`. -/
def isSuffixPunct (t : Token) : Bool :=
  decide (t.Type_ = TokenComma) || decide (t.Type_ = TokenDot)
    || decide (t.Type_ = TokenColon) || decide (t.Type_ = TokenQuestion)

/-- The last token of an identifier or literal: an identifier, a number, or the
close quote of a quoted string. -/
def endsIdentOrLiteral (t : Token) : Bool :=
  decide (t.Type_ = TokenIdent) || decide (t.Type_ = TokenNumberLit)
    || decide (t.Type_ = TokenCQuote)

/-- Modelled from the spec: the spacing rules of section 4.5 for a token that
follows `prev` on its line; `none` where no rule of the spec speaks, and the
token keeps its `SpacesBefore`. In order: `SpacesBefore = 0` for close
punctuation, for the suffix tokens, immediately after open punctuation, after a
unary operator, and between adjacent traversal tokens (after a dot, and for the
bracket of an index step; section 4.7); `SpacesBefore = 1` after an identifier
or literal when followed by `=`, a binary operator, an open brace or another
identifier, for the quoted string of a block label (section 4.4), after `=`,
around binary operators, and after the comma of a list (section 4.6). -/
def spaceBefore (prev cur : Token) : Option Nat :=
  if isClosePunct cur then some 0
  else if isSuffixPunct cur then some 0
  else if isOpenPunct prev then some 0
  else if prev.Type_ = TokenUnaryOp then some 0
  else if prev.Type_ = TokenDot then some 0
  else if cur.Type_ = TokenOBrack ∧ (prev.Type_ = TokenIdent ∨ prev.Type_ = TokenCBrack) then
    some 0
  else if endsIdentOrLiteral prev
      ∧ (cur.Type_ = TokenEqual ∨ cur.Type_ = TokenBinaryOp ∨ cur.Type_ = TokenOBrace
          ∨ cur.Type_ = TokenIdent) then some 1
  else if endsIdentOrLiteral prev ∧ cur.Type_ = TokenOQuote then some 1
  else if prev.Type_ = TokenEqual then some 1
  else if prev.Type_ = TokenBinaryOp ∨ cur.Type_ = TokenBinaryOp then some 1
  else if prev.Type_ = TokenComma then some 1
  else none

/-- The spacing rules applied left to right to the tokens after the first one
of a line. -/
def formatSpaces (prev : Token) : Tokens → Tokens
  | [] => []
  | t :: rest =>
    (match spaceBefore prev t with
      | some n => t.withSpaces n
      | none => t) :: formatSpaces t rest

/-- Modelled from the spec: one line under the spacing and indentation rules:
the first token of the line gets the indentation of its body as leading spaces
(0 at the top level), the tokens after it follow the spacing rules. The lines
of a heredoc are verbatim (section 4.1) and keep their leading spaces. -/
def formatLine (indent : Nat) : Tokens → Tokens
  | [] => []
  | t :: rest =>
    (if t.Type_ = TokenStringLit ∨ t.Type_ = TokenCHeredoc then t
      else t.withSpaces indent) :: formatSpaces t rest

/-- The number of open block bodies after a line that starts inside `depth` of
them. -/
def depthAfter (depth : Nat) : Tokens → Nat
  | [] => depth
  | t :: rest =>
    if t.Type_ = TokenOBrace then depthAfter (depth + 1) rest
    else if t.Type_ = TokenCBrace then depthAfter (depth - 1) rest
    else depthAfter depth rest

/-- The nesting level a line is indented for: a line that starts with the close
brace of a body is no longer inside that body. -/
def indentDepth (depth : Nat) : Tokens → Nat
  | [] => depth
  | t :: _ => if t.Type_ = TokenCBrace then depth - 1 else depth

/-- Modelled from the spec: the spacing and indentation rules over the lines,
two spaces for each level of nesting; each line comes back with its nesting
level. -/
def formatLines (depth : Nat) : List Tokens → List (Nat × Tokens)
  | [] => []
  | line :: rest =>
    (indentDepth depth line, formatLine (2 * indentDepth depth line) line)
      :: formatLines (depthAfter depth line) rest

/-- A line that begins an attribute: an identifier followed by `=`. -/
def isAttributeLine : Tokens → Bool
  | name :: equals :: _ => decide (name.Type_ = TokenIdent) && decide (equals.Type_ = TokenEqual)
  | _ => false

/-- A line that begins with a comment. -/
def isCommentLine : Tokens → Bool
  | t :: _ => decide (t.Type_ = TokenComment)
  | [] => false

/-- The rendered character count of the name that begins a line. -/
def nameWidth : Tokens → Nat
  | name :: _ => name.Bytes.length
  | [] => 0

/-- The number of expression brackets open after the given tokens, when
`open_` of them are open before. -/
def exprAfter (open_ : Nat) : Tokens → Nat
  | [] => open_
  | t :: rest =>
    if isOpenPunct t then exprAfter (open_ + 1) rest
    else if isClosePunct t then exprAfter (open_ - 1) rest
    else exprAfter open_ rest

/-- The number of brackets of an attribute's expression that are open after a
line, when `open_` of them are open before it. The count starts on the line
that begins an attribute; while it is above 0 the lines that follow are
continuation lines of that attribute's expression. -/
def openAfterLine (open_ : Nat) (line : Tokens) : Nat :=
  if 0 < open_ ∨ isAttributeLine line = true then exprAfter open_ line else 0

/-- Modelled from the spec: the widest attribute name of the run of consecutive
attributes of nesting level `depth` that begins with the given lines. A blank
line, a block or a line of another body ends the run. A comment line does not
(lead comments belong to their attribute), and neither does a continuation
line of a multi-line expression, which lies inside its attribute and not
between two attributes. -/
def runWidth (depth : Nat) : Nat → List (Nat × Tokens) → Nat
  | _, [] => 0
  | open_, (d, line) :: rest =>
    if 0 < open_ then runWidth depth (openAfterLine open_ line) rest
    else if isCommentLine line then runWidth depth (openAfterLine open_ line) rest
    else if isAttributeLine line ∧ d = depth then
      max (nameWidth line) (runWidth depth (openAfterLine open_ line) rest)
    else 0

/-- An attribute line with the `SpacesBefore` of its `=` set. -/
def setEqualsSpaces (n : Nat) : Tokens → Tokens
  | name :: equals :: rest => name :: equals.withSpaces n :: rest
  | line => line

/-- The widest name of the part of the current run that lies before a line of
nesting level `d`: a run of another nesting level is another run. -/
def backWidth (back : Option (Nat × Nat)) (d : Nat) : Nat :=
  match back with
  | some (d0, w) => if d0 = d then w else 0
  | none => 0

/-- Modelled from the spec: the equals-alignment rule over the lines: within a
run, `SpacesBefore` of each `=` is `max(1, max_name_width - this_name_width + 1)`.
`back` is the nesting level and the widest name of the part of the current run
that lies before the given lines, `open_` the number of brackets of the current
attribute's expression that are open. Continuation lines and comment lines are
left as they are and end no run. -/
def alignLines (back : Option (Nat × Nat)) : Nat → List (Nat × Tokens) → List Tokens
  | _, [] => []
  | open_, (d, line) :: rest =>
    if 0 < open_ then line :: alignLines back (openAfterLine open_ line) rest
    else if isCommentLine line then line :: alignLines back (openAfterLine open_ line) rest
    else if isAttributeLine line then
      let width := max (backWidth back d) (runWidth d 0 ((d, line) :: rest))
      setEqualsSpaces (max 1 (width - nameWidth line + 1)) line
        :: alignLines (some (d, width)) (openAfterLine open_ line) rest
    else line :: alignLines none (openAfterLine open_ line) rest

/-- Modelled from the spec: `format` (declared outside the sources), the
formatter of section 4.5: it sets `SpacesBefore` over the whole token sequence
by the spacing, indentation and equals-alignment rules and changes no kind and
no bytes. -/
def format (tokens : Tokens) : Tokens :=
  (alignLines none 0 (formatLines 0 (linesForFormat tokens))).flatten

/-- The formatter on tokens that begin a line inside `depth` open block bodies;
`format` is `formatAt 0`. -/
def formatAt (depth : Nat) (tokens : Tokens) : Tokens :=
  (alignLines none 0 (formatLines depth (linesForFormat tokens))).flatten

/-- The tokens of an expression are well nested above `n` open brackets: every
close bracket closes a bracket opened before it among them or one of the `n`,
every token that ends a line lies inside a bracket, and all brackets are closed
at the end. -/
def wellNested : Nat → Tokens → Bool
  | n, [] => n == 0
  | n, t :: rest =>
    if isOpenPunct t then wellNested (n + 1) rest
    else if isClosePunct t then decide (0 < n) && wellNested (n - 1) rest
    else if tokenIsNewline t then decide (0 < n) && wellNested n rest
    else wellNested n rest

/-- An attribute as a child of a body: the comment lines directly above it (its
lead comments), its name, its `=`, the tokens of its expression and line
comment, which may span several lines, and the token that ends its last line. -/
structure RunAttribute where
  lead : Tokens
  name : Token
  equals : Token
  rest : Tokens
  newline : Token

/-- The tokens of an attribute, in order. -/
def RunAttribute.tokens (a : RunAttribute) : Tokens :=
  a.lead ++ a.name :: a.equals :: (a.rest ++ [a.newline])

/-- The tokens are those of an attribute: every lead comment is a comment that
ends its line, the name is an identifier, then `=`, then tokens that are well
nested (a line ends inside them only between brackets) and leave as many braces
open as they find, and a token that ends the line. -/
def RunAttribute.wellFormed (a : RunAttribute) : Prop :=
  (∀ t ∈ a.lead, t.Type_ = TokenComment ∧ tokenIsNewline t = true)
    ∧ a.name.Type_ = TokenIdent ∧ a.equals.Type_ = TokenEqual
    ∧ wellNested 0 a.rest = true
    ∧ (∀ d : Nat, depthAfter d a.rest = d)
    ∧ tokenIsNewline a.newline = true

/-- The name width of a run in the words of the spec: the widest rendered
character count of an attribute name of the run. -/
def specRunWidth (run : List RunAttribute) : Nat :=
  (run.map (fun a => a.name.Bytes.length)).foldr max 0

/-- The tokens of an attribute of a run in the words of the spec: the lead
comments and the name after the indentation of the body, the `=` after
`max(1, max_name_width - this_name_width + 1)` spaces, and the tokens after the
`=` as the spacing and indentation rules leave them (the formatter on the
attribute alone, without its name and `=`). -/
def specAlignedAttribute (depth maxNameWidth : Nat) (a : RunAttribute) : Tokens :=
  a.lead.map (fun t => t.withSpaces (2 * depth))
    ++ a.name.withSpaces (2 * depth)
      :: a.equals.withSpaces (max 1 (maxNameWidth - a.name.Bytes.length + 1))
      :: (formatAt depth (a.name :: a.equals :: (a.rest ++ [a.newline]))).drop 2

/-- No attribute begins the given lines or follows comment lines that begin
them: the first line that is no comment line, if there is one, is no attribute
line. -/
def noAttributeAhead : List Tokens → Bool
  | [] => true
  | line :: rest => if isCommentLine line then noAttributeAhead rest else !isAttributeLine line

/-- The number of brackets of an attribute's expression that are open after the
given lines. -/
def openAfterLines (open_ : Nat) (lines : List Tokens) : Nat :=
  lines.foldl openAfterLine open_

/-- The tokens end a run: there are none, or their last line is complete, is no
comment line and no attribute line, and is no continuation line of a multi-line
expression (a blank line, the line that opens a block, the line that closes a
block). -/
def endsRun (tokens : Tokens) : Bool :=
  match (linesForFormat tokens).getLast? with
  | none => true
  | some line =>
    (match line.getLast? with
      | none => false
      | some t => tokenIsNewline t)
    && !isCommentLine line && !isAttributeLine line
    && decide (openAfterLines 0 (linesForFormat tokens).dropLast = 0)

/-- The lines are continuation lines of an expression: each begins with a
bracket of the expression open, `open_` of them before the first line, and
`after` brackets are open after the last line. -/
def contLinesTo (open_ after : Nat) : List Tokens → Bool
  | [] => open_ == after
  | line :: rest => decide (0 < open_) && contLinesTo (exprAfter open_ line) after rest

/-! ## Test data of hclwrite/ast_body_test.go -/

/-- The tokens of a quoted string without escapes that follows another token
after one space, as the scanner produces them. -/
def quotedTokens (s : String) : Tokens :=
  [ { Type_ := TokenOQuote, Bytes := "\"", SpacesBefore := 1 },
    { Type_ := TokenQuotedLit, Bytes := s, SpacesBefore := 0 },
    { Type_ := TokenCQuote, Bytes := "\"", SpacesBefore := 0 } ]

/-- The construct `name = "value"` on a line of its own after `indent` spaces. -/
def stringAttrItem (indent : Nat) (name value : String) : Item :=
  Item.ofAttribute []
    { Type_ := TokenIdent, Bytes := name, SpacesBefore := indent }
    { Type_ := TokenEqual, Bytes := "=", SpacesBefore := 1 }
    (quotedTokens value) []
    [{ Type_ := TokenNewline, Bytes := "\n", SpacesBefore := 0 }]

/-- The construct `type "label"... {`, the given constructs on the following
lines, and `}` on a line of its own, after `indent` spaces. -/
def blockItem (indent : Nat) (typeName : String) (labels : List String)
    (body : List Item) : Item :=
  Item.ofBlock []
    { Type_ := TokenIdent, Bytes := typeName, SpacesBefore := indent }
    (labels.map quotedTokens)
    [ { Type_ := TokenOBrace, Bytes := "\x7b", SpacesBefore := 1 },
      { Type_ := TokenNewline, Bytes := "\n", SpacesBefore := 0 } ]
    body []
    [ { Type_ := TokenCBrace, Bytes := "\x7d", SpacesBefore := indent },
      { Type_ := TokenNewline, Bytes := "\n", SpacesBefore := 0 } ]

/-- The body of the source text `src` of `TestBodyGetBlock`: the attribute
`a = "b"`, the blocks `service`, `service "label1"` and
`service "label1" "label2"` with one attribute each, and the block `parent`
holding an attribute and the block `child`. -/
def testBodyGetBlock : Body :=
  buildBody
    [ stringAttrItem 0 "a" "b",
      blockItem 0 "service" [] [stringAttrItem 2 "attr0" "val0"],
      blockItem 0 "service" ["label1"] [stringAttrItem 2 "attr1" "val1"],
      blockItem 0 "service" ["label1", "label2"] [stringAttrItem 2 "attr2" "val2"],
      blockItem 0 "parent" []
        [ stringAttrItem 2 "attr3" "val3",
          blockItem 2 "child" [] [stringAttrItem 4 "attr4" "val4"] ] ]
    []

/-- The construct `name = value` for a number literal, on a line of its own,
with the given tokens between the previous construct and the name. -/
def numberAttrItem (before : Tokens) (name value : String) : Item :=
  Item.ofAttribute before
    { Type_ := TokenIdent, Bytes := name, SpacesBefore := 0 }
    { Type_ := TokenEqual, Bytes := "=", SpacesBefore := 1 }
    [{ Type_ := TokenNumberLit, Bytes := value, SpacesBefore := 1 }] []
    [{ Type_ := TokenNewline, Bytes := "\n", SpacesBefore := 0 }]

/-- The construct `name = value` for the keyword `true` or `false`, on a line
of its own. -/
def keywordAttrItem (name value : String) : Item :=
  Item.ofAttribute []
    { Type_ := TokenIdent, Bytes := name, SpacesBefore := 0 }
    { Type_ := TokenEqual, Bytes := "=", SpacesBefore := 1 }
    [{ Type_ := TokenIdent, Bytes := value, SpacesBefore := 1 }] []
    [{ Type_ := TokenNewline, Bytes := "\n", SpacesBefore := 0 }]

/-- The constructs of the source text `a   = 1` (three spaces before `=`). -/
def testItemsWideEquals : List Item :=
  [ Item.ofAttribute []
      { Type_ := TokenIdent, Bytes := "a", SpacesBefore := 0 }
      { Type_ := TokenEqual, Bytes := "=", SpacesBefore := 3 }
      [{ Type_ := TokenNumberLit, Bytes := "1", SpacesBefore := 1 }] []
      [{ Type_ := TokenNewline, Bytes := "\n", SpacesBefore := 0 }] ]

/-- The constructs of the source text `a = 1` without a newline at its end. -/
def testItemsNoNewline : List Item :=
  [ Item.ofAttribute []
      { Type_ := TokenIdent, Bytes := "a", SpacesBefore := 0 }
      { Type_ := TokenEqual, Bytes := "=", SpacesBefore := 1 }
      [{ Type_ := TokenNumberLit, Bytes := "1", SpacesBefore := 1 }] [] [] ]

/-- The constructs of the source text of `TestBodyAppendBlock` that holds the
block `bar` with both braces on one line. -/
def testItemsBarBlock : List Item :=
  [ Item.ofBlock []
      { Type_ := TokenIdent, Bytes := "bar", SpacesBefore := 0 } []
      [{ Type_ := TokenOBrace, Bytes := "\x7b", SpacesBefore := 1 }] [] []
      [ { Type_ := TokenCBrace, Bytes := "\x7d", SpacesBefore := 0 },
        { Type_ := TokenNewline, Bytes := "\n", SpacesBefore := 0 } ] ]

/-- The constructs of the source text of `TestBodySetAttributeValueInBlock`:
the block `service "label1"` holding `attr1 = "val1"`. -/
def testItemsInBlock : List Item :=
  [blockItem 0 "service" ["label1"] [stringAttrItem 2 "attr1" "val1"]]

/-- The constructs of the source text of `TestBodySetAttributeValueInNestedBlock`:
the block `parent` holding `attr1 = "val1"` and the block `child`, which holds
`attr2 = "val2"`. -/
def testItemsNestedBlock : List Item :=
  [ blockItem 0 "parent" []
      [ stringAttrItem 2 "attr1" "val1",
        blockItem 2 "child" [] [stringAttrItem 4 "attr2" "val2"] ] ]

/-- The constructs of the source text `a =   true` (three spaces before the
expression). -/
def testItemsWideValue : List Item :=
  [ Item.ofAttribute []
      { Type_ := TokenIdent, Bytes := "a", SpacesBefore := 0 }
      { Type_ := TokenEqual, Bytes := "=", SpacesBefore := 1 }
      [{ Type_ := TokenIdent, Bytes := "true", SpacesBefore := 3 }] []
      [{ Type_ := TokenNewline, Bytes := "\n", SpacesBefore := 0 }] ]

/-- The tokens of the line `name = value`, with no spaces set. -/
def attrLineTokens (name : String) (value : Tokens) : Tokens :=
  [ { Type_ := TokenIdent, Bytes := name }, { Type_ := TokenEqual, Bytes := "=" } ]
    ++ value ++ [{ Type_ := TokenNewline, Bytes := "\n" }]

/-- The tokens of a list of strings, with no spaces set. -/
def stringListTokens : List String → Tokens
  | [] => [{ Type_ := TokenOBrack, Bytes := "[" }, { Type_ := TokenCBrack, Bytes := "]" }]
  | s :: rest =>
    [{ Type_ := TokenOBrack, Bytes := "[" }] ++ TokensForValue (cty.StringVal s)
      ++ rest.flatMap (fun r =>
          { Type_ := TokenComma, Bytes := "," } :: TokensForValue (cty.StringVal r))
      ++ [{ Type_ := TokenCBrack, Bytes := "]" }]

/-- The tokens of a block with the given tokens in its body, with no spaces
set. -/
def blockTokens (typeName : String) (labels : List String) (body : Tokens) : Tokens :=
  [{ Type_ := TokenIdent, Bytes := typeName }]
    ++ labels.flatMap (fun l => TokensForValue (cty.StringVal l))
    ++ [ { Type_ := TokenOBrace, Bytes := "\x7b" }, { Type_ := TokenNewline, Bytes := "\n" } ]
    ++ body
    ++ [ { Type_ := TokenCBrace, Bytes := "\x7d" }, { Type_ := TokenNewline, Bytes := "\n" } ]

/-- The tokens of the file `ExampleEncodeIntoBody` of gohcl/encode_test.go
prints, before the formatter pass: every token with `SpacesBefore` 0. -/
def exampleEncodeIntoBody : Tokens :=
  attrLineTokens "name" (TokensForValue (cty.StringVal "awesome-app"))
    ++ attrLineTokens "description"
        (TokensForValue (cty.StringVal "Such an awesome application"))
    ++ [{ Type_ := TokenNewline, Bytes := "\n" }]
    ++ blockTokens "constraints" []
        (attrLineTokens "os" (TokensForValue (cty.StringVal "linux"))
          ++ attrLineTokens "arch" (TokensForValue (cty.StringVal "amd64")))
    ++ [{ Type_ := TokenNewline, Bytes := "\n" }]
    ++ blockTokens "service" ["web"]
        (attrLineTokens "executable" (stringListTokens ["./web", "--listen=:8080"]))
    ++ blockTokens "service" ["worker"]
        (attrLineTokens "executable" (stringListTokens ["./worker"]))
    ++ [{ Type_ := TokenNewline, Bytes := "\n" }]
    ++ blockTokens "locals" []
        (attrLineTokens "hello" (TokensForValue (cty.StringVal "world"))
          ++ attrLineTokens "foo" [{ Type_ := TokenIdent, Bytes := "bar" }])
    ++ [{ Type_ := TokenEOF, Bytes := "" }]

/-- The run of the attributes `os` and `arch` of the block `constraints` of the
example, with no spaces set. -/
def exampleConstraintsRun : List RunAttribute :=
  [ { lead := [],
      name := { Type_ := TokenIdent, Bytes := "os" },
      equals := { Type_ := TokenEqual, Bytes := "=" },
      rest := TokensForValue (cty.StringVal "linux"),
      newline := { Type_ := TokenNewline, Bytes := "\n" } },
    { lead := [],
      name := { Type_ := TokenIdent, Bytes := "arch" },
      equals := { Type_ := TokenEqual, Bytes := "=" },
      rest := TokensForValue (cty.StringVal "amd64"),
      newline := { Type_ := TokenNewline, Bytes := "\n" } } ]

/-- The line that opens the block `constraints`, with no spaces set. -/
def exampleConstraintsOpen : Tokens :=
  [ { Type_ := TokenIdent, Bytes := "constraints" },
    { Type_ := TokenOBrace, Bytes := "\x7b" },
    { Type_ := TokenNewline, Bytes := "\n" } ]

/-- The line that closes the block `constraints`, with no spaces set. -/
def exampleConstraintsClose : Tokens :=
  [ { Type_ := TokenCBrace, Bytes := "\x7d" },
    { Type_ := TokenNewline, Bytes := "\n" } ]

/-- A run of three attributes of one body, with no spaces set: `bbb = 2`, then
under a lead comment the attribute `a`, whose expression is an object that
spans three lines (an open brace, `k = 1`, a close brace), then `cccc = 3`. -/
def exampleMultiLineRun : List RunAttribute :=
  [ { lead := [],
      name := { Type_ := TokenIdent, Bytes := "bbb" },
      equals := { Type_ := TokenEqual, Bytes := "=" },
      rest := [{ Type_ := TokenNumberLit, Bytes := "2" }],
      newline := { Type_ := TokenNewline, Bytes := "\n" } },
    { lead := [{ Type_ := TokenComment, Bytes := "# the object\n" }],
      name := { Type_ := TokenIdent, Bytes := "a" },
      equals := { Type_ := TokenEqual, Bytes := "=" },
      rest :=
        [ { Type_ := TokenOBrace, Bytes := "\x7b" },
          { Type_ := TokenNewline, Bytes := "\n" },
          { Type_ := TokenIdent, Bytes := "k" },
          { Type_ := TokenEqual, Bytes := "=" },
          { Type_ := TokenNumberLit, Bytes := "1" },
          { Type_ := TokenNewline, Bytes := "\n" },
          { Type_ := TokenCBrace, Bytes := "\x7d" } ],
      newline := { Type_ := TokenNewline, Bytes := "\n" } },
    { lead := [],
      name := { Type_ := TokenIdent, Bytes := "cccc" },
      equals := { Type_ := TokenEqual, Bytes := "=" },
      rest := [{ Type_ := TokenNumberLit, Bytes := "3" }],
      newline := { Type_ := TokenNewline, Bytes := "\n" } } ]

/-- The run `bbb = 2`, `a = [`, `1,`, `]`, `cccc = 3`, with no spaces set: the
expression of `a` is a tuple that spans three lines. -/
def exampleTupleRun : List RunAttribute :=
  [ { lead := [],
      name := { Type_ := TokenIdent, Bytes := "bbb" },
      equals := { Type_ := TokenEqual, Bytes := "=" },
      rest := [{ Type_ := TokenNumberLit, Bytes := "2" }],
      newline := { Type_ := TokenNewline, Bytes := "\n" } },
    { lead := [],
      name := { Type_ := TokenIdent, Bytes := "a" },
      equals := { Type_ := TokenEqual, Bytes := "=" },
      rest :=
        [ { Type_ := TokenOBrack, Bytes := "[" },
          { Type_ := TokenNewline, Bytes := "\n" },
          { Type_ := TokenNumberLit, Bytes := "1" },
          { Type_ := TokenComma, Bytes := "," },
          { Type_ := TokenNewline, Bytes := "\n" },
          { Type_ := TokenCBrack, Bytes := "]" } ],
      newline := { Type_ := TokenNewline, Bytes := "\n" } },
    { lead := [],
      name := { Type_ := TokenIdent, Bytes := "cccc" },
      equals := { Type_ := TokenEqual, Bytes := "=" },
      rest := [{ Type_ := TokenNumberLit, Bytes := "3" }],
      newline := { Type_ := TokenNewline, Bytes := "\n" } } ]

/-- The attribute of the insert path, `ident(name)`, `equals`, the rendered
expression tokens, `newline`, as an attribute of a run; it has no lead
comments. -/
def newRunAttribute (name : String) (expr : Tokens) : RunAttribute :=
  { lead := [],
    name := { Type_ := TokenIdent, Bytes := name, SpacesBefore := 0 },
    equals := { Type_ := TokenEqual, Bytes := "=", SpacesBefore := 0 },
    rest := expr,
    newline := { Type_ := TokenNewline, Bytes := "\n", SpacesBefore := 0 } }

/-- The parsed file in which an attribute lies in a body inside the given
enclosing blocks, outermost first: `pre` and `post` are the constructs of that
body before and after the attribute, `trailing` the stray tokens that end it. -/
def fileWithAttribute (es : List Enclosing) (pre : List Item) (before : Tokens)
    (name equals : Token) (expr lc nl : Tokens) (post : List Item) (trailing : Tokens) : File :=
  buildFile
    (enclose es (pre ++ Item.ofAttribute before name equals expr lc nl :: post, trailing)).1
    (enclose es (pre ++ Item.ofAttribute before name equals expr lc nl :: post, trailing)).2

/-- The tokens of that file before the expression of the attribute: the tokens
of the enclosing blocks and of the constructs before the attribute, its lead
comments, its name and its `=`. -/
def tokensBeforeExpr (es : List Enclosing) (pre : List Item) (before : Tokens)
    (name equals : Token) : Tokens :=
  tokensBeforeInner es ++ nodes.BuildTokens (buildItems pre) ++ before ++ [name, equals]

/-- The tokens of that file after the expression of the attribute: its line
comments and newline, the tokens of the constructs after it and of the
enclosing blocks, and the EOF token. -/
def tokensAfterExpr (es : List Enclosing) (lc nl : Tokens) (post : List Item)
    (trailing : Tokens) : Tokens :=
  lc ++ nl ++ nodes.BuildTokens (buildItems post) ++ trailing ++ tokensAfterInner es
    ++ [{ Type_ := TokenEOF, Bytes := "" }]

/-- The tokens are those of an attribute as the parser delivers it: the name is
an identifier, then `=`, then an expression whose tokens are well nested (a
line ends inside it only between brackets) and leave as many braces open as
they find. -/
def parsedAttribute (name equals : Token) (expr : Tokens) : Prop :=
  name.Type_ = TokenIdent ∧ equals.Type_ = TokenEqual ∧ wellNested 0 expr = true
    ∧ ∀ d : Nat, depthAfter d expr = d

/-- The bytes of a file after an edit of its root body and the formatter pass,
as the tests compare them: `tokens := f.BuildTokens(nil); format(tokens);
string(tokens.Bytes())`. -/
def formattedBytes (f : File) (r : Option Body) : Option String :=
  r.map (fun b => Tokens.Bytes (format (File.BuildTokens { f with body := b })))

/-- The tokens of a file after an edit and the formatter pass, as the tests
compare them: `got := f.BuildTokens(nil); format(got)`. -/
def formattedTokens (r : Option File) : Option Tokens :=
  r.map (fun f => format f.BuildTokens)

/-- The kind and the bytes of a token, without its `SpacesBefore`. -/
def Token.kindBytes (t : Token) : TokenType × String := (t.Type_, t.Bytes)

/-- The body of the source text `a = 1`, `b = 2`, `c = 3` (one per line) of
`TestBodyGetAttribute`. -/
def testBodyThreeAttrs : Body :=
  buildBody [numberAttrItem [] "a" "1", numberAttrItem [] "b" "2", numberAttrItem [] "c" "3"] []

/-- The constructs of the source text of `TestBodyGetAttribute` in which the
comment line `# b is a b` stands directly above `b = 2`. -/
def testItemsLeadComment : List Item :=
  [ numberAttrItem [] "a" "1",
    numberAttrItem [{ Type_ := TokenComment, Bytes := "# b is a b\n", SpacesBefore := 0 }] "b" "2",
    numberAttrItem [] "c" "3" ]

/-- The constructs of the source text of `TestBodyGetAttribute` in which a blank
line stands between the comment line and `b = 2`. -/
def testItemsDetachedComment : List Item :=
  [ numberAttrItem [] "a" "1",
    numberAttrItem
      [ { Type_ := TokenComment, Bytes := "# not attached to a or b\n", SpacesBefore := 0 },
        { Type_ := TokenNewline, Bytes := "\n", SpacesBefore := 0 } ] "b" "2",
    numberAttrItem [] "c" "3" ]

/-- The tokens of the attribute a lookup returned, as the tests compare them:
`attr.BuildTokens(nil)`. -/
def attrTokens (r : Option (Option Attribute)) : Option (Option Tokens) :=
  r.map (fun found => found.map (fun attr => attr.BuildTokens))

/-- The bytes of the block a lookup returned, as the tests compare them:
`string(block.BuildTokens(nil).Bytes())`. -/
def blockBytes (r : Option (Option Block)) : Option (Option String) :=
  r.map (fun found => found.map (fun block => Tokens.Bytes block.BuildTokens))

end hclwrite

/-! ## Theorems: diagnostics -/

namespace hcl

theorem hasErrors_cons (x : Diagnostic) (d : Diagnostics) :
    Diagnostics.HasErrors (x :: d)
      = (decide (x.Severity = DiagError) || Diagnostics.HasErrors d) := by
  by_cases h : x.Severity = DiagError <;> simp [Diagnostics.HasErrors, h]

theorem hasErrors_eq_true_iff (d : Diagnostics) :
    Diagnostics.HasErrors d = true ↔ ∃ x ∈ d, x.Severity = DiagError := by
  induction d with
  | nil => simp [Diagnostics.HasErrors]
  | cons x rest ih => simp [hasErrors_cons, ih]

/-- C9: `d.HasErrors()` is true exactly when some entry of `d` has severity
DiagError; the empty list, and every list whose entries all have severity
DiagWarning or DiagInvalid, has `HasErrors()` false. -/
theorem C9_hasErrors_iff_exists_error (d : Diagnostics) :
    (Diagnostics.HasErrors d = true ↔ ∃ x ∈ d, x.Severity = DiagError)
    ∧ Diagnostics.HasErrors [] = false
    ∧ ((∀ x ∈ d, x.Severity = DiagWarning ∨ x.Severity = DiagInvalid) →
        Diagnostics.HasErrors d = false) := by
  refine ⟨hasErrors_eq_true_iff d, rfl, ?_⟩
  intro hall
  cases hd : Diagnostics.HasErrors d with
  | false => rfl
  | true =>
    obtain ⟨x, hx, hsev⟩ := (hasErrors_eq_true_iff d).mp hd
    rcases hall x hx with h | h <;> rw [hsev] at h <;> exact absurd h (by decide)

/-- C10: `d.Append(x)` has length `len(d)+1`, its first `len(d)` entries are the
entries of `d` in their order, and its last entry is `x`. -/
theorem C10_append_whole_list (d : Diagnostics) (x : Diagnostic) :
    (Diagnostics.Append d x).length = d.length + 1
    ∧ (Diagnostics.Append d x).take d.length = d
    ∧ (∀ i (h : i < d.length), (Diagnostics.Append d x)[i]? = some (d.get ⟨i, h⟩))
    ∧ (Diagnostics.Append d x)[d.length]? = some x
    ∧ (Diagnostics.Append d x).getLast? = some x := by
  refine ⟨by simp [Diagnostics.Append], by simp [Diagnostics.Append], ?_, ?_, ?_⟩
  · intro i h
    simp [Diagnostics.Append, List.getElem?_append_left h]
  · simp [Diagnostics.Append]
  · simp [Diagnostics.Append]

/-- C11: `d.Extend(e)` is `d` followed by `e`: its length is `len(d)+len(e)`,
its first `len(d)` entries are those of `d` and the next `len(e)` those of `e`,
both in their order; extending by the empty list gives `d`; and `d.Append(x)`
is `d.Extend` of the one-element list holding `x`. -/
theorem C11_extend_concat (d e : Diagnostics) (x : Diagnostic) :
    (Diagnostics.Extend d e).length = d.length + e.length
    ∧ (Diagnostics.Extend d e).take d.length = d
    ∧ (Diagnostics.Extend d e).drop d.length = e
    ∧ (∀ i (h : i < d.length), (Diagnostics.Extend d e)[i]? = some (d.get ⟨i, h⟩))
    ∧ (∀ j (h : j < e.length),
        (Diagnostics.Extend d e)[d.length + j]? = some (e.get ⟨j, h⟩))
    ∧ Diagnostics.Extend d [] = d
    ∧ Diagnostics.Append d x = Diagnostics.Extend d [x] := by
  refine ⟨by simp [Diagnostics.Extend], by simp [Diagnostics.Extend],
    by simp [Diagnostics.Extend], ?_, ?_, by simp [Diagnostics.Extend], rfl⟩
  · intro i h
    simp [Diagnostics.Extend, List.getElem?_append_left h]
  · intro j h
    simp [Diagnostics.Extend, List.getElem?_append_right, List.getElem?_eq_getElem h]

/-- C12: `d.Error()` is `no diagnostics` for the empty list, `d[0].Error()` for a
list of one entry, and for `n >= 2` entries `d[0].Error()` followed by `, and `,
the decimal of `n-1` and ` other diagnostic(s)`; two lists with the same first
entry and the same length have the same text, so only the first diagnostic's
text appears. -/
theorem C12_diagnostics_error (rangeString : Range → String) (d0 d1 : Diagnostic)
    (rest rest' : Diagnostics) :
    Diagnostics.Error rangeString [] = "no diagnostics"
    ∧ Diagnostics.Error rangeString [d0] = Diagnostic.Error rangeString d0
    ∧ Diagnostics.Error rangeString (d0 :: d1 :: rest)
        = Diagnostic.Error rangeString d0 ++ ", and "
            ++ Nat.repr ((d0 :: d1 :: rest).length - 1) ++ " other diagnostic(s)"
    ∧ Diagnostics.Error rangeString [d0, d1]
        = Diagnostic.Error rangeString d0 ++ ", and 1 other diagnostic(s)"
    ∧ (rest.length = rest'.length →
        Diagnostics.Error rangeString (d0 :: rest)
          = Diagnostics.Error rangeString (d0 :: rest')) := by
  refine ⟨rfl, rfl, rfl, ?_, ?_⟩
  · simp [Diagnostics.Error, String.append_assoc]
    rfl
  · intro hlen
    cases rest with
    | nil =>
      cases rest' with
      | nil => rfl
      | cons a as => simp at hlen
    | cons b bs =>
      cases rest' with
      | nil => simp at hlen
      | cons a as =>
        simp only [List.length_cons] at hlen
        simp only [Diagnostics.Error, List.length_cons]
        rw [show bs.length = as.length by omega]

/-- The text of a list of three diagnostics without subject. -/
theorem diagnostics_error_three :
    Diagnostics.Error (fun _ => "r")
        [ ⟨DiagError, "s", "d", none, none, none, none⟩,
          ⟨DiagError, "x", "y", none, none, none, none⟩,
          ⟨DiagWarning, "z", "w", none, none, none, none⟩ ]
      = "s; d, and 2 other diagnostic(s)" := by
  decide

/-- C13: `x.Error()` is `Summary + "; " + Detail` when `Subject` is nil and the
string form of the subject range, then `: `, then `Summary + "; " + Detail` when
`Subject` is set; changing `Severity`, `Context`, `Expression` or `EvalContext`
does not change it. -/
theorem C13_diagnostic_error (rangeString : Range → String) (x : Diagnostic) :
    (x.Subject = none →
        Diagnostic.Error rangeString x = x.Summary ++ "; " ++ x.Detail)
    ∧ (∀ r : Range, x.Subject = some r →
        Diagnostic.Error rangeString x
          = rangeString r ++ ": " ++ x.Summary ++ "; " ++ x.Detail)
    ∧ (∀ (sev : DiagnosticSeverity) (ctx : Option Range) (expr ectx : Option Nat),
        Diagnostic.Error rangeString
            { x with Severity := sev, Context := ctx, Expression := expr,
                     EvalContext := ectx }
          = Diagnostic.Error rangeString x) := by
  refine ⟨?_, ?_, ?_⟩
  · intro h
    simp [Diagnostic.Error, h]
  · intro r h
    simp [Diagnostic.Error, h]
  · intro sev ctx expr ectx
    rfl

end hcl

/-! ## Theorems: the block constructor -/

namespace hclwrite

open TokenType

/-- The label node `Block.init` builds for one label. -/
theorem labelStep_fst (st : nodes × nodeSet) (label : String) :
    (Block.init.labelStep st label).1
      = st.1 ++ [newQuoted (TokensForValue (cty.StringVal label))] := rfl

theorem labelStep_snd (st : nodes × nodeSet) (label : String)
    (h : ∀ i ∈ st.2, i < st.1.length) :
    (Block.init.labelStep st label).2 = st.2 ++ [st.1.length] := by
  have hn : st.1.length ∉ st.2 := fun hm => Nat.lt_irrefl _ (h _ hm)
  simp [Block.init.labelStep, nodes.Append, nodeSet.Add, hn]

/-- The label loop of `Block.init` appends one quoted node per label, in order,
and records exactly the positions of those nodes. -/
theorem labelLoop_spec (labels : List String) (cs : nodes) (set : nodeSet)
    (h : ∀ i ∈ set, i < cs.length) :
    labels.foldl Block.init.labelStep (cs, set)
      = (cs ++ labels.map (fun l => newQuoted (TokensForValue (cty.StringVal l))),
         set ++ List.range' cs.length labels.length) := by
  induction labels generalizing cs set with
  | nil => simp
  | cons l rest ih =>
    have h1 := labelStep_fst (cs, set) l
    have h2 := labelStep_snd (cs, set) l h
    simp only [List.foldl_cons]
    have hst : Block.init.labelStep (cs, set) l
        = (cs ++ [newQuoted (TokensForValue (cty.StringVal l))], set ++ [cs.length]) :=
      Prod.ext h1 h2
    rw [hst, ih]
    · simp [List.range'_succ, Nat.add_comm]
    · intro i hi
      simp only [List.mem_append, List.mem_singleton] at hi
      rcases hi with hi | hi
      · have := h i hi
        simp only [List.length_append, List.length_singleton]
        omega
      · simp [hi]

/-- The six pointer fields and the child list of a freshly constructed block. -/
theorem NewBlock_eq (t : String) (ls : List String) :
    NewBlock t ls =
      { children :=
          [newComments [], newIdentifier (newIdentToken t)]
            ++ ls.map (fun l => newQuoted (TokensForValue (cty.StringVal l)))
            ++ [nodeContent.Tokens
                  [ { Type_ := TokenOBrace, Bytes := "\x7b" },
                    { Type_ := TokenNewline, Bytes := "\n" } ],
                nodeContent.Body [],
                nodeContent.Tokens
                  [ { Type_ := TokenCBrace, Bytes := "\x7d" },
                    { Type_ := TokenNewline, Bytes := "\n" } ]],
        leadComments := some 0,
        typeName := some 1,
        labels := List.range' 2 ls.length,
        open_ := some (2 + ls.length),
        body := some (3 + ls.length),
        close := some (4 + ls.length) } := by
  have hloop := labelLoop_spec ls [newComments [], newIdentifier (newIdentToken t)] []
    (by simp)
  simp only [List.length_cons, List.length_nil, List.nil_append] at hloop
  simp only [NewBlock, Block.init, newBlock, newNodeSet, nodes.Append,
    nodes.AppendUnstructuredTokens, List.nil_append, List.length_nil, List.length_cons,
    List.cons_append, List.length_append, List.length_map, List.length_singleton,
    newBody, Body.toContent]
  rw [hloop]
  simp [Nat.add_comm, Nat.add_left_comm]

/-- C2: `NewBlock(t, ls).Type()` returns exactly `t`, the bytes of the block's
type-name identifier token. -/
theorem C2_newBlock_type (t : String) (ls : List String) :
    (NewBlock t ls).Type_ = some t := by
  rw [NewBlock_eq]
  simp [Block.Type_, nodes.content, newIdentifier, newIdentToken, newComments]

/-- The label loop of `Block.Labels` over a run of quoted nodes. -/
theorem labelsLoop_quoted (labels : List String) (pre post : nodes) (acc : List String) :
    Block.Labels.loop
        (pre ++ labels.map (fun l => newQuoted (TokensForValue (cty.StringVal l))) ++ post)
        (List.range' pre.length labels.length) acc
      = some (acc ++ labels.map (fun l =>
          strings.Trim (Tokens.Bytes (TokensForValue (cty.StringVal l))) " \"")) := by
  induction labels generalizing pre acc with
  | nil => simp [Block.Labels.loop]
  | cons l rest ih =>
    have hspec := ih (pre ++ [newQuoted (TokensForValue (cty.StringVal l))])
      (acc ++ [strings.Trim (Tokens.Bytes (TokensForValue (cty.StringVal l))) " \""])
    simp only [List.length_append, List.length_singleton, List.append_assoc,
      List.singleton_append] at hspec
    simp only [List.map_cons, List.length_cons, List.range'_succ, Block.Labels.loop,
      nodes.content, List.append_assoc, List.cons_append]
    rw [List.getElem?_append_right (Nat.le_refl _)]
    simp only [Nat.sub_self, List.getElem?_cons_zero, newQuoted]
    simp only [newQuoted] at hspec
    simpa using hspec

theorem filter_mem_range' (n m N : Nat) (h : n + m ≤ N) :
    (List.range N).filter (fun i => decide (i ∈ List.range' n m)) = List.range' n m := by
  obtain ⟨k, rfl⟩ := Nat.exists_eq_add_of_le h
  have hsplit : List.range (n + m + k)
      = List.range' 0 n ++ (List.range' n m ++ List.range' (n + m) k) := by
    have e1 : List.range' n m ++ List.range' (n + m) k = List.range' n (k + m) :=
      List.range'_append_1 n m k
    have e2 : List.range' 0 n ++ List.range' (0 + n) (k + m) = List.range' 0 (k + m + n) :=
      List.range'_append_1 0 n (k + m)
    rw [Nat.zero_add] at e2
    rw [List.range_eq_range', e1, e2]
    congr 1
    omega
  rw [hsplit, List.filter_append, List.filter_append]
  have h1 : (List.range' 0 n).filter (fun i => decide (i ∈ List.range' n m)) = [] := by
    rw [List.filter_eq_nil_iff]
    intro a ha
    simp only [List.mem_range'_1] at ha
    simp only [List.mem_range'_1, decide_eq_true_eq]
    omega
  have h2 : (List.range' n m).filter (fun i => decide (i ∈ List.range' n m))
      = List.range' n m := by
    rw [List.filter_eq_self]
    intro a ha
    simpa using ha
  have h3 : (List.range' (n + m) k).filter (fun i => decide (i ∈ List.range' n m)) = [] := by
    rw [List.filter_eq_nil_iff]
    intro a ha
    simp only [List.mem_range'_1] at ha
    simp only [List.mem_range'_1, decide_eq_true_eq]
    omega
  rw [h1, h2, h3]
  simp

/-- What `Labels()` returns for a freshly constructed block: for each given
label, in order, the bytes of its rendered tokens with the spaces and double
quotes at both ends trimmed. -/
theorem NewBlock_Labels (t : String) (ls : List String) :
    (NewBlock t ls).Labels
      = some (ls.map (fun l =>
          strings.Trim (Tokens.Bytes (TokensForValue (cty.StringVal l))) " \"")) := by
  rw [NewBlock_eq]
  simp only [Block.Labels]
  rw [show nodeSet.List (List.range' 2 ls.length)
        ([newComments [], newIdentifier (newIdentToken t)]
          ++ ls.map (fun l => newQuoted (TokensForValue (cty.StringVal l)))
          ++ [nodeContent.Tokens
                [ { Type_ := TokenOBrace, Bytes := "\x7b" },
                  { Type_ := TokenNewline, Bytes := "\n" } ],
              nodeContent.Body [],
              nodeContent.Tokens
                [ { Type_ := TokenCBrace, Bytes := "\x7d" },
                  { Type_ := TokenNewline, Bytes := "\n" } ]])
      = List.range' 2 ls.length from by
        unfold nodeSet.List
        apply filter_mem_range'
        simp only [List.length_append, List.length_cons, List.length_nil, List.length_map]
        omega]
  have h := labelsLoop_quoted ls [newComments [], newIdentifier (newIdentToken t)]
    [nodeContent.Tokens
        [ { Type_ := TokenOBrace, Bytes := "\x7b" },
          { Type_ := TokenNewline, Bytes := "\n" } ],
      nodeContent.Body [],
      nodeContent.Tokens
        [ { Type_ := TokenCBrace, Bytes := "\x7d" },
          { Type_ := TokenNewline, Bytes := "\n" } ]] []
  simpa using h

/-- A code point that is no double quote, no backslash and no C0 control is not
escaped. -/
theorem escapeChar_plain (c : Char) (h : c ≠ '"' ∧ c ≠ '\\' ∧ 32 ≤ c.toNat) :
    escapeChar c = [c] := by
  obtain ⟨h1, h2, h3⟩ := h
  have hn : c ≠ '\n' := by rintro rfl; exact absurd h3 (by decide)
  have ht : c ≠ '\t' := by rintro rfl; exact absurd h3 (by decide)
  have hr : c ≠ '\r' := by rintro rfl; exact absurd h3 (by decide)
  simp [escapeChar, h1, h2, hn, ht, hr, Nat.not_lt.mpr h3]

theorem escapeQuotedStringLit_plain (s : String)
    (h : ∀ c ∈ s.data, c ≠ '"' ∧ c ≠ '\\' ∧ 32 ≤ c.toNat) :
    escapeQuotedStringLit s = s := by
  have hl : ∀ l : List Char, (∀ c ∈ l, c ≠ '"' ∧ c ≠ '\\' ∧ 32 ≤ c.toNat) →
      l.flatMap escapeChar = l := by
    intro l
    induction l with
    | nil => intro _; rfl
    | cons c rest ih =>
      intro hc
      rw [List.flatMap_cons, escapeChar_plain c (hc c (List.mem_cons_self _ _)),
        ih (fun d hd => hc d (List.mem_cons_of_mem _ hd))]
      rfl
  unfold escapeQuotedStringLit
  rw [hl s.data h]

/-- The bytes of a rendered string: the escaped content between two double
quotes. -/
theorem bytes_TokensForValue_string (s : String) :
    (Tokens.Bytes (TokensForValue (cty.StringVal s))).data
      = '"' :: ((escapeQuotedStringLit s).data ++ ['"']) := by
  simp [TokensForValue, cty.StringVal, Tokens.Bytes, String.data_append]

/-- Trimming spaces and double quotes from a quoted string gives the string back
when it has no double quote at all and no space at either end. -/
theorem Trim_quoted (l : List Char) (hq : ∀ c ∈ l, c ≠ '"')
    (hhead : l.head? ≠ some ' ') (hlast : l.getLast? ≠ some ' ') :
    strings.Trim (String.mk ('"' :: (l ++ ['"']))) " \"" = String.mk l := by
  have hcut : (" \"" : String).data = [' ', '"'] := rfl
  unfold strings.Trim
  rw [hcut]
  congr 1
  cases l with
  | nil => decide
  | cons c rest =>
    have hc1 : c ≠ ' ' := by simpa using hhead
    have hc2 : c ≠ '"' := hq c (List.mem_cons_self _ _)
    have hdrop : List.dropWhile (fun c => decide (c ∈ [' ', '"']))
        ('"' :: (c :: rest ++ ['"'])) = c :: rest ++ ['"'] := by
      simp [List.dropWhile, hc1, hc2]
    rw [hdrop, List.rdropWhile_concat_pos _ _ _ (by decide), List.rdropWhile_eq_self_iff]
    intro hne
    have hmem := List.getLast_mem hne
    have hl1 : (c :: rest).getLast hne ≠ ' ' := by
      intro heq
      apply hlast
      rw [List.getLast?_eq_getLast _ hne, heq]
    have hl2 : (c :: rest).getLast hne ≠ '"' := hq _ hmem
    simp [hl1, hl2]

/-- C1 (counterexample): a label holding a double quote does not come back from
`Labels()`; the rendering escapes the quote and `Labels()` interprets no
escape. -/
theorem C1_counterexample :
    (NewBlock "service" ["a\"b"]).Labels = some ["a\\\"b"]
    ∧ (NewBlock "service" ["a\"b"]).Labels ≠ some ["a\"b"] := by
  constructor <;> decide

/-- C1 (amended): `NewBlock(t, ls).Labels()` returns as many labels as were
given, in the same order, and the i-th one equals the i-th given label whenever
that label holds no double quote, no backslash and no C0 control character
(nothing the rendering escapes) and has no space at either end. -/
theorem C1_newBlock_labels (t : String) (ls : List String) :
    ∃ out : List String,
      (NewBlock t ls).Labels = some out
      ∧ out.length = ls.length
      ∧ ∀ (i : Nat) (l : String), ls[i]? = some l →
          (∀ c ∈ l.data, c ≠ '"' ∧ c ≠ '\\' ∧ 32 ≤ c.toNat) →
          l.data.head? ≠ some ' ' → l.data.getLast? ≠ some ' ' →
          out[i]? = some l := by
  refine ⟨_, NewBlock_Labels t ls, by simp, ?_⟩
  intro i l hi hplain hhead hlast
  rw [List.getElem?_map, hi]
  simp only [Option.map_some']
  congr 1
  have hb := bytes_TokensForValue_string l
  rw [escapeQuotedStringLit_plain l hplain] at hb
  have hs : Tokens.Bytes (TokensForValue (cty.StringVal l))
      = String.mk ('"' :: (l.data ++ ['"'])) := by
    rw [← hb]
  rw [hs, Trim_quoted l.data (fun c hc => (hplain c hc).1) hhead hlast]

theorem nodes_BuildTokens_append (a b : nodes) :
    nodes.BuildTokens (a ++ b) = nodes.BuildTokens a ++ nodes.BuildTokens b := by
  induction a with
  | nil => simp [nodes.BuildTokens]
  | cons c rest ih => simp [nodes.BuildTokens, ih]

theorem nodes_BuildTokens_quoted (ls : List String) :
    nodes.BuildTokens (ls.map (fun l => newQuoted (TokensForValue (cty.StringVal l))))
      = ls.flatMap (fun l => TokensForValue (cty.StringVal l)) := by
  induction ls with
  | nil => simp [nodes.BuildTokens]
  | cons l rest ih =>
    simp only [newQuoted] at ih
    simp [nodes.BuildTokens, nodeContent.BuildTokens, newQuoted, ih]

/-- The tokens of a freshly constructed block. -/
theorem NewBlock_BuildTokens (t : String) (ls : List String) :
    (NewBlock t ls).BuildTokens
      = [{ Type_ := TokenIdent, Bytes := t, SpacesBefore := 0 }]
        ++ ls.flatMap (fun l =>
            [ { Type_ := TokenOQuote, Bytes := "\"", SpacesBefore := 0 },
              { Type_ := TokenQuotedLit, Bytes := escapeQuotedStringLit l, SpacesBefore := 0 },
              { Type_ := TokenCQuote, Bytes := "\"", SpacesBefore := 0 } ])
        ++ [ { Type_ := TokenOBrace, Bytes := "\x7b", SpacesBefore := 0 },
             { Type_ := TokenNewline, Bytes := "\n", SpacesBefore := 0 },
             { Type_ := TokenCBrace, Bytes := "\x7d", SpacesBefore := 0 },
             { Type_ := TokenNewline, Bytes := "\n", SpacesBefore := 0 } ] := by
  rw [NewBlock_eq]
  simp only [Block.BuildTokens, nodes_BuildTokens_append, nodes_BuildTokens_quoted]
  simp [nodes.BuildTokens, nodeContent.BuildTokens, newComments, newIdentifier,
    newIdentToken, TokensForValue, cty.StringVal]

/-- C3 (counterexample): as constructed, the open brace of `NewBlock("foo", nil)`
has `SpacesBefore` 0, not 1. -/
theorem C3_counterexample :
    (NewBlock "foo" []).BuildTokens
      = [ { Type_ := TokenIdent, Bytes := "foo", SpacesBefore := 0 },
          { Type_ := TokenOBrace, Bytes := "\x7b", SpacesBefore := 0 },
          { Type_ := TokenNewline, Bytes := "\n", SpacesBefore := 0 },
          { Type_ := TokenCBrace, Bytes := "\x7d", SpacesBefore := 0 },
          { Type_ := TokenNewline, Bytes := "\n", SpacesBefore := 0 } ]
    ∧ (NewBlock "foo" []).BuildTokens
      ≠ [ { Type_ := TokenIdent, Bytes := "foo", SpacesBefore := 0 },
          { Type_ := TokenOBrace, Bytes := "\x7b", SpacesBefore := 1 },
          { Type_ := TokenNewline, Bytes := "\n", SpacesBefore := 0 },
          { Type_ := TokenCBrace, Bytes := "\x7d", SpacesBefore := 0 },
          { Type_ := TokenNewline, Bytes := "\n", SpacesBefore := 0 } ] := by
  constructor <;> decide

/-- C3 (amended): the token sequence of the block constructed by `NewBlock(t, ls)`
is, in order: one identifier token with bytes `t`; for each label in the given
order an open-quote token, a quoted-literal token holding the escaped label and
a close-quote token; an open-brace token; a newline token; no body tokens; a
close-brace token; a newline token. Every one of these tokens has `SpacesBefore`
0 as constructed. The sequence holds exactly one open-brace and exactly one
close-brace token, each immediately followed by a newline token. -/
theorem C3_newBlock_tokens (t : String) (ls : List String) :
    (NewBlock t ls).BuildTokens
      = [{ Type_ := TokenIdent, Bytes := t, SpacesBefore := 0 }]
        ++ ls.flatMap (fun l =>
            [ { Type_ := TokenOQuote, Bytes := "\"", SpacesBefore := 0 },
              { Type_ := TokenQuotedLit, Bytes := escapeQuotedStringLit l, SpacesBefore := 0 },
              { Type_ := TokenCQuote, Bytes := "\"", SpacesBefore := 0 } ])
        ++ [ { Type_ := TokenOBrace, Bytes := "\x7b", SpacesBefore := 0 },
             { Type_ := TokenNewline, Bytes := "\n", SpacesBefore := 0 },
             { Type_ := TokenCBrace, Bytes := "\x7d", SpacesBefore := 0 },
             { Type_ := TokenNewline, Bytes := "\n", SpacesBefore := 0 } ]
    ∧ (∀ tok ∈ (NewBlock t ls).BuildTokens, tok.SpacesBefore = 0)
    ∧ ((NewBlock t ls).BuildTokens.filter
        (fun tok => decide (tok.Type_ = TokenOBrace))).length = 1
    ∧ ((NewBlock t ls).BuildTokens.filter
        (fun tok => decide (tok.Type_ = TokenCBrace))).length = 1 := by
  have hlab : ∀ (p : Token → Bool),
      (∀ l : String, p { Type_ := TokenOQuote, Bytes := "\"", SpacesBefore := 0 } = false
        ∧ p { Type_ := TokenQuotedLit, Bytes := escapeQuotedStringLit l, SpacesBefore := 0 }
            = false
        ∧ p { Type_ := TokenCQuote, Bytes := "\"", SpacesBefore := 0 } = false) →
      (ls.flatMap (fun l =>
            [ ({ Type_ := TokenOQuote, Bytes := "\"", SpacesBefore := 0 } : Token),
              { Type_ := TokenQuotedLit, Bytes := escapeQuotedStringLit l, SpacesBefore := 0 },
              { Type_ := TokenCQuote, Bytes := "\"", SpacesBefore := 0 } ])).filter p = [] := by
    intro p hp
    rw [List.filter_eq_nil_iff]
    intro a ha
    simp only [List.mem_flatMap, List.mem_cons, List.mem_singleton, List.not_mem_nil,
      or_false] at ha
    obtain ⟨l, -, h | h | h⟩ := ha <;> subst h <;> simp [hp l]
  refine ⟨NewBlock_BuildTokens t ls, ?_, ?_, ?_⟩
  · intro tok htok
    rw [NewBlock_BuildTokens] at htok
    simp only [List.mem_append, List.mem_flatMap, List.mem_cons, List.mem_singleton,
      List.not_mem_nil, or_false] at htok
    rcases htok with (h | ⟨l, -, h | h | h⟩) | h | h | h | h <;> subst h <;> rfl
  · rw [NewBlock_BuildTokens, List.filter_append, List.filter_append,
      hlab _ (fun l => ⟨by decide, by simp, by decide⟩)]
    simp
  · rw [NewBlock_BuildTokens, List.filter_append, List.filter_append,
      hlab _ (fun l => ⟨by decide, by simp, by decide⟩)]
    simp

/-! ## Theorems: block lookup -/

theorem labelsEqual_iff (a b : List String) : labelsEqual a b = true ↔ a = b := by
  induction a generalizing b with
  | nil => cases b <;> simp [labelsEqual]
  | cons x xs ih => cases b <;> simp [labelsEqual, ih]

/-- The scan returns nil when no block matches. -/
theorem GetBlock_loop_none (T : String) (L : List String) (l : List Block)
    (hwf : ∀ blk ∈ l, blk.Type_.isSome = true ∧ blk.unquotedLabels.isSome = true)
    (hno : ∀ blk ∈ l, ¬ (blk.Type_ = some T ∧ blk.unquotedLabels = some L)) :
    Body.GetBlock.loop T L l = some none := by
  induction l with
  | nil => rfl
  | cons blk rest ih =>
    have ih' := ih (fun x hx => hwf x (List.mem_cons_of_mem _ hx))
      (fun x hx => hno x (List.mem_cons_of_mem _ hx))
    obtain ⟨hty, hlab⟩ := hwf blk (List.mem_cons_self _ _)
    obtain ⟨ty, hty⟩ := Option.isSome_iff_exists.mp hty
    obtain ⟨ln, hlab⟩ := Option.isSome_iff_exists.mp hlab
    have hn := hno blk (List.mem_cons_self _ _)
    simp only [Body.GetBlock.loop, hty, hlab]
    by_cases h1 : ty = T
    · subst h1
      have h2 : labelsEqual ln L = false := by
        cases hle : labelsEqual ln L with
        | false => rfl
        | true =>
          exact absurd ⟨hty, by rw [hlab, (labelsEqual_iff ln L).mp hle]⟩ hn
      simp [h2, ih']
    · simp [h1, ih']

/-- The scan returns the first block that matches. -/
theorem GetBlock_loop_first (T : String) (L : List String) (pre : List Block)
    (blk : Block) (post : List Block)
    (hwf : ∀ x ∈ pre, x.Type_.isSome = true ∧ x.unquotedLabels.isSome = true)
    (hty : blk.Type_ = some T) (hlab : blk.unquotedLabels = some L)
    (hno : ∀ x ∈ pre, ¬ (x.Type_ = some T ∧ x.unquotedLabels = some L)) :
    Body.GetBlock.loop T L (pre ++ blk :: post) = some (some blk) := by
  induction pre with
  | nil =>
    simp [Body.GetBlock.loop, hty, hlab, (labelsEqual_iff L L).mpr rfl]
  | cons x rest ih =>
    have ih' := ih (fun y hy => hwf y (List.mem_cons_of_mem _ hy))
      (fun y hy => hno y (List.mem_cons_of_mem _ hy))
    obtain ⟨hxt, hxl⟩ := hwf x (List.mem_cons_self _ _)
    obtain ⟨ty, hxt⟩ := Option.isSome_iff_exists.mp hxt
    obtain ⟨ln, hxl⟩ := Option.isSome_iff_exists.mp hxl
    have hn := hno x (List.mem_cons_self _ _)
    simp only [List.cons_append, Body.GetBlock.loop, hxt, hxl]
    by_cases h1 : ty = T
    · subst h1
      have h2 : labelsEqual ln L = false := by
        cases hle : labelsEqual ln L with
        | false => rfl
        | true =>
          exact absurd ⟨hxt, by rw [hxl, (labelsEqual_iff ln L).mp hle]⟩ hn
      simp [h2, ih']
    · simp [h1, ih']

/-- C4: for every body whose blocks have a readable type and readable labels,
every type name `T` and label list `L`: `GetBlock(T, L)` returns nil when no
block has type `T` and label sequence `L`, and otherwise the first block in
document order that has them. The label sequence of a block is the sequence of
the unquoted strings of its labels, and it equals `L` as a list: same length,
same order, equal strings. On the source of `TestBodyGetBlock`, `service` with
no labels, with `label1`, and with `label1, label2` finds the first, second and
third `service` block, and `label2` and `label2, label1` find nothing. A block
appended with the label space, `a` is found by that label and not by `a`. -/
theorem C4_getBlock_first_match (b : Body) (T : String) (L : List String)
    (hwf : ∀ blk ∈ b.Blocks, blk.Type_.isSome = true ∧ blk.unquotedLabels.isSome = true) :
    ((∀ blk ∈ b.Blocks, ¬ (blk.Type_ = some T ∧ blk.unquotedLabels = some L)) →
        b.GetBlock T L = some none)
    ∧ (∀ (pre : List Block) (blk : Block) (post : List Block),
        b.Blocks = pre ++ blk :: post → blk.Type_ = some T → blk.unquotedLabels = some L →
        (∀ x ∈ pre, ¬ (x.Type_ = some T ∧ x.unquotedLabels = some L)) →
        b.GetBlock T L = some (some blk))
    ∧ blockBytes (testBodyGetBlock.GetBlock "service" [])
        = some (some "service \x7b\n  attr0 = \"val0\"\n\x7d\n")
    ∧ blockBytes (testBodyGetBlock.GetBlock "service" ["label1"])
        = some (some "service \"label1\" \x7b\n  attr1 = \"val1\"\n\x7d\n")
    ∧ blockBytes (testBodyGetBlock.GetBlock "service" ["label1", "label2"])
        = some (some "service \"label1\" \"label2\" \x7b\n  attr2 = \"val2\"\n\x7d\n")
    ∧ blockBytes (testBodyGetBlock.GetBlock "service" ["label2"]) = some none
    ∧ blockBytes (testBodyGetBlock.GetBlock "service" ["label2", "label1"]) = some none
    ∧ (testBodyGetBlock.Blocks.map Block.unquotedLabels)
        = [some [], some ["label1"], some ["label1", "label2"], some []]
    ∧ blockBytes ((testBodyGetBlock.AppendNewBlock "service" [" a"]).1.GetBlock "service" [" a"])
        = some (some "service\" a\"\x7b\n\x7d\n")
    ∧ blockBytes ((testBodyGetBlock.AppendNewBlock "service" [" a"]).1.GetBlock "service" ["a"])
        = some none := by
  refine ⟨?_, ?_, by decide, by decide, by decide, by decide, by decide, by decide,
    by decide, by decide⟩
  · intro hno
    exact GetBlock_loop_none T L b.Blocks hwf hno
  · intro pre blk post hsplit hty hlab hno
    unfold Body.GetBlock
    rw [hsplit]
    refine GetBlock_loop_first T L pre blk post ?_ hty hlab hno
    intro x hx
    exact hwf x (by rw [hsplit]; exact List.mem_append_left _ hx)

/-- C4 (witness): the blocks of the source of `TestBodyGetBlock` have a readable
type and readable labels; there the lookup of a `hoge` block returns nil, and
the lookup of `service "label1"` returns the second `service` block. -/
theorem C4_witness :
    (∀ blk ∈ testBodyGetBlock.Blocks,
        blk.Type_.isSome = true ∧ blk.unquotedLabels.isSome = true)
    ∧ testBodyGetBlock.GetBlock "hoge" [] = some none
    ∧ blockBytes (testBodyGetBlock.GetBlock "service" ["label1"])
        = some (some "service \"label1\" \x7b\n  attr1 = \"val1\"\n\x7d\n") :=
  ⟨by decide,
   (C4_getBlock_first_match testBodyGetBlock "hoge" [] (by decide)).1 (by decide),
   (C4_getBlock_first_match testBodyGetBlock "service" ["label1"] (by decide)).2.2.2.1⟩

/-! ## Theorems: attribute lookup and lead comments -/

theorem filterMap_asAttribute_strayNode (ts : Tokens) :
    (strayNode ts).filterMap asAttribute = [] := by
  unfold strayNode
  split <;> simp [asAttribute]

/-- The attributes of a built body are the attribute nodes of its constructs, in
document order. -/
theorem AttributeList_buildBody (items : List Item) (trailing : Tokens) :
    (buildBody items trailing).AttributeList = items.filterMap Item.attr := by
  have h : ∀ l : List Item, (buildItems l).filterMap asAttribute = l.filterMap Item.attr := by
    intro l
    induction l with
    | nil => simp [buildItems]
    | cons it rest ih =>
      cases it with
      | ofAttribute before name equals expr lc nl =>
        simp [buildItems, buildItem, List.filterMap_append, filterMap_asAttribute_strayNode,
          Attribute.toContent, asAttribute, Item.attr, ih, buildAttribute]
      | ofBlock before ty labels o body bt c =>
        simp [buildItems, buildItem, List.filterMap_append, filterMap_asAttribute_strayNode,
          asAttribute, Item.attr, ih]
  simp [buildBody, Body.AttributeList, List.filterMap_append, h,
    filterMap_asAttribute_strayNode]

theorem buildAttribute_Name (before : Tokens) (name equals : Token)
    (expr lc nl : Tokens) :
    (buildAttribute before name equals expr lc nl).Name = some name.Bytes := rfl

theorem buildAttribute_BuildTokens (before : Tokens) (name equals : Token)
    (expr lc nl : Tokens) :
    (buildAttribute before name equals expr lc nl).BuildTokens
      = leadCommentTokens before ++ [name] ++ [equals] ++ expr ++ lc ++ nl := by
  simp [buildAttribute, Attribute.BuildTokens, nodes.BuildTokens, nodeContent.BuildTokens]

/-- The scan over the attribute nodes of constructs returns nil when no
construct is an attribute of that name. -/
theorem GetAttribute_loop_none (n : String) (items : List Item)
    (hno : ∀ it ∈ items, it.attrName ≠ some n) :
    Body.GetAttribute.loop n (items.filterMap Item.attr) = some none := by
  induction items with
  | nil => rfl
  | cons it rest ih =>
    have ih' := ih (fun x hx => hno x (List.mem_cons_of_mem _ hx))
    have hn := hno it (List.mem_cons_self _ _)
    cases it with
    | ofAttribute before name equals expr lc nl =>
      have hne : name.Bytes ≠ n := fun h => hn (by simp [Item.attrName, h])
      simp [Item.attr, Body.GetAttribute.loop, buildAttribute_Name, hne, ih']
    | ofBlock before ty labels o body bt c =>
      simpa [Item.attr] using ih'

/-- The scan returns the first attribute of that name. -/
theorem GetAttribute_loop_first (n : String) (pre : List Item) (before : Tokens)
    (name equals : Token) (expr lc nl : Tokens) (post : List Item)
    (hname : name.Bytes = n) (hno : ∀ it ∈ pre, it.attrName ≠ some n) :
    Body.GetAttribute.loop n
        ((pre ++ Item.ofAttribute before name equals expr lc nl :: post).filterMap Item.attr)
      = some (some (buildAttribute before name equals expr lc nl)) := by
  induction pre with
  | nil =>
    simp [Item.attr, Body.GetAttribute.loop, buildAttribute_Name, hname]
  | cons it rest ih =>
    have ih' := ih (fun x hx => hno x (List.mem_cons_of_mem _ hx))
    have hn := hno it (List.mem_cons_self _ _)
    cases it with
    | ofAttribute before' name' equals' expr' lc' nl' =>
      have hne : name'.Bytes ≠ n := fun h => hn (by simp [Item.attrName, h])
      simp only [List.cons_append, List.filterMap_cons, Item.attr, Body.GetAttribute.loop,
        buildAttribute_Name, hne, if_false]
      exact ih'
    | ofBlock before' ty labels o body bt c =>
      simpa [Item.attr] using ih'

theorem GetAttribute_buildBody_none (items : List Item) (trailing : Tokens) (n : String) :
    (buildBody items trailing).GetAttribute n = some none
      ↔ ∀ it ∈ items, it.attrName ≠ some n := by
  unfold Body.GetAttribute
  rw [AttributeList_buildBody]
  constructor
  · intro h
    induction items with
    | nil => simp
    | cons it rest ih =>
      cases it with
      | ofAttribute before name equals expr lc nl =>
        by_cases hname : name.Bytes = n
        · simp [Item.attr, Body.GetAttribute.loop, buildAttribute_Name, hname] at h
        · simp only [List.filterMap_cons, Item.attr, Body.GetAttribute.loop,
            buildAttribute_Name, hname, if_false] at h
          intro x hx
          rcases List.mem_cons.mp hx with rfl | hx
          · simpa [Item.attrName] using hname
          · exact ih h x hx
      | ofBlock before ty labels o body bt c =>
        simp only [List.filterMap_cons, Item.attr] at h
        intro x hx
        rcases List.mem_cons.mp hx with rfl | hx
        · simp [Item.attrName]
        · exact ih h x hx
  · exact GetAttribute_loop_none n items

/-- Where attribute names do not repeat, no construct before an attribute has
its name. -/
theorem no_earlier_of_nodup (pre : List Item) (it : Item) (post : List Item) (n : String)
    (hn : it.attrName = some n)
    (hnodup : ((pre ++ it :: post).filterMap Item.attrName).Nodup) :
    ∀ x ∈ pre, x.attrName ≠ some n := by
  intro x hx hxn
  rw [List.filterMap_append, List.filterMap_cons, hn] at hnodup
  have hdisj := (List.nodup_append.mp hnodup).2.2
  have h1 : n ∈ pre.filterMap Item.attrName := List.mem_filterMap.mpr ⟨x, hx, hxn⟩
  exact hdisj h1 (List.mem_cons_self _ _)

/-- C7: on a body built from parsed constructs, `GetAttribute(n)` returns nil if
and only if no attribute of the body is named `n`; and where attribute names do
not repeat (no diagnostics), it returns for the attribute named `n` a node whose
`BuildTokens` is exactly that attribute's token run: its lead comments, its name
identifier, its `=`, its expression tokens, its line comments and its trailing
newline, each token as it was parsed. In `a = 1`, `b = 2`, `c = 3` the lookup of
`b` gives the identifier `b`, `=` after one space, `2` after one space and the
newline, and the lookup of `d` gives nil. -/
theorem C7_getAttribute (items : List Item) (trailing : Tokens) (n : String) :
    ((buildBody items trailing).GetAttribute n = some none
      ↔ ∀ it ∈ items, it.attrName ≠ some n)
    ∧ (∀ (pre : List Item) (before : Tokens) (name equals : Token) (expr lc nl : Tokens)
        (post : List Item),
        items = pre ++ Item.ofAttribute before name equals expr lc nl :: post →
        name.Bytes = n →
        (items.filterMap Item.attrName).Nodup →
        ∃ a : Attribute, (buildBody items trailing).GetAttribute n = some (some a)
          ∧ a.BuildTokens
              = leadCommentTokens before ++ [name] ++ [equals] ++ expr ++ lc ++ nl)
    ∧ attrTokens (testBodyThreeAttrs.GetAttribute "b")
        = some (some
            [ { Type_ := TokenIdent, Bytes := "b", SpacesBefore := 0 },
              { Type_ := TokenEqual, Bytes := "=", SpacesBefore := 1 },
              { Type_ := TokenNumberLit, Bytes := "2", SpacesBefore := 1 },
              { Type_ := TokenNewline, Bytes := "\n", SpacesBefore := 0 } ])
    ∧ attrTokens (testBodyThreeAttrs.GetAttribute "d") = some none := by
  refine ⟨GetAttribute_buildBody_none items trailing n, ?_, by decide, by decide⟩
  intro pre before name equals expr lc nl post hitems hname hnodup
  refine ⟨buildAttribute before name equals expr lc nl, ?_,
    buildAttribute_BuildTokens before name equals expr lc nl⟩
  unfold Body.GetAttribute
  rw [AttributeList_buildBody, hitems]
  apply GetAttribute_loop_first n pre before name equals expr lc nl post hname
  apply no_earlier_of_nodup pre (Item.ofAttribute before name equals expr lc nl) post n
    (by simp [Item.attrName, hname])
  rw [← hitems]
  exact hnodup

/-- The lead comments are the whole run of comment tokens that ends the tokens
before the construct. -/
theorem leadCommentTokens_append (stray comments : Tokens)
    (hcomments : ∀ t ∈ comments, t.Type_ = TokenComment)
    (hstray : ∀ t, stray.getLast? = some t → t.Type_ ≠ TokenComment) :
    leadCommentTokens (stray ++ comments) = comments := by
  unfold leadCommentTokens
  induction comments using List.reverseRecOn with
  | nil =>
    rw [List.append_nil, List.rtakeWhile_eq_nil_iff]
    intro hl
    have := hstray _ (List.getLast?_eq_getLast _ hl)
    simpa using this
  | append_singleton cs c ih =>
    have hc : c.Type_ = TokenComment := hcomments c (by simp)
    rw [← List.append_assoc, List.rtakeWhile_concat_pos _ _ _ (by simpa using hc),
      ih (fun t ht => hcomments t (by simp [ht]))]

/-- A newline token after the comments, the blank line, leaves no lead
comments. -/
theorem leadCommentTokens_blank (before : Tokens) (blank : Token)
    (hblank : blank.Type_ = TokenNewline) :
    leadCommentTokens (before ++ [blank]) = [] := by
  unfold leadCommentTokens
  rw [List.rtakeWhile_concat_neg]
  simp [hblank]

/-- C8: in a body built from parsed constructs, take an attribute that is the
first of its name. If the comment tokens `comments` are the run of comment
tokens that directly precedes its name token, `GetAttribute(name).BuildTokens()`
begins with those comment tokens and goes on with the name identifier; if a
newline token (a blank line) lies between the comments and the name,
`BuildTokens()` holds none of them and begins with the name identifier. -/
theorem C8_lead_comment_attachment (pre : List Item) (stray comments : Tokens)
    (name equals : Token) (expr lc nl : Tokens) (post : List Item) (trailing : Tokens)
    (blank : Token)
    (hcomments : ∀ t ∈ comments, t.Type_ = TokenComment)
    (hstray : ∀ t, stray.getLast? = some t → t.Type_ ≠ TokenComment)
    (hblank : blank.Type_ = TokenNewline)
    (hfirst : ∀ it ∈ pre, it.attrName ≠ some name.Bytes) :
    attrTokens ((buildBody
        (pre ++ Item.ofAttribute (stray ++ comments) name equals expr lc nl :: post)
        trailing).GetAttribute name.Bytes)
      = some (some (comments ++ [name] ++ [equals] ++ expr ++ lc ++ nl))
    ∧ attrTokens ((buildBody
        (pre ++ Item.ofAttribute (stray ++ comments ++ [blank]) name equals expr lc nl :: post)
        trailing).GetAttribute name.Bytes)
      = some (some ([name] ++ [equals] ++ expr ++ lc ++ nl)) := by
  constructor
  · unfold Body.GetAttribute
    rw [AttributeList_buildBody,
      GetAttribute_loop_first name.Bytes pre _ name equals expr lc nl post rfl hfirst]
    simp only [attrTokens, Option.map_some', buildAttribute_BuildTokens,
      leadCommentTokens_append stray comments hcomments hstray]
  · unfold Body.GetAttribute
    rw [AttributeList_buildBody,
      GetAttribute_loop_first name.Bytes pre _ name equals expr lc nl post rfl hfirst]
    simp only [attrTokens, Option.map_some', buildAttribute_BuildTokens,
      leadCommentTokens_blank (stray ++ comments) blank hblank, List.nil_append]

/-- C8 (witness): the two sources of `TestBodyGetAttribute` with a comment line
above `b = 2`: directly above, the tokens of `b` begin with the comment; with a
blank line between, they begin with the identifier `b`. -/
theorem C8_witness :
    attrTokens ((buildBody testItemsLeadComment []).GetAttribute "b")
      = some (some
          [ { Type_ := TokenComment, Bytes := "# b is a b\n", SpacesBefore := 0 },
            { Type_ := TokenIdent, Bytes := "b", SpacesBefore := 0 },
            { Type_ := TokenEqual, Bytes := "=", SpacesBefore := 1 },
            { Type_ := TokenNumberLit, Bytes := "2", SpacesBefore := 1 },
            { Type_ := TokenNewline, Bytes := "\n", SpacesBefore := 0 } ])
    ∧ attrTokens ((buildBody testItemsDetachedComment []).GetAttribute "b")
      = some (some
          [ { Type_ := TokenIdent, Bytes := "b", SpacesBefore := 0 },
            { Type_ := TokenEqual, Bytes := "=", SpacesBefore := 1 },
            { Type_ := TokenNumberLit, Bytes := "2", SpacesBefore := 1 },
            { Type_ := TokenNewline, Bytes := "\n", SpacesBefore := 0 } ]) :=
  C8_lead_comment_attachment [numberAttrItem [] "a" "1"] []
    [{ Type_ := TokenComment, Bytes := "# b is a b\n", SpacesBefore := 0 }]
    { Type_ := TokenIdent, Bytes := "b", SpacesBefore := 0 }
    { Type_ := TokenEqual, Bytes := "=", SpacesBefore := 1 }
    [{ Type_ := TokenNumberLit, Bytes := "2", SpacesBefore := 1 }] []
    [{ Type_ := TokenNewline, Bytes := "\n", SpacesBefore := 0 }]
    [numberAttrItem [] "c" "3"] []
    { Type_ := TokenNewline, Bytes := "\n", SpacesBefore := 0 }
    (by decide) (by decide) (by decide) (by decide)

/-! ## Theorems: the formatter changes `SpacesBefore` only -/

theorem linesForFormat_go_flatten (tokens cur : Tokens) :
    (linesForFormat.go tokens cur).flatten = cur ++ tokens := by
  induction tokens generalizing cur with
  | nil => cases cur <;> simp [linesForFormat.go]
  | cons t rest ih =>
    unfold linesForFormat.go
    split <;> simp [ih]

theorem formatSpaces_kindBytes (prev : Token) (l : Tokens) :
    (formatSpaces prev l).map Token.kindBytes = l.map Token.kindBytes := by
  induction l generalizing prev with
  | nil => rfl
  | cons t rest ih =>
    simp only [formatSpaces, List.map_cons, ih]
    congr 1
    cases spaceBefore prev t <;> rfl

theorem formatLine_kindBytes (indent : Nat) (l : Tokens) :
    (formatLine indent l).map Token.kindBytes = l.map Token.kindBytes := by
  cases l with
  | nil => rfl
  | cons t rest =>
    simp only [formatLine, List.map_cons, formatSpaces_kindBytes]
    congr 1
    split <;> rfl

theorem formatLines_kindBytes (depth : Nat) (ls : List Tokens) :
    (((formatLines depth ls).map Prod.snd).flatten).map Token.kindBytes
      = ls.flatten.map Token.kindBytes := by
  induction ls generalizing depth with
  | nil => rfl
  | cons l rest ih =>
    simp [formatLines, formatLine_kindBytes, ih]

theorem setEqualsSpaces_kindBytes (n : Nat) (l : Tokens) :
    (setEqualsSpaces n l).map Token.kindBytes = l.map Token.kindBytes := by
  unfold setEqualsSpaces
  split <;> rfl

theorem alignLines_kindBytes (back : Option (Nat × Nat)) (o : Nat)
    (ls : List (Nat × Tokens)) :
    ((alignLines back o ls).flatten).map Token.kindBytes
      = ((ls.map Prod.snd).flatten).map Token.kindBytes := by
  induction ls generalizing back o with
  | nil => rfl
  | cons dl rest ih =>
    obtain ⟨d, l⟩ := dl
    unfold alignLines
    split
    · simp [ih]
    · split
      · simp [ih]
      · split
        · simp [ih, setEqualsSpaces_kindBytes]
        · simp [ih]

/-- The formatter changes no kind, no bytes and not the order or the number of
tokens. -/
theorem format_kindBytes (tokens : Tokens) :
    (format tokens).map Token.kindBytes = tokens.map Token.kindBytes := by
  unfold format linesForFormat
  rw [alignLines_kindBytes, formatLines_kindBytes, linesForFormat_go_flatten]
  rfl

/-! ## Theorems: the attribute setter -/

theorem update_strayNode (n : String) (toks ts : Tokens) (rest : List nodeContent) :
    Body.SetAttributeValue.update n toks (strayNode ts ++ rest)
      = (Body.SetAttributeValue.update n toks rest).map
          (Option.map (fun cs => strayNode ts ++ cs)) := by
  unfold strayNode
  split
  · simp only [List.nil_append]
    cases Body.SetAttributeValue.update n toks rest with
    | none => rfl
    | some r => cases r <;> rfl
  · show Body.SetAttributeValue.update n toks (nodeContent.Tokens ts :: rest) = _
    simp only [Body.SetAttributeValue.update, asAttribute]
    rfl

theorem update_buildItem_other (n : String) (toks : Tokens) (it : Item)
    (rest : List nodeContent) (hne : it.attrName ≠ some n) :
    Body.SetAttributeValue.update n toks (buildItem it ++ rest)
      = (Body.SetAttributeValue.update n toks rest).map
          (Option.map (fun cs => buildItem it ++ cs)) := by
  cases it with
  | ofAttribute before name equals expr lc nl =>
    have hname : name.Bytes ≠ n := fun h => hne (by simp [Item.attrName, h])
    simp only [buildItem, List.append_assoc, update_strayNode, List.singleton_append,
      Body.SetAttributeValue.update, Attribute.toContent, asAttribute]
    have hN : Attribute.Name
        { children := (buildAttribute before name equals expr lc nl).children,
          leadComments := (buildAttribute before name equals expr lc nl).leadComments,
          name := (buildAttribute before name equals expr lc nl).name,
          expr := (buildAttribute before name equals expr lc nl).expr }
        = some name.Bytes := rfl
    simp only [hN, hname, if_false]
    cases Body.SetAttributeValue.update n toks rest with
    | none => rfl
    | some r => cases r <;> rfl
  | ofBlock before ty labels o body bt c =>
    simp only [buildItem, List.append_assoc, update_strayNode, List.singleton_append,
      Body.SetAttributeValue.update, asAttribute]
    cases Body.SetAttributeValue.update n toks rest with
    | none => rfl
    | some r => cases r <;> rfl

theorem buildItems_append (a b : List Item) :
    buildItems (a ++ b) = buildItems a ++ buildItems b := by
  induction a with
  | nil => simp [buildItems]
  | cons it rest ih => simp [buildItems, ih]

theorem update_buildItems_other (n : String) (toks : Tokens) (pre : List Item)
    (rest : List nodeContent) (hno : ∀ it ∈ pre, it.attrName ≠ some n) :
    Body.SetAttributeValue.update n toks (buildItems pre ++ rest)
      = (Body.SetAttributeValue.update n toks rest).map
          (Option.map (fun cs => buildItems pre ++ cs)) := by
  induction pre with
  | nil =>
    simp only [buildItems, List.nil_append]
    cases Body.SetAttributeValue.update n toks rest with
    | none => rfl
    | some r => cases r <;> rfl
  | cons it pre' ih =>
    have ih' := ih (fun x hx => hno x (List.mem_cons_of_mem _ hx))
    simp only [buildItems, List.append_assoc]
    rw [update_buildItem_other n toks it _ (hno it (List.mem_cons_self _ _)), ih']
    cases Body.SetAttributeValue.update n toks rest with
    | none => rfl
    | some r => cases r <;> simp

/-- The update path on the attribute it finds: the attribute node with the new
expression tokens and every other slot as it was. -/
theorem update_buildItem_hit (toks before : Tokens) (name equals : Token)
    (expr lc nl : Tokens) (rest : List nodeContent) :
    Body.SetAttributeValue.update name.Bytes toks
        (buildItem (Item.ofAttribute before name equals expr lc nl) ++ rest)
      = some (some (buildItem (Item.ofAttribute before name equals toks lc nl) ++ rest)) := by
  simp only [buildItem, List.append_assoc, update_strayNode, List.singleton_append,
    Body.SetAttributeValue.update, Attribute.toContent, asAttribute]
  have hN : Attribute.Name
      { children := (buildAttribute before name equals expr lc nl).children,
        leadComments := (buildAttribute before name equals expr lc nl).leadComments,
        name := (buildAttribute before name equals expr lc nl).name,
        expr := (buildAttribute before name equals expr lc nl).expr }
      = some name.Bytes := rfl
  simp only [hN, if_true]
  rfl

theorem nodes_BuildTokens_strayNode (ts : Tokens) :
    nodes.BuildTokens (strayNode ts) = ts := by
  unfold strayNode
  split
  · next h => simp [nodes.BuildTokens, h]
  · simp [nodes.BuildTokens, nodeContent.BuildTokens]

/-- The tokens of an attribute construct in the tree: the tokens before it, its
name, its `=`, its expression tokens, its line comments, its newline. -/
theorem nodes_BuildTokens_buildItem_attribute (before : Tokens) (name equals : Token)
    (expr lc nl : Tokens) :
    nodes.BuildTokens (buildItem (Item.ofAttribute before name equals expr lc nl))
      = before ++ [name, equals] ++ expr ++ lc ++ nl := by
  have hsplit : strayTokens before ++ leadCommentTokens before = before := by
    unfold strayTokens leadCommentTokens List.rdropWhile List.rtakeWhile
    rw [← List.reverse_append, List.takeWhile_append_dropWhile, List.reverse_reverse]
  simp only [buildItem, nodes_BuildTokens_append, nodes_BuildTokens_strayNode,
    Attribute.toContent, buildAttribute, nodes.BuildTokens, nodeContent.BuildTokens,
    List.append_nil, List.singleton_append, List.append_assoc, List.cons_append,
    List.nil_append]
  conv_rhs => rw [← hsplit]
  simp

/-- The setter on a built body that has the attribute: the body built from
the same constructs, the expression tokens of that attribute replaced. -/
theorem SetAttributeValue_update (pre post : List Item) (before : Tokens)
    (name equals : Token) (expr lc nl trailing : Tokens) (v : cty.Value)
    (hfirst : ∀ it ∈ pre, it.attrName ≠ some name.Bytes) :
    (buildBody (pre ++ Item.ofAttribute before name equals expr lc nl :: post)
        trailing).SetAttributeValue name.Bytes v
      = some (buildBody
          (pre ++ Item.ofAttribute before name equals (TokensForValue v) lc nl :: post)
          trailing) := by
  have hupd : Body.SetAttributeValue.update name.Bytes (TokensForValue v)
      (buildItems (pre ++ Item.ofAttribute before name equals expr lc nl :: post)
        ++ strayNode trailing)
      = some (some (buildItems
          (pre ++ Item.ofAttribute before name equals (TokensForValue v) lc nl :: post)
        ++ strayNode trailing)) := by
    rw [buildItems_append, List.append_assoc,
      update_buildItems_other _ _ pre _ hfirst]
    simp only [buildItems, List.append_assoc]
    rw [update_buildItem_hit]
    simp [buildItems_append, buildItems]
  simp only [Body.SetAttributeValue, buildBody, hupd]

theorem BuildTokens_buildBody_attribute (pre post : List Item) (before : Tokens)
    (name equals : Token) (expr lc nl trailing : Tokens) :
    (buildBody (pre ++ Item.ofAttribute before name equals expr lc nl :: post)
        trailing).BuildTokens
      = nodes.BuildTokens (buildItems pre) ++ before ++ [name, equals] ++ expr ++ lc ++ nl
          ++ nodes.BuildTokens (buildItems post) ++ trailing := by
  simp only [Body.BuildTokens, buildBody, buildItems_append, buildItems,
    nodes_BuildTokens_append, nodes_BuildTokens_buildItem_attribute,
    nodes_BuildTokens_strayNode, List.append_assoc]

/-- The setter on a built body without the attribute takes the insert path. -/
theorem SetAttributeValue_insert (items : List Item) (trailing : Tokens) (n : String)
    (v : cty.Value) (hno : ∀ it ∈ items, it.attrName ≠ some n) :
    (buildBody items trailing).SetAttributeValue n v
      = some { children :=
          (buildBody items trailing).children
            ++ newlineBeforeAppend (buildBody items trailing).BuildTokens
            ++ [(newAttribute n (TokensForValue v)).toContent] } := by
  have hupd : Body.SetAttributeValue.update n (TokensForValue v)
      (buildItems items ++ strayNode trailing) = some none := by
    rw [update_buildItems_other _ _ items _ hno]
    have h := update_strayNode n (TokensForValue v) trailing []
    simp only [List.append_nil, Body.SetAttributeValue.update] at h
    rw [h]
    rfl
  simp only [Body.SetAttributeValue, buildBody, hupd]

theorem newAttribute_BuildTokens (n : String) (toks : Tokens) :
    nodes.BuildTokens [(newAttribute n toks).toContent]
      = [ { Type_ := TokenIdent, Bytes := n, SpacesBefore := 0 },
          { Type_ := TokenEqual, Bytes := "=", SpacesBefore := 0 } ]
        ++ toks ++ [{ Type_ := TokenNewline, Bytes := "\n", SpacesBefore := 0 }] := by
  simp [newAttribute, buildAttribute, Attribute.toContent, nodes.BuildTokens,
    nodeContent.BuildTokens, leadCommentTokens, newIdentToken]

/-- C5 (counterexample): in the source `a   = 1` the `=` has three spaces
before it; after `SetAttributeValue("a", true)` and formatting it has one, so
the formatted file differs from the original outside the expression too. -/
theorem C5_counterexample :
    ({ Type_ := TokenEqual, Bytes := "=", SpacesBefore := 3 } : Token)
        ∈ (buildFile testItemsWideEquals []).BuildTokens
    ∧ formattedTokens (setAttributeValueInFile (buildFile testItemsWideEquals []) "a" cty.True)
      = some
          [ { Type_ := TokenIdent, Bytes := "a", SpacesBefore := 0 },
            { Type_ := TokenEqual, Bytes := "=", SpacesBefore := 1 },
            { Type_ := TokenIdent, Bytes := "true", SpacesBefore := 1 },
            { Type_ := TokenNewline, Bytes := "\n", SpacesBefore := 0 },
            { Type_ := TokenEOF, Bytes := "", SpacesBefore := 0 } ]
    ∧ formattedTokens (setAttributeValueInFile (buildFile testItemsWideEquals []) "a" cty.True)
      ≠ some
          [ { Type_ := TokenIdent, Bytes := "a", SpacesBefore := 0 },
            { Type_ := TokenEqual, Bytes := "=", SpacesBefore := 3 },
            { Type_ := TokenIdent, Bytes := "true", SpacesBefore := 1 },
            { Type_ := TokenNewline, Bytes := "\n", SpacesBefore := 0 },
            { Type_ := TokenEOF, Bytes := "", SpacesBefore := 0 } ] := by
  refine ⟨by decide, by decide, by decide⟩

/-- C5 (amended): update path of `SetAttributeValue`. In a file built from parsed
constructs, take the first attribute named `n`. After `SetAttributeValue(n, v)`
the file's token sequence differs from the original only in that attribute's
expression token run, which is replaced by the rendering of `v`: the tokens of
the constructs before it, its lead comments, name, `=`, line comments and
trailing newline, the tokens of the constructs after it and the single final EOF
token are unchanged and in the same order. The formatter pass that follows
changes `SpacesBefore` values only. In `a = 1`, `b = false` with `a := true`
the formatted file is `a = true`, `b = false`. -/
theorem C5_update_path (pre post : List Item) (before : Tokens) (name equals : Token)
    (expr lc nl trailing : Tokens) (v : cty.Value)
    (hfirst : ∀ it ∈ pre, it.attrName ≠ some name.Bytes) :
    ∃ f' : File,
      setAttributeValueInFile
          (buildFile (pre ++ Item.ofAttribute before name equals expr lc nl :: post) trailing)
          name.Bytes v = some f'
      ∧ (buildFile (pre ++ Item.ofAttribute before name equals expr lc nl :: post)
            trailing).BuildTokens
          = nodes.BuildTokens (buildItems pre) ++ before ++ [name, equals] ++ expr ++ lc ++ nl
              ++ nodes.BuildTokens (buildItems post) ++ trailing
              ++ [{ Type_ := TokenEOF, Bytes := "", SpacesBefore := 0 }]
      ∧ f'.BuildTokens
          = nodes.BuildTokens (buildItems pre) ++ before ++ [name, equals]
              ++ TokensForValue v ++ lc ++ nl
              ++ nodes.BuildTokens (buildItems post) ++ trailing
              ++ [{ Type_ := TokenEOF, Bytes := "", SpacesBefore := 0 }]
      ∧ (format f'.BuildTokens).map Token.kindBytes = f'.BuildTokens.map Token.kindBytes
      ∧ formattedTokens (setAttributeValueInFile
            (buildFile [numberAttrItem [] "a" "1", keywordAttrItem "b" "false"] [])
            "a" cty.True)
          = some
              [ { Type_ := TokenIdent, Bytes := "a", SpacesBefore := 0 },
                { Type_ := TokenEqual, Bytes := "=", SpacesBefore := 1 },
                { Type_ := TokenIdent, Bytes := "true", SpacesBefore := 1 },
                { Type_ := TokenNewline, Bytes := "\n", SpacesBefore := 0 },
                { Type_ := TokenIdent, Bytes := "b", SpacesBefore := 0 },
                { Type_ := TokenEqual, Bytes := "=", SpacesBefore := 1 },
                { Type_ := TokenIdent, Bytes := "false", SpacesBefore := 1 },
                { Type_ := TokenNewline, Bytes := "\n", SpacesBefore := 0 },
                { Type_ := TokenEOF, Bytes := "", SpacesBefore := 0 } ]
      ∧ (formattedTokens (setAttributeValueInFile
            (buildFile [numberAttrItem [] "a" "1", keywordAttrItem "b" "false"] [])
            "a" cty.True)).map Tokens.Bytes
          = some "a = true\nb = false\n" := by
  refine ⟨{ body := buildBody
              (pre ++ Item.ofAttribute before name equals (TokensForValue v) lc nl :: post)
              trailing,
            eof := [{ Type_ := TokenEOF, Bytes := "" }] }, ?_, ?_, ?_, ?_, by decide, by decide⟩
  · simp only [setAttributeValueInFile, buildFile,
      SetAttributeValue_update pre post before name equals expr lc nl trailing v hfirst,
      Option.map_some']
  · simp only [File.BuildTokens, buildFile, BuildTokens_buildBody_attribute]
  · simp only [File.BuildTokens, BuildTokens_buildBody_attribute]
  · exact format_kindBytes _

/-- C5 (witness): the update path on the source `a = 1`, `b = false` with
`a := true`: the setter returns a file whose tokens, before the formatter, are
those of the source with `1` replaced by the identifier `true`. -/
theorem C5_witness :
    ∃ f' : File,
      setAttributeValueInFile
          (buildFile [numberAttrItem [] "a" "1", keywordAttrItem "b" "false"] [])
          "a" cty.True = some f'
      ∧ f'.BuildTokens
          = [ { Type_ := TokenIdent, Bytes := "a", SpacesBefore := 0 },
              { Type_ := TokenEqual, Bytes := "=", SpacesBefore := 1 },
              { Type_ := TokenIdent, Bytes := "true", SpacesBefore := 0 },
              { Type_ := TokenNewline, Bytes := "\n", SpacesBefore := 0 },
              { Type_ := TokenIdent, Bytes := "b", SpacesBefore := 0 },
              { Type_ := TokenEqual, Bytes := "=", SpacesBefore := 1 },
              { Type_ := TokenIdent, Bytes := "false", SpacesBefore := 1 },
              { Type_ := TokenNewline, Bytes := "\n", SpacesBefore := 0 },
              { Type_ := TokenEOF, Bytes := "", SpacesBefore := 0 } ] := by
  obtain ⟨f', h1, -, h3, -⟩ := C5_update_path [] [keywordAttrItem "b" "false"] []
    { Type_ := TokenIdent, Bytes := "a", SpacesBefore := 0 }
    { Type_ := TokenEqual, Bytes := "=", SpacesBefore := 1 }
    [{ Type_ := TokenNumberLit, Bytes := "1", SpacesBefore := 1 }] []
    [{ Type_ := TokenNewline, Bytes := "\n", SpacesBefore := 0 }] [] cty.True
    (by simp)
  exact ⟨f', h1, by rw [h3]; decide⟩

/-! ## Theorems: the body and the labels of a constructed block -/

/-- C14: the body of the block `NewBlock(t, ls)` returns, and so of the block
`AppendNewBlock(t, ls)` returns, is empty: `Body()` has no children, hence no
attributes and no blocks, and no tokens, and the tokens of the block are those
of its type name and labels, the open run, nothing, and the close run. -/
theorem C14_newBlock_body_empty (t : String) (ls : List String) (b : Body) :
    ∃ body : Body,
      (NewBlock t ls).Body = some body
      ∧ (b.AppendNewBlock t ls).2.Body = some body
      ∧ body.children = []
      ∧ body.AttributeList = []
      ∧ body.Blocks = []
      ∧ body.BuildTokens = []
      ∧ (NewBlock t ls).BuildTokens
          = ([{ Type_ := TokenIdent, Bytes := t, SpacesBefore := 0 }]
              ++ ls.flatMap (fun l => TokensForValue (cty.StringVal l)))
            ++ [ { Type_ := TokenOBrace, Bytes := "\x7b", SpacesBefore := 0 },
                 { Type_ := TokenNewline, Bytes := "\n", SpacesBefore := 0 } ]
            ++ body.BuildTokens
            ++ [ { Type_ := TokenCBrace, Bytes := "\x7d", SpacesBefore := 0 },
                 { Type_ := TokenNewline, Bytes := "\n", SpacesBefore := 0 } ] := by
  have hbody : (NewBlock t ls).Body = some { children := [] } := by
    rw [NewBlock_eq]
    simp only [Block.Body, nodes.content]
    rw [List.getElem?_append_right (by simp; omega)]
    have hidx : 3 + ls.length
        - ([newComments [], newIdentifier (newIdentToken t)]
            ++ ls.map (fun l => newQuoted (TokensForValue (cty.StringVal l)))).length = 1 := by
      simp only [List.length_append, List.length_cons, List.length_nil, List.length_map]
      omega
    rw [hidx]
    rfl
  refine ⟨{ children := [] }, hbody, hbody, rfl, rfl, rfl, rfl, ?_⟩
  rw [NewBlock_BuildTokens]
  simp [Body.BuildTokens, nodes.BuildTokens, TokensForValue, cty.StringVal]

/-- C15 (failing input): the label node of `NewBlock("service", [" a"])` has the
serialized bytes double quote, space, `a`, double quote, and `Labels()` returns
`a` for it, without the leading space; and for the label node with the bytes
double quote, `a`, backslash, double quote, double quote (the label `a"`),
`Labels()` returns `a` and the backslash. -/
theorem C15_labels_trim_more_than_one_pair :
    Tokens.Bytes (TokensForValue (cty.StringVal " a")) = "\" a\""
    ∧ (NewBlock "service" [" a"]).Labels = some ["a"]
    ∧ Tokens.Bytes (TokensForValue (cty.StringVal "a\"")) = "\"a\\\"\""
    ∧ (NewBlock "service" ["a\""]).Labels = some ["a\\"] := by
  refine ⟨by decide, by decide, by decide, by decide⟩

/-! ## Theorems: the formatter on tokens appended after a line end -/

/-- The lines of a sequence that ends with a line end, followed by more
tokens, are the lines of the sequence, then the lines of the rest. -/
theorem linesForFormat_go_append (o x : Tokens) (cur : Tokens) (hne : o ≠ [])
    (hlast : ∀ tok, o.getLast? = some tok → tokenIsNewline tok = true) :
    linesForFormat.go (o ++ x) cur = linesForFormat.go o cur ++ linesForFormat.go x [] := by
  induction o generalizing cur with
  | nil => exact absurd rfl hne
  | cons t rest ih =>
    cases rest with
    | nil =>
      have ht : tokenIsNewline t = true := hlast t rfl
      simp [linesForFormat.go, ht]
    | cons r rest' =>
      have hlast' : ∀ tok, (r :: rest').getLast? = some tok → tokenIsNewline tok = true := by
        intro tok htok
        apply hlast tok
        simpa [List.getLast?_cons_cons] using htok
      have ih1 := ih [] (by simp) hlast'
      have ih2 := ih (cur ++ [t]) (by simp) hlast'
      simp only [List.cons_append] at ih1 ih2 ⊢
      rw [linesForFormat.go]
      conv_rhs => rw [linesForFormat.go]
      split
      · rw [ih1]
        rfl
      · rw [ih2]

/-- The same for a sequence that is empty or ends with a line end. -/
theorem linesForFormat_append (o x : Tokens)
    (hlast : ∀ tok, o.getLast? = some tok → tokenIsNewline tok = true) :
    linesForFormat (o ++ x) = linesForFormat o ++ linesForFormat x := by
  unfold linesForFormat
  cases o with
  | nil => simp [linesForFormat.go]
  | cons t rest => exact linesForFormat_go_append (t :: rest) x [] (by simp) hlast

/-- A run of tokens without a line end, then a line end: one line. -/
theorem linesForFormat_go_line (xs : Tokens) (nl : Token) (rest cur : Tokens)
    (hxs : ∀ tok ∈ xs, tokenIsNewline tok = false) (hnl : tokenIsNewline nl = true) :
    linesForFormat.go (xs ++ nl :: rest) cur
      = (cur ++ xs ++ [nl]) :: linesForFormat.go rest [] := by
  induction xs generalizing cur with
  | nil => simp [linesForFormat.go, hnl]
  | cons t xs' ih =>
    have ht : tokenIsNewline t = false := hxs t (List.mem_cons_self _ _)
    simp only [List.cons_append, linesForFormat.go, ht, List.append_eq]
    rw [if_neg (by simp), ih (cur ++ [t]) (fun tok h => hxs tok (List.mem_cons_of_mem _ h))]
    simp

theorem formatLines_append (d : Nat) (a b : List Tokens) :
    formatLines d (a ++ b) = formatLines d a ++ formatLines (a.foldl depthAfter d) b := by
  induction a generalizing d with
  | nil => rfl
  | cons l rest ih => simp [formatLines, ih]

theorem runWidth_noAttribute (d o : Nat) (x : List (Nat × Tokens))
    (hx : ∀ y ∈ x, isAttributeLine y.2 = false) : runWidth d o x = 0 := by
  induction x generalizing o with
  | nil => rfl
  | cons y x' ih =>
    obtain ⟨dy, ly⟩ := y
    have hy : isAttributeLine ly = false := hx (dy, ly) (List.mem_cons_self _ _)
    have ih' := fun o' => ih o' (fun z hz => hx z (List.mem_cons_of_mem _ hz))
    simp only [runWidth, hy, ih', Bool.false_eq_true, false_and, if_false, ite_self]

theorem alignLines_noAttribute (back : Option (Nat × Nat)) (o : Nat) (x : List (Nat × Tokens))
    (hx : ∀ y ∈ x, isAttributeLine y.2 = false) : alignLines back o x = x.map Prod.snd := by
  induction x generalizing back o with
  | nil => rfl
  | cons y x' ih =>
    obtain ⟨dy, ly⟩ := y
    have hy : isAttributeLine ly = false := hx (dy, ly) (List.mem_cons_self _ _)
    have ih' := fun b' o' => ih b' o' (fun z hz => hx z (List.mem_cons_of_mem _ hz))
    simp only [alignLines, hy, ih', Bool.false_eq_true, if_false, List.map_cons, ite_self]

/-- Lines none of which begins an attribute add nothing to the width of a run
before them. -/
theorem runWidth_append_noAttribute (d o : Nat) (s x : List (Nat × Tokens))
    (hx : ∀ y ∈ x, isAttributeLine y.2 = false) :
    runWidth d o (s ++ x) = runWidth d o s := by
  induction s generalizing o with
  | nil => simp [runWidth, runWidth_noAttribute d o x hx]
  | cons y s' ih =>
    obtain ⟨dy, ly⟩ := y
    simp only [List.cons_append, runWidth, List.append_eq, ih]

/-- The alignment over lines followed by lines none of which begins an attribute:
the alignment over the first lines alone, and the other lines as they are. -/
theorem alignLines_append_noAttribute (back : Option (Nat × Nat)) (o : Nat)
    (s x : List (Nat × Tokens)) (hx : ∀ y ∈ x, isAttributeLine y.2 = false) :
    alignLines back o (s ++ x) = alignLines back o s ++ x.map Prod.snd := by
  induction s generalizing back o with
  | nil => simp [alignLines, alignLines_noAttribute back o x hx]
  | cons y s' ih =>
    obtain ⟨dy, ly⟩ := y
    have hrw := runWidth_append_noAttribute dy 0 ((dy, ly) :: s') x hx
    simp only [List.cons_append] at hrw
    simp only [List.cons_append, alignLines, List.append_eq, ih, hrw]
    split
    · rfl
    · split
      · rfl
      · split
        · rfl
        · rfl
/-! ## Theorems: appending a new block -/

/-- The spacing rules on the tokens of one label of a new block. -/
theorem formatSpaces_label (l : String) (xs : Tokens) (prev : Token)
    (hprev : prev.Type_ = TokenIdent ∨ prev.Type_ = TokenCQuote) :
    formatSpaces prev (TokensForValue (cty.StringVal l) ++ xs)
      = [ { Type_ := TokenOQuote, Bytes := "\"", SpacesBefore := 1 },
          { Type_ := TokenQuotedLit, Bytes := escapeQuotedStringLit l, SpacesBefore := 0 },
          { Type_ := TokenCQuote, Bytes := "\"", SpacesBefore := 0 } ]
        ++ formatSpaces { Type_ := TokenCQuote, Bytes := "\"", SpacesBefore := 0 } xs := by
  have h1 : spaceBefore prev { Type_ := TokenOQuote, Bytes := "\"", SpacesBefore := 0 }
      = some 1 := by
    rcases hprev with h | h <;>
      simp [spaceBefore, isClosePunct, isSuffixPunct, isOpenPunct, endsIdentOrLiteral, h]
  have h2 : spaceBefore { Type_ := TokenOQuote, Bytes := "\"", SpacesBefore := 0 }
      { Type_ := TokenQuotedLit, Bytes := escapeQuotedStringLit l, SpacesBefore := 0 }
      = none := by
    simp [spaceBefore, isClosePunct, isSuffixPunct, isOpenPunct, endsIdentOrLiteral]
  have h3 : spaceBefore
      { Type_ := TokenQuotedLit, Bytes := escapeQuotedStringLit l, SpacesBefore := 0 }
      { Type_ := TokenCQuote, Bytes := "\"", SpacesBefore := 0 } = none := by
    simp [spaceBefore, isClosePunct, isSuffixPunct, isOpenPunct, endsIdentOrLiteral]
  show formatSpaces prev
      ({ Type_ := TokenOQuote, Bytes := "\"", SpacesBefore := 0 }
        :: { Type_ := TokenQuotedLit, Bytes := escapeQuotedStringLit l, SpacesBefore := 0 }
        :: { Type_ := TokenCQuote, Bytes := "\"", SpacesBefore := 0 } :: xs) = _
  rw [formatSpaces, formatSpaces, formatSpaces, h1, h2, h3]
  rfl

/-- The spacing rules on the label tokens of a new block: each open quote gets
one space, the literal and the close quote keep none. -/
theorem formatSpaces_labels (ls : List String) (tail tail' : Tokens)
    (htail : ∀ p : Token, p.Type_ = TokenIdent ∨ p.Type_ = TokenCQuote →
      formatSpaces p tail = tail')
    (prev : Token) (hprev : prev.Type_ = TokenIdent ∨ prev.Type_ = TokenCQuote) :
    formatSpaces prev (ls.flatMap (fun l => TokensForValue (cty.StringVal l)) ++ tail)
      = ls.flatMap (fun l =>
          [ { Type_ := TokenOQuote, Bytes := "\"", SpacesBefore := 1 },
            { Type_ := TokenQuotedLit, Bytes := escapeQuotedStringLit l, SpacesBefore := 0 },
            { Type_ := TokenCQuote, Bytes := "\"", SpacesBefore := 0 } ]) ++ tail' := by
  induction ls generalizing prev with
  | nil => simpa using htail prev hprev
  | cons l rest ih =>
    rw [List.flatMap_cons, List.append_assoc, formatSpaces_label l _ prev hprev,
      ih _ (Or.inr rfl), List.flatMap_cons, List.append_assoc]

theorem formatSpaces_open_run (p : Token)
    (hp : p.Type_ = TokenIdent ∨ p.Type_ = TokenCQuote) :
    formatSpaces p
        [ { Type_ := TokenOBrace, Bytes := "\x7b", SpacesBefore := 0 },
          { Type_ := TokenNewline, Bytes := "\n", SpacesBefore := 0 } ]
      = [ { Type_ := TokenOBrace, Bytes := "\x7b", SpacesBefore := 1 },
          { Type_ := TokenNewline, Bytes := "\n", SpacesBefore := 0 } ] := by
  have h1 : spaceBefore p { Type_ := TokenOBrace, Bytes := "\x7b", SpacesBefore := 0 }
      = some 1 := by
    rcases hp with h | h <;>
      simp [spaceBefore, isClosePunct, isSuffixPunct, isOpenPunct, endsIdentOrLiteral, h]
  simp only [formatSpaces, h1]
  rfl

theorem depthAfter_labels (ls : List String) (d : Nat) (tail : Tokens) :
    depthAfter d (ls.flatMap (fun l => TokensForValue (cty.StringVal l)) ++ tail)
      = depthAfter d tail := by
  induction ls with
  | nil => rfl
  | cons l rest ih =>
    simp only [List.flatMap_cons, TokensForValue, cty.StringVal, List.cons_append,
      List.nil_append, List.append_assoc, depthAfter]
    simpa using ih

theorem tokenIsNewline_labels (ls : List String) :
    ∀ tok ∈ ls.flatMap (fun l => TokensForValue (cty.StringVal l)),
      tokenIsNewline tok = false := by
  intro tok htok
  simp only [List.mem_flatMap, TokensForValue, cty.StringVal, List.mem_cons,
    List.mem_singleton, List.not_mem_nil, or_false] at htok
  obtain ⟨l, -, h | h | h⟩ := htok <;> subst h <;> simp [tokenIsNewline]

/-- The formatter on a sequence that is empty or ends with a line end, followed
by the EOF token: the formatted lines of the sequence, then the EOF token with
the indentation of the nesting level the lines end at. -/
theorem format_eof_line (o : Tokens)
    (hnl : ∀ tok, o.getLast? = some tok → tokenIsNewline tok = true) :
    format (o ++ [{ Type_ := TokenEOF, Bytes := "", SpacesBefore := 0 }])
      = (alignLines none 0 (formatLines 0 (linesForFormat o))).flatten
        ++ [{ Type_ := TokenEOF, Bytes := "",
              SpacesBefore := 2 * (linesForFormat o).foldl depthAfter 0 }] := by
  have hl : linesForFormat [{ Type_ := TokenEOF, Bytes := "", SpacesBefore := 0 }]
      = [[{ Type_ := TokenEOF, Bytes := "", SpacesBefore := 0 }]] := by decide
  have hf : ∀ d : Nat, formatLines d [[{ Type_ := TokenEOF, Bytes := "", SpacesBefore := 0 }]]
      = [(d, [{ Type_ := TokenEOF, Bytes := "", SpacesBefore := 2 * d }])] := by
    intro d
    simp [formatLines, indentDepth, formatLine, formatSpaces, Token.withSpaces]
  unfold format
  rw [linesForFormat_append o _ hnl, hl, formatLines_append, hf,
    alignLines_append_noAttribute none 0 _ _ (by
      intro y hy
      rw [List.mem_singleton.mp hy]
      rfl)]
  simp

/-- A formatted file whose body is empty or ends with a line end: the formatter
leaves the lines of the body as they are, and they end at nesting level 0. -/
theorem formatted_body_lines (o : Tokens)
    (hnl : ∀ tok, o.getLast? = some tok → tokenIsNewline tok = true)
    (hfmt : format (o ++ [{ Type_ := TokenEOF, Bytes := "", SpacesBefore := 0 }])
      = o ++ [{ Type_ := TokenEOF, Bytes := "", SpacesBefore := 0 }]) :
    (alignLines none 0 (formatLines 0 (linesForFormat o))).flatten = o
    ∧ (linesForFormat o).foldl depthAfter 0 = 0 := by
  rw [format_eof_line o hnl] at hfmt
  have h := List.append_inj' hfmt (by simp)
  refine ⟨h.1, ?_⟩
  have h2 := h.2
  simp only [List.cons.injEq, Token.mk.injEq, and_true, true_and] at h2
  omega

/-- The formatter on the tokens of a new block appended after a formatted body
that is empty or ends with a line end. -/
theorem format_append_new_block (o : Tokens) (t : String) (ls : List String)
    (hnl : ∀ tok, o.getLast? = some tok → tokenIsNewline tok = true)
    (hfmt : format (o ++ [{ Type_ := TokenEOF, Bytes := "", SpacesBefore := 0 }])
      = o ++ [{ Type_ := TokenEOF, Bytes := "", SpacesBefore := 0 }]) :
    format (o ++ ((NewBlock t ls).BuildTokens
        ++ [{ Type_ := TokenEOF, Bytes := "", SpacesBefore := 0 }]))
      = o ++ ([{ Type_ := TokenIdent, Bytes := t, SpacesBefore := 0 }]
          ++ ls.flatMap (fun l =>
              [ { Type_ := TokenOQuote, Bytes := "\"", SpacesBefore := 1 },
                { Type_ := TokenQuotedLit, Bytes := escapeQuotedStringLit l,
                  SpacesBefore := 0 },
                { Type_ := TokenCQuote, Bytes := "\"", SpacesBefore := 0 } ])
          ++ [ { Type_ := TokenOBrace, Bytes := "\x7b", SpacesBefore := 1 },
               { Type_ := TokenNewline, Bytes := "\n", SpacesBefore := 0 },
               { Type_ := TokenCBrace, Bytes := "\x7d", SpacesBefore := 0 },
               { Type_ := TokenNewline, Bytes := "\n", SpacesBefore := 0 } ]
          ++ [{ Type_ := TokenEOF, Bytes := "", SpacesBefore := 0 }]) := by
  obtain ⟨hflat, hdepth⟩ := formatted_body_lines o hnl hfmt
  have hB : (NewBlock t ls).BuildTokens
      = ({ Type_ := TokenIdent, Bytes := t, SpacesBefore := 0 }
          :: (ls.flatMap (fun l => TokensForValue (cty.StringVal l))
            ++ [{ Type_ := TokenOBrace, Bytes := "\x7b", SpacesBefore := 0 }]))
        ++ { Type_ := TokenNewline, Bytes := "\n", SpacesBefore := 0 }
          :: ([{ Type_ := TokenCBrace, Bytes := "\x7d", SpacesBefore := 0 }]
            ++ [{ Type_ := TokenNewline, Bytes := "\n", SpacesBefore := 0 }]) := by
    rw [NewBlock_BuildTokens]
    simp [TokensForValue, cty.StringVal]
  have hlines : linesForFormat ((NewBlock t ls).BuildTokens
      ++ [{ Type_ := TokenEOF, Bytes := "", SpacesBefore := 0 }])
      = [ { Type_ := TokenIdent, Bytes := t, SpacesBefore := 0 }
            :: (ls.flatMap (fun l => TokensForValue (cty.StringVal l))
              ++ [ { Type_ := TokenOBrace, Bytes := "\x7b", SpacesBefore := 0 },
                   { Type_ := TokenNewline, Bytes := "\n", SpacesBefore := 0 } ]),
          [ { Type_ := TokenCBrace, Bytes := "\x7d", SpacesBefore := 0 },
            { Type_ := TokenNewline, Bytes := "\n", SpacesBefore := 0 } ],
          [{ Type_ := TokenEOF, Bytes := "", SpacesBefore := 0 }] ] := by
    have hxs : ∀ tok ∈ ({ Type_ := TokenIdent, Bytes := t, SpacesBefore := 0 } : Token)
          :: (ls.flatMap (fun l => TokensForValue (cty.StringVal l))
            ++ [{ Type_ := TokenOBrace, Bytes := "\x7b", SpacesBefore := 0 }]),
        tokenIsNewline tok = false := by
      intro tok htok
      simp only [List.mem_cons, List.mem_append, List.mem_singleton, List.not_mem_nil,
        or_false] at htok
      rcases htok with h | h | h
      · subst h; simp [tokenIsNewline]
      · exact tokenIsNewline_labels ls tok h
      · subst h; simp [tokenIsNewline]
    have h1 := linesForFormat_go_line
      (({ Type_ := TokenIdent, Bytes := t, SpacesBefore := 0 } : Token)
        :: (ls.flatMap (fun l => TokensForValue (cty.StringVal l))
          ++ [{ Type_ := TokenOBrace, Bytes := "\x7b", SpacesBefore := 0 }]))
      { Type_ := TokenNewline, Bytes := "\n", SpacesBefore := 0 }
      [ { Type_ := TokenCBrace, Bytes := "\x7d", SpacesBefore := 0 },
        { Type_ := TokenNewline, Bytes := "\n", SpacesBefore := 0 },
        { Type_ := TokenEOF, Bytes := "", SpacesBefore := 0 } ] [] hxs (by decide)
    have h2 : linesForFormat.go
        [ { Type_ := TokenCBrace, Bytes := "\x7d", SpacesBefore := 0 },
          { Type_ := TokenNewline, Bytes := "\n", SpacesBefore := 0 },
          { Type_ := TokenEOF, Bytes := "", SpacesBefore := 0 } ] []
        = [ [ { Type_ := TokenCBrace, Bytes := "\x7d", SpacesBefore := 0 },
              { Type_ := TokenNewline, Bytes := "\n", SpacesBefore := 0 } ],
            [{ Type_ := TokenEOF, Bytes := "", SpacesBefore := 0 }] ] := by decide
    rw [h2] at h1
    rw [hB]
    unfold linesForFormat
    simpa using h1
  have hfl : formatLines 0
      [ { Type_ := TokenIdent, Bytes := t, SpacesBefore := 0 }
            :: (ls.flatMap (fun l => TokensForValue (cty.StringVal l))
              ++ [ { Type_ := TokenOBrace, Bytes := "\x7b", SpacesBefore := 0 },
                   { Type_ := TokenNewline, Bytes := "\n", SpacesBefore := 0 } ]),
          [ { Type_ := TokenCBrace, Bytes := "\x7d", SpacesBefore := 0 },
            { Type_ := TokenNewline, Bytes := "\n", SpacesBefore := 0 } ],
          [{ Type_ := TokenEOF, Bytes := "", SpacesBefore := 0 }] ]
      = [ (0, { Type_ := TokenIdent, Bytes := t, SpacesBefore := 0 }
            :: (ls.flatMap (fun l =>
                [ { Type_ := TokenOQuote, Bytes := "\"", SpacesBefore := 1 },
                  { Type_ := TokenQuotedLit, Bytes := escapeQuotedStringLit l,
                    SpacesBefore := 0 },
                  { Type_ := TokenCQuote, Bytes := "\"", SpacesBefore := 0 } ])
              ++ [ { Type_ := TokenOBrace, Bytes := "\x7b", SpacesBefore := 1 },
                   { Type_ := TokenNewline, Bytes := "\n", SpacesBefore := 0 } ])),
          (0, [ { Type_ := TokenCBrace, Bytes := "\x7d", SpacesBefore := 0 },
                { Type_ := TokenNewline, Bytes := "\n", SpacesBefore := 0 } ]),
          (0, [{ Type_ := TokenEOF, Bytes := "", SpacesBefore := 0 }]) ] := by
    have hd1 : depthAfter 0
        ({ Type_ := TokenIdent, Bytes := t, SpacesBefore := 0 }
          :: (ls.flatMap (fun l => TokensForValue (cty.StringVal l))
            ++ [ { Type_ := TokenOBrace, Bytes := "\x7b", SpacesBefore := 0 },
                 { Type_ := TokenNewline, Bytes := "\n", SpacesBefore := 0 } ])) = 1 := by
      rw [depthAfter]
      simp only [reduceCtorEq, if_false]
      rw [depthAfter_labels]
      rfl
    have hsp := formatSpaces_labels ls _ _ formatSpaces_open_run
      { Type_ := TokenIdent, Bytes := t, SpacesBefore := 0 } (Or.inl rfl)
    simp only [formatLines, hd1, indentDepth, formatLine, reduceCtorEq, if_false, or_self,
      Nat.mul_zero, hsp, Token.withSpaces]
    rfl
  unfold format
  rw [linesForFormat_append o _ hnl, hlines, formatLines_append, hdepth, hfl,
    alignLines_append_noAttribute none 0 _ _ ?_]
  · simp only [List.flatten_append, hflat]
    simp
  · intro y hy
    simp only [List.mem_cons, List.mem_singleton, List.not_mem_nil, or_false] at hy
    rcases hy with rfl | rfl | rfl
    · cases ls with
      | nil => rfl
      | cons l rest => rfl
    · rfl
    · rfl

/-- C16 (counterexample): the source `a = 1` without a final newline is
formatted, and after `AppendNewBlock("foo", ["bar"])` and formatting the
identifier `foo` stands on the line of `a = 1` with `SpacesBefore` 1, not 0. -/
theorem C16_counterexample :
    format (buildFile testItemsNoNewline []).BuildTokens
      = (buildFile testItemsNoNewline []).BuildTokens
    ∧ format (appendNewBlockInFile (buildFile testItemsNoNewline []) "foo" ["bar"]).BuildTokens
      = [ { Type_ := TokenIdent, Bytes := "a", SpacesBefore := 0 },
          { Type_ := TokenEqual, Bytes := "=", SpacesBefore := 1 },
          { Type_ := TokenNumberLit, Bytes := "1", SpacesBefore := 1 },
          { Type_ := TokenIdent, Bytes := "foo", SpacesBefore := 1 },
          { Type_ := TokenOQuote, Bytes := "\"", SpacesBefore := 1 },
          { Type_ := TokenQuotedLit, Bytes := "bar", SpacesBefore := 0 },
          { Type_ := TokenCQuote, Bytes := "\"", SpacesBefore := 0 },
          { Type_ := TokenOBrace, Bytes := "\x7b", SpacesBefore := 1 },
          { Type_ := TokenNewline, Bytes := "\n", SpacesBefore := 0 },
          { Type_ := TokenCBrace, Bytes := "\x7d", SpacesBefore := 0 },
          { Type_ := TokenNewline, Bytes := "\n", SpacesBefore := 0 },
          { Type_ := TokenEOF, Bytes := "", SpacesBefore := 0 } ]
    ∧ format (appendNewBlockInFile (buildFile testItemsNoNewline []) "foo" ["bar"]).BuildTokens
      ≠ [ { Type_ := TokenIdent, Bytes := "a", SpacesBefore := 0 },
          { Type_ := TokenEqual, Bytes := "=", SpacesBefore := 1 },
          { Type_ := TokenNumberLit, Bytes := "1", SpacesBefore := 1 },
          { Type_ := TokenIdent, Bytes := "foo", SpacesBefore := 0 },
          { Type_ := TokenOQuote, Bytes := "\"", SpacesBefore := 1 },
          { Type_ := TokenQuotedLit, Bytes := "bar", SpacesBefore := 0 },
          { Type_ := TokenCQuote, Bytes := "\"", SpacesBefore := 0 },
          { Type_ := TokenOBrace, Bytes := "\x7b", SpacesBefore := 1 },
          { Type_ := TokenNewline, Bytes := "\n", SpacesBefore := 0 },
          { Type_ := TokenCBrace, Bytes := "\x7d", SpacesBefore := 0 },
          { Type_ := TokenNewline, Bytes := "\n", SpacesBefore := 0 },
          { Type_ := TokenEOF, Bytes := "", SpacesBefore := 0 } ] := by
  refine ⟨by decide, by decide, by decide⟩

/-- C16 (amended): for every formatted file built from parsed constructs whose
body is empty or ends with a line end, every type name `t` and label list `ls`:
after `AppendNewBlock(t, ls)` on the root body, building the file's tokens and
formatting them yields the original tokens before EOF unchanged and in order,
followed by the new block's tokens (identifier `t` with `SpacesBefore` 0, each
label as open quote with `SpacesBefore` 1, quoted literal and close quote, the
open brace with `SpacesBefore` 1, newline, the close brace with `SpacesBefore`
0, newline), followed by exactly one EOF token with empty bytes as the last
token; on the empty source with `foo` and the labels `bar`, `baz` the bytes are
those of `foo "bar" "baz"`, the open brace, a newline, the close brace, a
newline. -/
theorem C16_append_new_block (items : List Item) (trailing : Tokens) (t : String)
    (ls : List String)
    (hfmt : format (buildFile items trailing).BuildTokens
      = (buildFile items trailing).BuildTokens)
    (hnl : ∀ tok, (buildBody items trailing).BuildTokens.getLast? = some tok →
      tokenIsNewline tok = true) :
    format (appendNewBlockInFile (buildFile items trailing) t ls).BuildTokens
      = (buildBody items trailing).BuildTokens
        ++ ([{ Type_ := TokenIdent, Bytes := t, SpacesBefore := 0 }]
          ++ ls.flatMap (fun l =>
              [ { Type_ := TokenOQuote, Bytes := "\"", SpacesBefore := 1 },
                { Type_ := TokenQuotedLit, Bytes := escapeQuotedStringLit l,
                  SpacesBefore := 0 },
                { Type_ := TokenCQuote, Bytes := "\"", SpacesBefore := 0 } ])
          ++ [ { Type_ := TokenOBrace, Bytes := "\x7b", SpacesBefore := 1 },
               { Type_ := TokenNewline, Bytes := "\n", SpacesBefore := 0 },
               { Type_ := TokenCBrace, Bytes := "\x7d", SpacesBefore := 0 },
               { Type_ := TokenNewline, Bytes := "\n", SpacesBefore := 0 } ]
          ++ [{ Type_ := TokenEOF, Bytes := "", SpacesBefore := 0 }])
    ∧ Tokens.Bytes
        (format (appendNewBlockInFile (buildFile [] []) "foo" ["bar", "baz"]).BuildTokens)
      = "foo \"bar\" \"baz\" \x7b\n\x7d\n" := by
  refine ⟨?_, by decide⟩
  have hnew : (appendNewBlockInFile (buildFile items trailing) t ls).BuildTokens
      = (buildBody items trailing).BuildTokens
        ++ ((NewBlock t ls).BuildTokens
          ++ [{ Type_ := TokenEOF, Bytes := "", SpacesBefore := 0 }]) := by
    simp [appendNewBlockInFile, Body.AppendNewBlock, File.BuildTokens, buildFile,
      Body.BuildTokens, nodes_BuildTokens_append, nodes.BuildTokens,
      nodeContent.BuildTokens, Block.toContent, Block.BuildTokens]
  rw [hnew]
  exact format_append_new_block _ t ls hnl hfmt

/-- C16 (witness): the source of `TestBodyAppendBlock` with the block `bar` is
formatted and ends with a newline, and after `AppendNewBlock("foo", nil)` and
formatting the tokens are those of the source, of the new block, and EOF. -/
theorem C16_witness :
    format (appendNewBlockInFile (buildFile testItemsBarBlock []) "foo" []).BuildTokens
      = [ { Type_ := TokenIdent, Bytes := "bar", SpacesBefore := 0 },
          { Type_ := TokenOBrace, Bytes := "\x7b", SpacesBefore := 1 },
          { Type_ := TokenCBrace, Bytes := "\x7d", SpacesBefore := 0 },
          { Type_ := TokenNewline, Bytes := "\n", SpacesBefore := 0 },
          { Type_ := TokenIdent, Bytes := "foo", SpacesBefore := 0 },
          { Type_ := TokenOBrace, Bytes := "\x7b", SpacesBefore := 1 },
          { Type_ := TokenNewline, Bytes := "\n", SpacesBefore := 0 },
          { Type_ := TokenCBrace, Bytes := "\x7d", SpacesBefore := 0 },
          { Type_ := TokenNewline, Bytes := "\n", SpacesBefore := 0 },
          { Type_ := TokenEOF, Bytes := "", SpacesBefore := 0 } ] := by
  have hlast : (buildBody testItemsBarBlock []).BuildTokens.getLast?
      = some { Type_ := TokenNewline, Bytes := "\n", SpacesBefore := 0 } := by decide
  have h := (C16_append_new_block testItemsBarBlock [] "foo" [] (by decide)
    (by
      intro tok htok
      rw [hlast] at htok
      cases htok
      decide)).1
  rw [h]
  decide

/-! ## Theorems: setting an attribute to a traversal -/

theorem tokenIsNewline_steps (steps : List hcl.Traverser) :
    ∀ tok ∈ steps.flatMap TokensForTraverser, tokenIsNewline tok = false := by
  intro tok htok
  simp only [List.mem_flatMap] at htok
  obtain ⟨st, -, h⟩ := htok
  cases st with
  | TraverseAttr name =>
    simp only [TokensForTraverser, List.mem_cons, List.mem_singleton, List.not_mem_nil,
      or_false] at h
    rcases h with h | h <;> subst h <;> simp [tokenIsNewline]
  | TraverseIndex key =>
    simp only [TokensForTraverser, List.mem_cons, List.mem_singleton, List.not_mem_nil,
      or_false] at h
    rcases h with h | h | h <;> subst h <;> simp [tokenIsNewline]

theorem depthAfter_steps (steps : List hcl.Traverser) (d : Nat) (tail : Tokens) :
    depthAfter d (steps.flatMap TokensForTraverser ++ tail) = depthAfter d tail := by
  induction steps with
  | nil => rfl
  | cons st rest ih =>
    cases st with
    | TraverseAttr name =>
      simp only [List.flatMap_cons, TokensForTraverser, List.cons_append, List.nil_append,
        List.append_assoc, depthAfter]
      simpa using ih
    | TraverseIndex key =>
      simp only [List.flatMap_cons, TokensForTraverser, List.cons_append, List.nil_append,
        List.append_assoc, depthAfter]
      simpa using ih

/-- The spacing rules leave the tokens of one traversal step without spaces. -/
theorem formatSpaces_step (st : hcl.Traverser) (xs : Tokens) (prev : Token)
    (hprev : prev.Type_ = TokenIdent ∨ prev.Type_ = TokenCBrack) :
    ∃ last : Token, (last.Type_ = TokenIdent ∨ last.Type_ = TokenCBrack)
      ∧ formatSpaces prev (TokensForTraverser st ++ xs)
          = TokensForTraverser st ++ formatSpaces last xs := by
  cases st with
  | TraverseAttr name =>
    refine ⟨{ Type_ := TokenIdent, Bytes := name }, Or.inl rfl, ?_⟩
    have h1 : spaceBefore prev { Type_ := TokenDot, Bytes := "." } = some 0 := by
      simp [spaceBefore, isClosePunct, isSuffixPunct]
    have h2 : spaceBefore { Type_ := TokenDot, Bytes := "." }
        { Type_ := TokenIdent, Bytes := name } = some 0 := by
      simp [spaceBefore, isClosePunct, isSuffixPunct, isOpenPunct]
    show formatSpaces prev
      ({ Type_ := TokenDot, Bytes := "." } :: { Type_ := TokenIdent, Bytes := name } :: xs) = _
    rw [formatSpaces, formatSpaces, h1, h2]
    rfl
  | TraverseIndex key =>
    refine ⟨{ Type_ := TokenCBrack, Bytes := "]" }, Or.inr rfl, ?_⟩
    have h1 : spaceBefore prev { Type_ := TokenOBrack, Bytes := "[" } = some 0 := by
      rcases hprev with h | h <;>
        simp [spaceBefore, isClosePunct, isSuffixPunct, isOpenPunct, h]
    have h2 : spaceBefore { Type_ := TokenOBrack, Bytes := "[" }
        { Type_ := TokenNumberLit, Bytes := toString key } = some 0 := by
      simp [spaceBefore, isClosePunct, isSuffixPunct, isOpenPunct]
    have h3 : spaceBefore { Type_ := TokenNumberLit, Bytes := toString key }
        { Type_ := TokenCBrack, Bytes := "]" } = some 0 := by
      simp [spaceBefore, isClosePunct]
    show formatSpaces prev
      ({ Type_ := TokenOBrack, Bytes := "[" }
        :: { Type_ := TokenNumberLit, Bytes := toString key }
        :: { Type_ := TokenCBrack, Bytes := "]" } :: xs) = _
    rw [formatSpaces, formatSpaces, formatSpaces, h1, h2, h3]
    rfl

/-- The spacing rules leave the step tokens of a traversal and the newline after
them as they are rendered. -/
theorem formatSpaces_steps (steps : List hcl.Traverser) (prev : Token)
    (hprev : prev.Type_ = TokenIdent ∨ prev.Type_ = TokenCBrack) :
    formatSpaces prev (steps.flatMap TokensForTraverser
        ++ [{ Type_ := TokenNewline, Bytes := "\n", SpacesBefore := 0 }])
      = steps.flatMap TokensForTraverser
        ++ [{ Type_ := TokenNewline, Bytes := "\n", SpacesBefore := 0 }] := by
  induction steps generalizing prev with
  | nil =>
    have h : spaceBefore prev { Type_ := TokenNewline, Bytes := "\n", SpacesBefore := 0 }
        = none := by
      rcases hprev with h | h <;>
        simp [spaceBefore, isClosePunct, isSuffixPunct, isOpenPunct, endsIdentOrLiteral, h]
    simp only [List.flatMap_nil, List.nil_append, formatSpaces, h]
  | cons st rest ih =>
    obtain ⟨last, hlast, hstep⟩ := formatSpaces_step st
      (rest.flatMap TokensForTraverser
        ++ [{ Type_ := TokenNewline, Bytes := "\n", SpacesBefore := 0 }]) prev hprev
    rw [List.flatMap_cons, List.append_assoc, hstep, ih last hlast]

/-! ## Theorems: lookups and edits inside blocks -/

/-- A block the scan returns is one of the blocks it scanned. -/
theorem GetBlock_loop_mem (T : String) (L : List String) (l : List Block) (blk : Block)
    (h : Body.GetBlock.loop T L l = some (some blk)) : blk ∈ l := by
  induction l with
  | nil => simp [Body.GetBlock.loop] at h
  | cons x rest ih =>
    unfold Body.GetBlock.loop at h
    split at h
    · exact absurd h (by simp)
    · split at h
      · split at h
        · exact absurd h (by simp)
        · split at h
          · simp only [Option.some.injEq] at h
            simp [h]
          · exact List.mem_cons_of_mem _ (ih h)
      · exact List.mem_cons_of_mem _ (ih h)

/-- C18: `GetBlock` does not descend into nested blocks. A block it returns is a
direct child of the body, and when no direct child block has type `T` and
labels `L` it returns nil, whatever the bodies of the child blocks hold. In the
source of `TestBodyGetBlock` the block `child`, which occurs only inside
`parent`, is not found from the root body, and is found by `GetBlock` on the
body of `parent`. -/
theorem C18_getBlock_direct_children (b : Body) (T : String) (L : List String)
    (hwf : ∀ blk ∈ b.Blocks, blk.Type_.isSome = true ∧ blk.unquotedLabels.isSome = true) :
    (∀ blk : Block, b.GetBlock T L = some (some blk) →
        ∃ c ∈ b.children, asBlock c = some blk)
    ∧ ((∀ c ∈ b.children, ∀ blk : Block, asBlock c = some blk →
          ¬ (blk.Type_ = some T ∧ blk.unquotedLabels = some L)) →
        b.GetBlock T L = some none)
    ∧ testBodyGetBlock.GetBlock "child" [] = some none
    ∧ blockBytes (getBlockInBlock (testBodyGetBlock.GetBlock "parent" []) "child" [])
        = some (some "  child \x7b\n    attr4 = \"val4\"\n  \x7d\n") := by
  refine ⟨?_, ?_, ?_, by decide⟩
  · intro blk h
    have hmem := GetBlock_loop_mem T L b.Blocks blk h
    simpa [Body.Blocks, List.mem_filterMap] using hmem
  · intro hno
    apply GetBlock_loop_none T L b.Blocks hwf
    intro blk hblk
    obtain ⟨c, hc, hcb⟩ := List.mem_filterMap.mp hblk
    exact hno c hc blk hcb
  · exact GetBlock_loop_none "child" [] testBodyGetBlock.Blocks (by decide) (by decide)

/-- C18 (witness): the blocks of the source of `TestBodyGetBlock` have a readable
type and labels; no direct child of its root body is a block `child`, and the
lookup of `child` there returns nil. -/
theorem C18_witness :
    (∀ blk ∈ testBodyGetBlock.Blocks, blk.Type_.isSome = true ∧ blk.unquotedLabels.isSome = true)
    ∧ testBodyGetBlock.GetBlock "child" [] = some none :=
  ⟨by decide,
   (C18_getBlock_direct_children testBodyGetBlock "child" [] (by decide)).2.1 (by
      have hall : ∀ blk ∈ testBodyGetBlock.Blocks,
          ¬ (blk.Type_ = some "child" ∧ blk.unquotedLabels = some []) := by decide
      intro c hc blk hcb
      exact hall blk (List.mem_filterMap.mpr ⟨c, hc, hcb⟩))⟩

theorem buildItem_ofBlock (before : Tokens) (ty : Token) (labels : List Tokens)
    (o : Tokens) (inner : List Item) (bt c : Tokens) :
    buildItem (Item.ofBlock before ty labels o inner bt c)
      = strayNode (strayTokens before)
        ++ [(builtBlock before ty labels o (buildItems inner ++ strayNode bt) c).toContent] := by
  simp [buildItem, builtBlock, Block.toContent]

theorem asBlock_toContent (blk : Block) : asBlock blk.toContent = some blk := rfl

theorem builtBlock_Type (before : Tokens) (ty : Token) (labels : List Tokens)
    (o : Tokens) (cs : List nodeContent) (c : Tokens) :
    (builtBlock before ty labels o cs c).Type_ = some ty.Bytes := by
  simp [Block.Type_, builtBlock, nodes.content]

/-- The label loop of the lookup over a run of quoted nodes with any tokens. -/
theorem labelsLoop_quoted_tokens (labels : List Tokens) (pre post : nodes)
    (acc : List String) :
    Block.unquotedLabels.loop (pre ++ labels.map nodeContent.quoted ++ post)
        (List.range' pre.length labels.length) acc
      = some (acc ++ labels.map (fun toks => unquoteLabel (labelText toks))) := by
  induction labels generalizing pre acc with
  | nil => simp [Block.unquotedLabels.loop]
  | cons l rest ih =>
    have hspec := ih (pre ++ [nodeContent.quoted l])
      (acc ++ [unquoteLabel (labelText l)])
    simp only [List.length_append, List.length_singleton, List.append_assoc,
      List.singleton_append] at hspec
    simp only [List.map_cons, List.length_cons, List.range'_succ, Block.unquotedLabels.loop,
      nodes.content, List.append_assoc, List.cons_append]
    rw [List.getElem?_append_right (Nat.le_refl _)]
    simp only [Nat.sub_self, List.getElem?_cons_zero]
    simpa using hspec

theorem builtBlock_unquotedLabels (before : Tokens) (ty : Token) (labels : List Tokens)
    (o : Tokens) (cs : List nodeContent) (c : Tokens) :
    (builtBlock before ty labels o cs c).unquotedLabels
      = some (labels.map (fun toks => unquoteLabel (labelText toks))) := by
  simp only [Block.unquotedLabels, builtBlock]
  rw [show nodeSet.List (List.range' 2 labels.length)
        ([nodeContent.comments (leadCommentTokens before), nodeContent.identifier ty]
          ++ labels.map nodeContent.quoted
          ++ [nodeContent.Tokens o, nodeContent.Body cs, nodeContent.Tokens c])
      = List.range' 2 labels.length from by
        unfold nodeSet.List
        apply filter_mem_range'
        simp only [List.length_append, List.length_cons, List.length_nil, List.length_map]
        omega]
  have h := labelsLoop_quoted_tokens labels
    [nodeContent.comments (leadCommentTokens before), nodeContent.identifier ty]
    [nodeContent.Tokens o, nodeContent.Body cs, nodeContent.Tokens c] []
  simpa using h

/-- A change to the body of a built block: the block built with the changed
body, every other child as it was. -/
theorem builtBlock_changeBody (before : Tokens) (ty : Token) (labels : List Tokens)
    (o : Tokens) (cs : List nodeContent) (c : Tokens) (change : Body → Option Body) :
    (builtBlock before ty labels o cs c).changeBody change
      = (change { children := cs }).map
          (fun body => builtBlock before ty labels o body.children c) := by
  have hlen : ([nodeContent.comments (leadCommentTokens before), nodeContent.identifier ty]
      ++ labels.map nodeContent.quoted).length = 2 + labels.length := by
    rw [List.length_append, List.length_map]
    show 2 + labels.length = 2 + labels.length
    rfl
  have hget : ([nodeContent.comments (leadCommentTokens before), nodeContent.identifier ty]
        ++ labels.map nodeContent.quoted
        ++ [nodeContent.Tokens o, nodeContent.Body cs, nodeContent.Tokens c])[3 + labels.length]?
      = some (nodeContent.Body cs) := by
    rw [List.getElem?_append_right (by rw [hlen]; omega), hlen,
      show 3 + labels.length - (2 + labels.length) = 1 by omega]
    rfl
  have hset : ∀ x : nodeContent,
      ([nodeContent.comments (leadCommentTokens before), nodeContent.identifier ty]
        ++ labels.map nodeContent.quoted
        ++ [nodeContent.Tokens o, nodeContent.Body cs, nodeContent.Tokens c]).set
          (3 + labels.length) x
      = [nodeContent.comments (leadCommentTokens before), nodeContent.identifier ty]
        ++ labels.map nodeContent.quoted
        ++ [nodeContent.Tokens o, x, nodeContent.Tokens c] := by
    intro x
    rw [List.set_append_right _ _ (by rw [hlen]; omega), hlen,
      show 3 + labels.length - (2 + labels.length) = 1 by omega]
    simp
  simp only [Block.changeBody, builtBlock, hget]
  cases change { children := cs } with
  | none => rfl
  | some body => simp only [Option.map_some', hset, Body.toContent]

theorem changeBlockBody_strayNode (T : String) (L : List String)
    (change : Body → Option Body) (ts : Tokens) (rest : List nodeContent) :
    Body.changeBlockBody.loop T L change (strayNode ts ++ rest)
      = (Body.changeBlockBody.loop T L change rest).map (fun cs => strayNode ts ++ cs) := by
  unfold strayNode
  split
  · simp only [List.nil_append]
    cases Body.changeBlockBody.loop T L change rest <;> rfl
  · show Body.changeBlockBody.loop T L change (nodeContent.Tokens ts :: rest) = _
    simp only [Body.changeBlockBody.loop, asBlock]
    rfl

/-- The scan for the block to change passes a construct that is not a block of
the type and labels looked for. -/
theorem changeBlockBody_buildItem_other (T : String) (L : List String)
    (change : Body → Option Body) (it : Item) (rest : List nodeContent)
    (hne : ¬ (it.blockType = some T ∧ it.blockLabels = some L)) :
    Body.changeBlockBody.loop T L change (buildItem it ++ rest)
      = (Body.changeBlockBody.loop T L change rest).map (fun cs => buildItem it ++ cs) := by
  cases it with
  | ofAttribute before name equals expr lc nl =>
    simp only [buildItem, List.append_assoc, changeBlockBody_strayNode,
      List.singleton_append, Body.changeBlockBody.loop, Attribute.toContent, asBlock]
    cases Body.changeBlockBody.loop T L change rest <;> rfl
  | ofBlock before ty labels o body bt c =>
    rw [buildItem_ofBlock]
    simp only [List.append_assoc, changeBlockBody_strayNode, List.singleton_append,
      Body.changeBlockBody.loop, asBlock_toContent, builtBlock_Type, builtBlock_unquotedLabels]
    by_cases h1 : ty.Bytes = T
    · have h2 : labelsEqual
          (labels.map (fun toks => unquoteLabel (labelText toks))) L = false := by
        cases hle : labelsEqual
            (labels.map (fun toks => unquoteLabel (labelText toks))) L with
        | false => rfl
        | true =>
          exact absurd ⟨by simp [Item.blockType, h1],
            by simp [Item.blockLabels, (labelsEqual_iff _ _).mp hle]⟩ hne
      simp only [h1, if_true, h2]
      cases Body.changeBlockBody.loop T L change rest <;> rfl
    · simp only [h1, if_false]
      cases Body.changeBlockBody.loop T L change rest <;> rfl

theorem changeBlockBody_buildItems_other (T : String) (L : List String)
    (change : Body → Option Body) (pre : List Item) (rest : List nodeContent)
    (hno : ∀ it ∈ pre, ¬ (it.blockType = some T ∧ it.blockLabels = some L)) :
    Body.changeBlockBody.loop T L change (buildItems pre ++ rest)
      = (Body.changeBlockBody.loop T L change rest).map (fun cs => buildItems pre ++ cs) := by
  induction pre with
  | nil =>
    simp only [buildItems, List.nil_append]
    cases Body.changeBlockBody.loop T L change rest <;> rfl
  | cons it pre' ih =>
    have ih' := ih (fun x hx => hno x (List.mem_cons_of_mem _ hx))
    simp only [buildItems, List.append_assoc]
    rw [changeBlockBody_buildItem_other T L change it _ (hno it (List.mem_cons_self _ _)), ih']
    cases Body.changeBlockBody.loop T L change rest <;> simp

/-- The scan on the block it looks for: the block built with the changed body. -/
theorem changeBlockBody_buildItem_hit (change : Body → Option Body) (before : Tokens)
    (ty : Token) (labels : List Tokens) (o : Tokens) (inner : List Item) (bt c : Tokens)
    (rest : List nodeContent) :
    Body.changeBlockBody.loop ty.Bytes
        (labels.map (fun toks => unquoteLabel (labelText toks))) change
        (buildItem (Item.ofBlock before ty labels o inner bt c) ++ rest)
      = (change (buildBody inner bt)).map (fun body =>
          strayNode (strayTokens before)
            ++ (builtBlock before ty labels o body.children c).toContent :: rest) := by
  rw [buildItem_ofBlock]
  simp only [List.append_assoc, changeBlockBody_strayNode, List.singleton_append,
    Body.changeBlockBody.loop, asBlock_toContent, builtBlock_Type, builtBlock_unquotedLabels,
    if_true, (labelsEqual_iff _ _).mpr rfl, builtBlock_changeBody, buildBody]
  cases change { children := buildItems inner ++ strayNode bt } <;> rfl

/-- The tokens of a built block: the tokens before it, its type name, its
labels, the open run, the tokens of its body, the close run. -/
theorem BuildTokens_builtBlock (before : Tokens) (ty : Token) (labels : List Tokens)
    (o : Tokens) (cs : List nodeContent) (c : Tokens) :
    nodes.BuildTokens (strayNode (strayTokens before)
        ++ [(builtBlock before ty labels o cs c).toContent])
      = before ++ [ty] ++ labels.flatten ++ o ++ nodes.BuildTokens cs ++ c := by
  have hsplit : strayTokens before ++ leadCommentTokens before = before := by
    unfold strayTokens leadCommentTokens List.rdropWhile List.rtakeWhile
    rw [← List.reverse_append, List.takeWhile_append_dropWhile, List.reverse_reverse]
  have hq : ∀ l : List Tokens, nodes.BuildTokens (l.map nodeContent.quoted) = l.flatten := by
    intro l
    induction l with
    | nil => rfl
    | cons x xs ih => simp [nodes.BuildTokens, nodeContent.BuildTokens, ih]
  simp only [nodes_BuildTokens_append, nodes_BuildTokens_strayNode, builtBlock,
    Block.toContent, nodes.BuildTokens, nodeContent.BuildTokens, hq, List.append_nil,
    List.append_assoc, List.cons_append, List.nil_append, List.singleton_append]
  conv_rhs => rw [← hsplit]
  simp

/-- A change made to the body of the first block of a given type and labels of
a built body gives the body built with the changed constructs in that block. -/
theorem changeBlockBody_buildBody (pre post : List Item) (trailing before : Tokens)
    (ty : Token) (labels : List Tokens) (o : Tokens) (inner inner' : List Item)
    (bt bt' c : Tokens) (change : Body → Option Body)
    (hfirst : ∀ it ∈ pre, ¬ (it.blockType = some ty.Bytes
      ∧ it.blockLabels = some (labels.map (fun toks => unquoteLabel (labelText toks)))))
    (hch : change (buildBody inner bt) = some (buildBody inner' bt')) :
    (buildBody (pre ++ Item.ofBlock before ty labels o inner bt c :: post)
        trailing).changeBlockBody ty.Bytes
        (labels.map (fun toks => unquoteLabel (labelText toks))) change
      = some (buildBody (pre ++ Item.ofBlock before ty labels o inner' bt' c :: post)
          trailing) := by
  simp only [Body.changeBlockBody, buildBody, buildItems_append, buildItems, List.append_assoc]
  rw [changeBlockBody_buildItems_other _ _ change pre _ hfirst,
    changeBlockBody_buildItem_hit, hch]
  simp [buildItem_ofBlock, buildBody]

/-- The setter called through a chain of enclosing blocks reaches the innermost
body and leaves every enclosing construct as it was built. -/
theorem setAttributeValueAt_enclose (es : List Enclosing) (items items' : List Item)
    (tt : Tokens) (n : String) (v : cty.Value)
    (hblocks : ∀ e ∈ es, ∀ it ∈ e.pre, ¬ (it.blockType = some e.typeName.Bytes
      ∧ it.blockLabels
          = some (e.labels.map (fun toks => unquoteLabel (labelText toks)))))
    (h : (buildBody items tt).SetAttributeValue n v = some (buildBody items' tt)) :
    setAttributeValueAt (enclosingPath es)
        (buildBody (enclose es (items, tt)).1 (enclose es (items, tt)).2) n v
      = some (buildBody (enclose es (items', tt)).1 (enclose es (items', tt)).2) := by
  induction es with
  | nil => simpa [setAttributeValueAt, enclosingPath, enclose] using h
  | cons e es ih =>
    have ih' := ih (fun x hx => hblocks x (List.mem_cons_of_mem _ hx))
    have ih'' : (fun inner => setAttributeValueAt (enclosingPath es) inner n v)
        (buildBody (enclose es (items, tt)).1 (enclose es (items, tt)).2)
        = some (buildBody (enclose es (items', tt)).1 (enclose es (items', tt)).2) := ih'
    have hstep := changeBlockBody_buildBody e.pre e.post e.trailing e.before e.typeName
      e.labels e.open_ (enclose es (items, tt)).1 (enclose es (items', tt)).1
      (enclose es (items, tt)).2 (enclose es (items', tt)).2 e.close
      (fun inner => setAttributeValueAt (enclosingPath es) inner n v)
      (hblocks e (List.mem_cons_self _ _)) ih''
    simpa [setAttributeValueAt, enclosingPath, enclose] using hstep

/-- The tokens of a body that lies inside enclosing blocks: the tokens of the
enclosing constructs before it, its own tokens, the tokens of the enclosing
constructs after it. -/
theorem BuildTokens_enclose (es : List Enclosing) (items : List Item) (tt : Tokens) :
    (buildBody (enclose es (items, tt)).1 (enclose es (items, tt)).2).BuildTokens
      = tokensBeforeInner es ++ (buildBody items tt).BuildTokens ++ tokensAfterInner es := by
  induction es with
  | nil => simp [enclose, tokensBeforeInner, tokensAfterInner]
  | cons e es ih =>
    have hblock := BuildTokens_builtBlock e.before e.typeName e.labels e.open_
      (buildItems (enclose es (items, tt)).1 ++ strayNode (enclose es (items, tt)).2) e.close
    have ih' : nodes.BuildTokens
        (buildItems (enclose es (items, tt)).1 ++ strayNode (enclose es (items, tt)).2)
        = tokensBeforeInner es ++ (buildBody items tt).BuildTokens ++ tokensAfterInner es := ih
    have hblock' : strayTokens e.before ++ nodes.BuildTokens
        [(builtBlock e.before e.typeName e.labels e.open_
          (buildItems (enclose es (items, tt)).1 ++ strayNode (enclose es (items, tt)).2)
          e.close).toContent]
        = e.before ++ [e.typeName] ++ e.labels.flatten ++ e.open_
          ++ (tokensBeforeInner es ++ (buildBody items tt).BuildTokens ++ tokensAfterInner es)
          ++ e.close := by
      rw [← ih', ← hblock, nodes_BuildTokens_append, nodes_BuildTokens_strayNode]
    simp only [enclose, Body.BuildTokens, buildBody, buildItems_append, buildItems,
      nodes_BuildTokens_append, buildItem_ofBlock, tokensBeforeInner,
      tokensAfterInner, nodes_BuildTokens_strayNode, List.append_assoc]
    rw [← List.append_assoc (strayTokens e.before), hblock']
    simp only [Body.BuildTokens, buildBody, nodes_BuildTokens_append,
      nodes_BuildTokens_strayNode, List.append_assoc]

end hclwrite

/-! ## Theorems: the errors of a diagnostics list -/

namespace hcl

theorem errs_loop_eq (d : Diagnostics) (errs : List Diagnostic) :
    Diagnostics.Errs.loop d errs
      = errs ++ d.filter (fun diag => decide (diag.Severity = DiagError)) := by
  induction d generalizing errs with
  | nil => simp [Diagnostics.Errs.loop]
  | cons x rest ih =>
    by_cases h : x.Severity = DiagError
    · simp [Diagnostics.Errs.loop, h, ih]
    · simp [Diagnostics.Errs.loop, h, ih]

/-- C26: `d.Errs()` is exactly the subsequence of the entries of `d` whose
severity is DiagError, in their original order: it is `d` with the entries of
any other severity (warnings, invalid) dropped, every entry of it has severity
DiagError, an entry of `d` with severity DiagError is in it, and it is non-empty
if and only if `d.HasErrors()` is true. -/
theorem C26_errs_subsequence (d : Diagnostics) :
    Diagnostics.Errs d = d.filter (fun diag => decide (diag.Severity = DiagError))
    ∧ List.Sublist (Diagnostics.Errs d) d
    ∧ (∀ x, x ∈ Diagnostics.Errs d ↔ x ∈ d ∧ x.Severity = DiagError)
    ∧ (∀ x ∈ d, x.Severity = DiagWarning ∨ x.Severity = DiagInvalid →
        x ∉ Diagnostics.Errs d)
    ∧ (Diagnostics.Errs d ≠ [] ↔ Diagnostics.HasErrors d = true) := by
  have heq : Diagnostics.Errs d
      = d.filter (fun diag => decide (diag.Severity = DiagError)) := by
    simp [Diagnostics.Errs, errs_loop_eq]
  refine ⟨heq, ?_, ?_, ?_, ?_⟩
  · rw [heq]
    exact List.filter_sublist d
  · intro x
    rw [heq]
    simp [List.mem_filter]
  · intro x _ hsev hmem
    rw [heq] at hmem
    have hx : x.Severity = DiagError := by simpa using (List.mem_filter.mp hmem).2
    rcases hsev with h | h <;> rw [hx] at h <;> exact absurd h (by decide)
  · rw [heq, hasErrors_eq_true_iff, ne_eq, List.filter_eq_nil_iff]
    simp

/-- C27: `HasErrors` distributes over list growth: `d.Extend(e).HasErrors()` is
`d.HasErrors() || e.HasErrors()`, `d.Append(x).HasErrors()` is
`d.HasErrors() || (x.Severity == DiagError)`, and once a list has errors every
`Append` and `Extend` of it has errors. -/
theorem C27_hasErrors_distributes (d e : Diagnostics) (x : Diagnostic) :
    Diagnostics.HasErrors (Diagnostics.Extend d e)
      = (Diagnostics.HasErrors d || Diagnostics.HasErrors e)
    ∧ Diagnostics.HasErrors (Diagnostics.Append d x)
      = (Diagnostics.HasErrors d || decide (x.Severity = DiagError))
    ∧ (Diagnostics.HasErrors d = true →
        Diagnostics.HasErrors (Diagnostics.Extend d e) = true
        ∧ Diagnostics.HasErrors (Diagnostics.Append d x) = true) := by
  have hext : ∀ a b : Diagnostics, Diagnostics.HasErrors (a ++ b)
      = (Diagnostics.HasErrors a || Diagnostics.HasErrors b) := by
    intro a b
    induction a with
    | nil => simp [Diagnostics.HasErrors]
    | cons y rest ih => simp [hasErrors_cons, ih, Bool.or_assoc]
  have happ : Diagnostics.HasErrors [x] = decide (x.Severity = DiagError) := by
    simp [hasErrors_cons, Diagnostics.HasErrors]
  refine ⟨hext d e, ?_, ?_⟩
  · rw [Diagnostics.Append, hext, happ]
  · intro h
    constructor
    · rw [Diagnostics.Extend, hext, h, Bool.true_or]
    · rw [Diagnostics.Append, hext, h, Bool.true_or]

end hcl

/-! ## Theorems: the children and the accessors of a constructed block -/

namespace hclwrite

open TokenType

/-- The nodes of the label set of a constructed block, as `nodeSet.List` gives
them: the positions 2, 3, ... of the label children. -/
theorem NewBlock_labelNodes (t : String) (ls : List String) :
    nodeSet.List (NewBlock t ls).labels (NewBlock t ls).children
      = List.range' 2 ls.length := by
  rw [NewBlock_eq]
  unfold nodeSet.List
  apply filter_mem_range'
  simp only [List.length_append, List.length_cons, List.length_nil, List.length_map]
  omega

/-- The child of a constructed block at the position of its i-th label. -/
theorem NewBlock_labelChild (t : String) (ls : List String) (i : Nat) :
    (NewBlock t ls).children[2 + i]?
      = if i < ls.length then
          (ls[i]?).map (fun l => nodeContent.quoted (TokensForValue (cty.StringVal l)))
        else
          [ nodeContent.Tokens
              [ { Type_ := TokenOBrace, Bytes := "\x7b" },
                { Type_ := TokenNewline, Bytes := "\n" } ],
            nodeContent.Body [],
            nodeContent.Tokens
              [ { Type_ := TokenCBrace, Bytes := "\x7d" },
                { Type_ := TokenNewline, Bytes := "\n" } ] ][i - ls.length]? := by
  rw [NewBlock_eq]
  simp only [List.append_assoc, List.cons_append, List.nil_append]
  rw [show 2 + i = i + 1 + 1 from by omega, List.getElem?_cons_succ, List.getElem?_cons_succ]
  split
  · rename_i h
    rw [List.getElem?_append_left (by simpa using h), List.getElem?_map]
    rfl
  · rename_i h
    rw [List.getElem?_append_right (by simpa using h), List.length_map]

/-- C24: the child list of `NewBlock(t, ls)` is, in this order, the lead-comments
node holding an empty comment run, the type-name node, one quoted-string node
for each label in the order given, the open node, the body node and the close
node, `5 + len(ls)` children; the pointer fields name these children; and the
label set holds exactly the positions of the label children, each once: the
i-th of them is the quoted node of the i-th label. -/
theorem C24_newBlock_children (t : String) (ls : List String) :
    (NewBlock t ls).children
      = [ nodeContent.comments [],
          nodeContent.identifier { Type_ := TokenIdent, Bytes := t } ]
        ++ ls.map (fun l => nodeContent.quoted (TokensForValue (cty.StringVal l)))
        ++ [ nodeContent.Tokens
               [ { Type_ := TokenOBrace, Bytes := "\x7b" },
                 { Type_ := TokenNewline, Bytes := "\n" } ],
             nodeContent.Body [],
             nodeContent.Tokens
               [ { Type_ := TokenCBrace, Bytes := "\x7d" },
                 { Type_ := TokenNewline, Bytes := "\n" } ] ]
    ∧ (NewBlock t ls).children.length = 5 + ls.length
    ∧ (NewBlock t ls).leadComments = some 0
    ∧ (NewBlock t ls).typeName = some 1
    ∧ (NewBlock t ls).open_ = some (2 + ls.length)
    ∧ (NewBlock t ls).body = some (3 + ls.length)
    ∧ (NewBlock t ls).close = some (4 + ls.length)
    ∧ (NewBlock t ls).labels = List.range' 2 ls.length
    ∧ (∀ i : Nat, i ∈ (NewBlock t ls).labels ↔ 2 ≤ i ∧ i < 2 + ls.length)
    ∧ (NewBlock t ls).labels.Nodup
    ∧ nodeSet.List (NewBlock t ls).labels (NewBlock t ls).children
        = List.range' 2 ls.length
    ∧ (∀ (i : Nat) (l : String), ls[i]? = some l →
        (NewBlock t ls).children[2 + i]?
          = some (nodeContent.quoted (TokensForValue (cty.StringVal l)))) := by
  refine ⟨?_, ?_, ?_, ?_, ?_, ?_, ?_, ?_, ?_, ?_, NewBlock_labelNodes t ls, ?_⟩
  · rw [NewBlock_eq]
    rfl
  · rw [NewBlock_eq]
    simp only [List.length_append, List.length_cons, List.length_nil, List.length_map]
    omega
  · rw [NewBlock_eq]
  · rw [NewBlock_eq]
  · rw [NewBlock_eq]
  · rw [NewBlock_eq]
  · rw [NewBlock_eq]
  · rw [NewBlock_eq]
  · intro i
    rw [NewBlock_eq]
    simp only [List.mem_range'_1]
  · rw [NewBlock_eq]
    exact List.nodup_range' 2 ls.length
  · intro i l hi
    have hlt : i < ls.length := by
      rcases Nat.lt_or_ge i ls.length with h | h
      · exact h
      · rw [List.getElem?_eq_none h] at hi
        exact absurd hi (by simp)
    rw [NewBlock_labelChild, if_pos hlt, hi]
    rfl

/-- C25: for every type name `t` and every label list `ls` whose strings hold no
space, no double quote, no backslash, no control character and no `$` or `%`
followed by an open brace, `NewBlock(t, ls).Labels()` returns exactly `ls`, in
order; the empty list and the empty-string label are among these. -/
theorem C25_newBlock_labels_plain (t : String) (ls : List String)
    (hplain : ∀ l ∈ ls,
      (∀ c ∈ l.data, c ≠ ' ' ∧ c ≠ '"' ∧ c ≠ '\\' ∧ 32 ≤ c.toNat)
      ∧ ¬ (['$', Char.ofNat 123] <:+: l.data)
      ∧ ¬ (['%', Char.ofNat 123] <:+: l.data)) :
    (NewBlock t ls).Labels = some ls
    ∧ (NewBlock t []).Labels = some []
    ∧ (NewBlock t [""]).Labels = some [""] := by
  have hone : ∀ l : String, (∀ c ∈ l.data, c ≠ ' ' ∧ c ≠ '"' ∧ c ≠ '\\' ∧ 32 ≤ c.toNat) →
      strings.Trim (Tokens.Bytes (TokensForValue (cty.StringVal l))) " \"" = l := by
    intro l hl
    have hb := bytes_TokensForValue_string l
    rw [escapeQuotedStringLit_plain l (fun c hc => ⟨(hl c hc).2.1, (hl c hc).2.2.1,
      (hl c hc).2.2.2⟩)] at hb
    have hs : Tokens.Bytes (TokensForValue (cty.StringVal l))
        = String.mk ('"' :: (l.data ++ ['"'])) := by
      rw [← hb]
    rw [hs, Trim_quoted l.data (fun c hc => (hl c hc).2.1)]
    · intro hh
      cases hd : l.data with
      | nil => rw [hd] at hh; simp at hh
      | cons c rest =>
        rw [hd] at hh
        have hc : c = ' ' := by simpa using hh
        exact (hl c (by rw [hd]; exact List.mem_cons_self _ _)).1 hc
    · intro hh
      have hmem : ' ' ∈ l.data := List.mem_of_mem_getLast? (Option.mem_def.mpr hh)
      exact (hl ' ' hmem).1 rfl
  have hall : ∀ ks : List String,
      (∀ l ∈ ks, ∀ c ∈ l.data, c ≠ ' ' ∧ c ≠ '"' ∧ c ≠ '\\' ∧ 32 ≤ c.toNat) →
      ks.map (fun l => strings.Trim (Tokens.Bytes (TokensForValue (cty.StringVal l))) " \"")
        = ks := by
    intro ks hks
    induction ks with
    | nil => rfl
    | cons k rest ih =>
      rw [List.map_cons, hone k (hks k (List.mem_cons_self _ _)),
        ih (fun l hl => hks l (List.mem_cons_of_mem _ hl))]
  refine ⟨?_, ?_, ?_⟩
  · rw [NewBlock_Labels, hall ls (fun l hl => (hplain l hl).1)]
  · rw [NewBlock_Labels]
    rfl
  · rw [NewBlock_Labels, hall [""] (by simp)]

/-- C25 (witness): the labels `label1`, the empty string and `a-b_c.d` need no
escaping and come back from `Labels()` as given. -/
theorem C25_witness :
    (NewBlock "service" ["label1", "", "a-b_c.d"]).Labels = some ["label1", "", "a-b_c.d"] :=
  (C25_newBlock_labels_plain "service" ["label1", "", "a-b_c.d"] (by decide)).1

/-- C28: for every block `NewBlock(t, ls)` returns, the accessors `Body()`,
`Type()` and `Labels()` complete without a panic: the body pointer is non-nil
and names a node whose content is a (here empty) body, the type-name pointer is
non-nil and names a node whose content is an identifier, and every node of the
label set holds quoted-string content, so each type assertion of the accessors
succeeds and each accessor returns a value. -/
theorem C28_newBlock_accessors_total (t : String) (ls : List String) :
    (NewBlock t ls).body ≠ none
    ∧ nodes.content (NewBlock t ls).children (NewBlock t ls).body
        = some (nodeContent.Body [])
    ∧ (NewBlock t ls).typeName ≠ none
    ∧ nodes.content (NewBlock t ls).children (NewBlock t ls).typeName
        = some (nodeContent.identifier { Type_ := TokenIdent, Bytes := t })
    ∧ (∀ i ∈ nodeSet.List (NewBlock t ls).labels (NewBlock t ls).children,
        ∃ tokens : Tokens,
          nodes.content (NewBlock t ls).children (some i) = some (nodeContent.quoted tokens))
    ∧ (∃ body : Body, (NewBlock t ls).Body = some body)
    ∧ (∃ ty : String, (NewBlock t ls).Type_ = some ty)
    ∧ (∃ labelNames : List String, (NewBlock t ls).Labels = some labelNames) := by
  have hbodyPtr : (NewBlock t ls).body = some (2 + (ls.length + 1)) := by
    rw [NewBlock_eq]
    simp only [Option.some.injEq]
    omega
  have htyPtr : (NewBlock t ls).typeName = some 1 := by rw [NewBlock_eq]
  have hbody : nodes.content (NewBlock t ls).children (NewBlock t ls).body
      = some (nodeContent.Body []) := by
    rw [hbodyPtr]
    simp only [nodes.content]
    rw [NewBlock_labelChild, if_neg (by omega)]
    simp
  have hty : nodes.content (NewBlock t ls).children (NewBlock t ls).typeName
      = some (nodeContent.identifier { Type_ := TokenIdent, Bytes := t }) := by
    rw [htyPtr, NewBlock_eq]
    simp [nodes.content, newIdentifier, newIdentToken, newComments]
  refine ⟨?_, hbody, ?_, hty, ?_, ?_, ?_, ⟨_, NewBlock_Labels t ls⟩⟩
  · rw [hbodyPtr]
    simp
  · rw [htyPtr]
    simp
  · intro i hi
    rw [NewBlock_labelNodes, List.mem_range'_1] at hi
    obtain ⟨k, rfl⟩ := Nat.exists_eq_add_of_le hi.1
    have hk : k < ls.length := by omega
    refine ⟨TokensForValue (cty.StringVal (ls.get ⟨k, hk⟩)), ?_⟩
    simp only [nodes.content]
    rw [NewBlock_labelChild, if_pos hk, List.getElem?_eq_getElem hk]
    rfl
  · refine ⟨{ children := [] }, ?_⟩
    simp only [Block.Body, hbody]
  · refine ⟨t, ?_⟩
    simp only [Block.Type_, hty]

end hclwrite

/-! ## Theorems: the formatter is idempotent -/

namespace hclwrite

open TokenType

/-- The spacing rule for a token after another reads only the kinds of the two. -/
theorem spaceBefore_congr (p p' c c' : Token) (hp : p.Type_ = p'.Type_)
    (hc : c.Type_ = c'.Type_) : spaceBefore p c = spaceBefore p' c' := by
  simp only [spaceBefore, isClosePunct, isSuffixPunct, isOpenPunct, endsIdentOrLiteral, hp, hc]

theorem withSpaces_Type (t : Token) (n : Nat) : (t.withSpaces n).Type_ = t.Type_ := rfl

theorem withSpaces_withSpaces (t : Token) (n m : Nat) :
    (t.withSpaces n).withSpaces m = t.withSpaces m := rfl

/-- The spacing rules applied to a line they were applied to change nothing. -/
theorem formatSpaces_idem (prev prev' : Token) (l : Tokens) (hp : prev.Type_ = prev'.Type_) :
    formatSpaces prev (formatSpaces prev' l) = formatSpaces prev' l := by
  induction l generalizing prev prev' with
  | nil => rfl
  | cons t rest ih =>
    simp only [formatSpaces]
    cases hsp : spaceBefore prev' t with
    | none =>
      have h1 : spaceBefore prev t = none := by
        rw [spaceBefore_congr prev prev' t t hp rfl, hsp]
      simp only [h1]
      rw [ih t t rfl]
    | some n =>
      have h1 : spaceBefore prev (t.withSpaces n) = some n := by
        rw [spaceBefore_congr prev prev' (t.withSpaces n) t hp rfl, hsp]
      simp only [h1, withSpaces_withSpaces]
      rw [ih (t.withSpaces n) t rfl]

/-- The spacing and indentation rules applied to a line they were applied to
change nothing. -/
theorem formatLine_idem (indent : Nat) (l : Tokens) :
    formatLine indent (formatLine indent l) = formatLine indent l := by
  cases l with
  | nil => rfl
  | cons t rest =>
    simp only [formatLine]
    by_cases hc : t.Type_ = TokenStringLit ∨ t.Type_ = TokenCHeredoc
    · simp only [if_pos hc]
      rw [formatSpaces_idem t t rest rfl]
    · simp only [if_neg hc, withSpaces_Type, withSpaces_withSpaces]
      rw [formatSpaces_idem (t.withSpaces indent) t rest rfl]

/-- The rules applied to a formatted attribute line whose `=` was moved by the
alignment give the formatted line back: the `=` after the name gets one space. -/
theorem formatLine_setEqualsSpaces (indent n : Nat) (l : Tokens)
    (ha : isAttributeLine (formatLine indent l) = true) :
    formatLine indent (setEqualsSpaces n (formatLine indent l)) = formatLine indent l := by
  cases l with
  | nil => rfl
  | cons name rest =>
    cases rest with
    | nil => exact formatLine_idem indent [name]
    | cons equals rest' =>
      have hidem := formatLine_idem indent (name :: equals :: rest')
      simp only [formatLine, formatSpaces, setEqualsSpaces] at ha hidem ⊢
      simp only [isAttributeLine, Bool.and_eq_true, decide_eq_true_eq] at ha
      obtain ⟨hname, hequals⟩ := ha
      have hname' : name.Type_ = TokenIdent := by
        by_cases hc : name.Type_ = TokenStringLit ∨ name.Type_ = TokenCHeredoc
        · simpa [if_pos hc] using hname
        · simpa [if_neg hc, withSpaces_Type] using hname
      have hc : ¬ (name.Type_ = TokenStringLit ∨ name.Type_ = TokenCHeredoc) := by
        rw [hname']
        simp
      have hequals' : equals.Type_ = TokenEqual := by
        cases hsp : spaceBefore name equals with
        | none => simpa [hsp] using hequals
        | some k => simpa [hsp, withSpaces_Type] using hequals
      have hsp : ∀ (a b : Token), a.Type_ = TokenIdent → b.Type_ = TokenEqual →
          spaceBefore a b = some 1 := by
        intro a b h1 h2
        simp [spaceBefore, isClosePunct, isSuffixPunct, isOpenPunct, endsIdentOrLiteral, h1, h2]
      simp only [if_neg hc, withSpaces_Type, withSpaces_withSpaces,
        hsp name equals hname' hequals',
        hsp (name.withSpaces indent) (equals.withSpaces n) hname' hequals']
      rw [formatSpaces_idem (equals.withSpaces n) equals rest' rfl]

theorem depthAfter_kindBytes (d : Nat) (l l' : Tokens)
    (h : l.map Token.kindBytes = l'.map Token.kindBytes) : depthAfter d l = depthAfter d l' := by
  induction l generalizing l' d with
  | nil =>
    cases l' with
    | nil => rfl
    | cons _ _ => simp at h
  | cons t rest ih =>
    cases l' with
    | nil => simp at h
    | cons t' rest' =>
      simp only [List.map_cons, List.cons.injEq, Token.kindBytes, Prod.mk.injEq] at h
      obtain ⟨⟨hty, -⟩, hrest⟩ := h
      simp only [depthAfter, hty]
      split
      · exact ih _ _ hrest
      · split
        · exact ih _ _ hrest
        · exact ih _ _ hrest

theorem indentDepth_kindBytes (d : Nat) (l l' : Tokens)
    (h : l.map Token.kindBytes = l'.map Token.kindBytes) :
    indentDepth d l = indentDepth d l' := by
  cases l with
  | nil =>
    cases l' with
    | nil => rfl
    | cons _ _ => simp at h
  | cons t rest =>
    cases l' with
    | nil => simp at h
    | cons t' rest' =>
      simp only [List.map_cons, List.cons.injEq, Token.kindBytes, Prod.mk.injEq] at h
      simp only [indentDepth, h.1.1]

/-- The spacing and indentation rules over lines that are already formatted and
aligned give the formatted lines back, with the same nesting levels. -/
theorem formatLines_alignLines (d : Nat) (back : Option (Nat × Nat)) (o : Nat)
    (ls : List Tokens) :
    formatLines d (alignLines back o (formatLines d ls)) = formatLines d ls := by
  induction ls generalizing d back o with
  | nil => rfl
  | cons l rest ih =>
    have hkb : ∀ n, (setEqualsSpaces n (formatLine (2 * indentDepth d l) l)).map
        Token.kindBytes = l.map Token.kindBytes := by
      intro n
      rw [setEqualsSpaces_kindBytes, formatLine_kindBytes]
    have hkb' : (formatLine (2 * indentDepth d l) l).map Token.kindBytes
        = l.map Token.kindBytes := formatLine_kindBytes _ _
    simp only [formatLines, alignLines]
    split
    · simp only [formatLines, indentDepth_kindBytes d _ _ hkb', depthAfter_kindBytes d _ _ hkb',
        formatLine_idem, ih]
    · split
      · simp only [formatLines, indentDepth_kindBytes d _ _ hkb',
          depthAfter_kindBytes d _ _ hkb', formatLine_idem, ih]
      · split
        · rename_i ha
          simp only [formatLines, indentDepth_kindBytes d _ _ (hkb _),
            depthAfter_kindBytes d _ _ (hkb _), ih]
          rw [formatLine_setEqualsSpaces _ _ _ ha]
        · simp only [formatLines, indentDepth_kindBytes d _ _ hkb',
            depthAfter_kindBytes d _ _ hkb', formatLine_idem, ih]

theorem tokenIsNewline_kindBytes (t t' : Token) (h : t.kindBytes = t'.kindBytes) :
    tokenIsNewline t = tokenIsNewline t' := by
  simp only [Token.kindBytes, Prod.mk.injEq] at h
  simp only [tokenIsNewline, h.1, h.2]

/-- Token sequences with the same kinds and bytes split into lines of the same
kinds and bytes. -/
theorem linesForFormat_go_kindBytes (T T' cur cur' : Tokens)
    (hT : T.map Token.kindBytes = T'.map Token.kindBytes)
    (hcur : cur.map Token.kindBytes = cur'.map Token.kindBytes) :
    (linesForFormat.go T cur).map (List.map Token.kindBytes)
      = (linesForFormat.go T' cur').map (List.map Token.kindBytes) := by
  induction T generalizing T' cur cur' with
  | nil =>
    cases T' with
    | cons _ _ => simp at hT
    | nil =>
      cases cur with
      | nil =>
        cases cur' with
        | nil => rfl
        | cons _ _ => simp at hcur
      | cons c cs =>
        cases cur' with
        | nil => simp at hcur
        | cons c' cs' => simpa [linesForFormat.go] using hcur
  | cons t rest ih =>
    cases T' with
    | nil => simp at hT
    | cons t' rest' =>
      simp only [List.map_cons, List.cons.injEq] at hT
      obtain ⟨ht, hrest⟩ := hT
      have hcur' : (cur ++ [t]).map Token.kindBytes = (cur' ++ [t']).map Token.kindBytes := by
        simp [hcur, ht]
      simp only [linesForFormat.go, tokenIsNewline_kindBytes t t' ht]
      split
      · simp only [List.map_cons, hcur', ih rest' [] [] hrest rfl]
      · exact ih rest' _ _ hrest hcur'

theorem alignLines_lines_kindBytes (back : Option (Nat × Nat)) (o : Nat)
    (ls : List (Nat × Tokens)) :
    (alignLines back o ls).map (List.map Token.kindBytes)
      = ls.map (fun p => p.2.map Token.kindBytes) := by
  induction ls generalizing back o with
  | nil => rfl
  | cons dl rest ih =>
    obtain ⟨d, l⟩ := dl
    unfold alignLines
    split
    · simp [ih]
    · split
      · simp [ih]
      · split
        · simp [ih, setEqualsSpaces_kindBytes]
        · simp [ih]

theorem formatLines_lines_kindBytes (depth : Nat) (ls : List Tokens) :
    (formatLines depth ls).map (fun p => p.2.map Token.kindBytes)
      = ls.map (List.map Token.kindBytes) := by
  induction ls generalizing depth with
  | nil => rfl
  | cons l rest ih => simp [formatLines, formatLine_kindBytes, ih]

/-- Two lists of lines with the same concatenation and the same line lengths
are equal. -/
theorem lines_eq_of_flatten_eq (X Y : List Tokens) (hflat : X.flatten = Y.flatten)
    (hlen : X.map List.length = Y.map List.length) : X = Y := by
  induction X generalizing Y with
  | nil =>
    cases Y with
    | nil => rfl
    | cons _ _ => simp at hlen
  | cons x xs ih =>
    cases Y with
    | nil => simp at hlen
    | cons y ys =>
      simp only [List.map_cons, List.cons.injEq] at hlen
      simp only [List.flatten_cons] at hflat
      obtain ⟨h1, h2⟩ := List.append_inj hflat hlen.1
      rw [h1, ih ys h2 hlen.2]

/-- The lines of a formatted token sequence are the formatted and aligned lines
of the sequence. -/
theorem linesForFormat_format (T : Tokens) :
    linesForFormat (format T) = alignLines none 0 (formatLines 0 (linesForFormat T)) := by
  apply lines_eq_of_flatten_eq
  · unfold linesForFormat
    rw [linesForFormat_go_flatten]
    rfl
  · have h1 : (linesForFormat (format T)).map (List.map Token.kindBytes)
        = (linesForFormat T).map (List.map Token.kindBytes) :=
      linesForFormat_go_kindBytes _ _ [] [] (format_kindBytes T) rfl
    have h2 : (alignLines none 0 (formatLines 0 (linesForFormat T))).map
        (List.map Token.kindBytes) = (linesForFormat T).map (List.map Token.kindBytes) := by
      rw [alignLines_lines_kindBytes, formatLines_lines_kindBytes]
    have h3 := congrArg (List.map List.length) (h1.trans h2.symm)
    simpa [List.map_map, Function.comp_def] using h3

/-- C21: the formatter is idempotent: for every token sequence `T`,
`format(format(T))` is `format(T)` token for token, with the same kinds, bytes
and `SpacesBefore`. -/
theorem C21_format_idempotent (T : Tokens) : format (format T) = format T := by
  have h : format (format T)
      = (alignLines none 0 (formatLines 0 (linesForFormat (format T)))).flatten := rfl
  rw [h, linesForFormat_format, formatLines_alignLines]
  rfl

/-! ## Theorems: setting the value an attribute already has -/

theorem formatSpaces_prev_congr (p p' : Token) (l : Tokens) (h : p.Type_ = p'.Type_) :
    formatSpaces p l = formatSpaces p' l := by
  cases l with
  | nil => rfl
  | cons t rest => simp only [formatSpaces, spaceBefore_congr p p' t t h rfl]

/-- The spacing rules give the same line whatever `SpacesBefore` a token has
that a rule sets. -/
theorem formatSpaces_middle (p e t : Token) (c line : Tokens) (m n : Nat)
    (hsp : spaceBefore e t = some n) :
    formatSpaces p (c ++ e :: t.withSpaces m :: line) = formatSpaces p (c ++ e :: t :: line) := by
  induction c generalizing p with
  | nil =>
    have h1 : spaceBefore e (t.withSpaces m) = some n := by
      rw [spaceBefore_congr e e (t.withSpaces m) t rfl rfl, hsp]
    simp only [List.nil_append, formatSpaces, h1, hsp, withSpaces_withSpaces]
    rw [formatSpaces_prev_congr (t.withSpaces m) t line rfl]
  | cons c0 cs ih => simp only [List.cons_append, formatSpaces, List.append_eq, ih]

theorem formatLine_middle (indent : Nat) (e t : Token) (c line : Tokens) (m n : Nat)
    (hsp : spaceBefore e t = some n) :
    formatLine indent (c ++ e :: t.withSpaces m :: line)
      = formatLine indent (c ++ e :: t :: line) := by
  cases c with
  | nil =>
    have h := formatSpaces_middle e e t [] line m n hsp
    simp only [List.nil_append, formatSpaces] at h
    simp only [List.nil_append, formatLine, formatSpaces]
    have h1 : spaceBefore e (t.withSpaces m) = some n := by
      rw [spaceBefore_congr e e (t.withSpaces m) t rfl rfl, hsp]
    simp only [h1, hsp, withSpaces_withSpaces]
    rw [formatSpaces_prev_congr (t.withSpaces m) t line rfl]
  | cons c0 cs =>
    simp only [List.cons_append, formatLine, formatSpaces_middle c0 e t cs line m n hsp]

/-- The line being read when the token sequence ends or its next line end comes:
two starts of the line that differ in one token give lines that differ in it. -/
theorem linesForFormat_go_cur (B c s : Tokens) (e t t' : Token) :
    ∃ line post,
      linesForFormat.go B (c ++ e :: t :: s) = (c ++ e :: t :: line) :: post
      ∧ linesForFormat.go B (c ++ e :: t' :: s) = (c ++ e :: t' :: line) :: post := by
  induction B generalizing s with
  | nil =>
    refine ⟨s, [], ?_, ?_⟩
    · cases c <;> simp [linesForFormat.go]
    · cases c <;> simp [linesForFormat.go]
  | cons b B' ih =>
    by_cases hb : tokenIsNewline b = true
    · refine ⟨s ++ [b], linesForFormat.go B' [], ?_, ?_⟩
      · simp [linesForFormat.go, hb]
      · simp [linesForFormat.go, hb]
    · obtain ⟨line, post, h1, h2⟩ := ih (s ++ [b])
      refine ⟨line, post, ?_, ?_⟩
      · rw [linesForFormat.go, if_neg hb]
        simpa using h1
      · rw [linesForFormat.go, if_neg hb]
        simpa using h2

/-- The lines of two token sequences that differ in one token after a token
that ends no line: the same lines, but for the one that holds the token. -/
theorem linesForFormat_go_middle (A B cur : Tokens) (e t t' : Token)
    (he : tokenIsNewline e = false) (ht : tokenIsNewline t' = tokenIsNewline t) :
    ∃ pre c line post,
      linesForFormat.go (A ++ e :: t :: B) cur = pre ++ (c ++ e :: t :: line) :: post
      ∧ linesForFormat.go (A ++ e :: t' :: B) cur = pre ++ (c ++ e :: t' :: line) :: post := by
  induction A generalizing cur with
  | nil =>
    by_cases hnl : tokenIsNewline t = true
    · refine ⟨[], cur, [], linesForFormat.go B [], ?_, ?_⟩
      · simp [linesForFormat.go, he, hnl]
      · simp [linesForFormat.go, he, ht, hnl]
    · obtain ⟨line, post, h1, h2⟩ := linesForFormat_go_cur B cur [] e t t'
      refine ⟨[], cur, line, post, ?_, ?_⟩
      · simp only [List.nil_append, linesForFormat.go, he, hnl]
        simpa using h1
      · simp only [List.nil_append, linesForFormat.go, he, ht, hnl]
        simpa using h2
  | cons a A' ih =>
    by_cases ha : tokenIsNewline a = true
    · obtain ⟨pre, c, line, post, h1, h2⟩ := ih []
      refine ⟨(cur ++ [a]) :: pre, c, line, post, ?_, ?_⟩
      · simp only [List.cons_append, linesForFormat.go, ha, if_true, List.append_eq, h1]
      · simp only [List.cons_append, linesForFormat.go, ha, if_true, List.append_eq, h2]
    · obtain ⟨pre, c, line, post, h1, h2⟩ := ih (cur ++ [a])
      refine ⟨pre, c, line, post, ?_, ?_⟩
      · simp only [List.cons_append, linesForFormat.go, ha]
        simpa using h1
      · simp only [List.cons_append, linesForFormat.go, ha]
        simpa using h2

/-- The formatter gives the same tokens whatever `SpacesBefore` a token has that
follows, on its line, a token after which a spacing rule sets it. -/
theorem format_withSpaces (A B : Tokens) (e t : Token) (m n : Nat)
    (he : tokenIsNewline e = false) (hsp : spaceBefore e t = some n) :
    format (A ++ e :: t.withSpaces m :: B) = format (A ++ e :: t :: B) := by
  have hnl : tokenIsNewline (t.withSpaces m) = tokenIsNewline t := rfl
  obtain ⟨pre, c, line, post, h1, h2⟩ :=
    linesForFormat_go_middle A B [] e t (t.withSpaces m) he hnl
  have hkb : (c ++ e :: t.withSpaces m :: line).map Token.kindBytes
      = (c ++ e :: t :: line).map Token.kindBytes := by
    simp [Token.kindBytes, Token.withSpaces]
  have hlines : ∀ d, formatLines d (pre ++ (c ++ e :: t.withSpaces m :: line) :: post)
      = formatLines d (pre ++ (c ++ e :: t :: line) :: post) := by
    intro d
    rw [formatLines_append, formatLines_append]
    simp only [formatLines, indentDepth_kindBytes _ _ _ hkb, depthAfter_kindBytes _ _ _ hkb,
      formatLine_middle _ e t c line m n hsp]
  unfold format linesForFormat
  rw [h1, h2, hlines]

/-- The first token of a rendered value gets one space after `=`. -/
theorem spaceBefore_equals_value (equals x : Token) (xs : Tokens) (v : cty.Value)
    (hequals : equals.Type_ = TokenEqual) (hv : TokensForValue v = x :: xs) :
    spaceBefore equals x = some 1 := by
  have hx : x.Type_ = TokenIdent ∨ x.Type_ = TokenOQuote := by
    cases v with
    | NullVal =>
      simp only [TokensForValue, List.cons.injEq] at hv
      rw [← hv.1]
      exact Or.inl rfl
    | BoolVal b =>
      cases b <;>
      · simp only [TokensForValue, List.cons.injEq] at hv
        rw [← hv.1]
        exact Or.inl rfl
    | StringVal str =>
      simp only [TokensForValue, List.cons.injEq] at hv
      rw [← hv.1]
      exact Or.inr rfl
  rcases hx with hx | hx <;>
    simp [spaceBefore, isClosePunct, isSuffixPunct, isOpenPunct, endsIdentOrLiteral,
      hequals, hx]

/-- C23 (counterexample): in the source `a =   true` the expression of `a`
denotes `true` and is the token `true` with three spaces before it. After
`SetAttributeValue("a", true)` the expression is the newly rendered token `true`
with no space before it, and after the formatter pass with one: the token run
is not what it was before the call. Also in the formatted source `a = true` the
expression token has no space before it after the call, until the formatter
pass. -/
theorem C23_counterexample :
    (buildFile testItemsWideValue []).BuildTokens
      = [ { Type_ := TokenIdent, Bytes := "a", SpacesBefore := 0 },
          { Type_ := TokenEqual, Bytes := "=", SpacesBefore := 1 },
          { Type_ := TokenIdent, Bytes := "true", SpacesBefore := 3 },
          { Type_ := TokenNewline, Bytes := "\n", SpacesBefore := 0 },
          { Type_ := TokenEOF, Bytes := "", SpacesBefore := 0 } ]
    ∧ (setAttributeValueInFile (buildFile testItemsWideValue []) "a" cty.True).map
        File.BuildTokens
      = some
          [ { Type_ := TokenIdent, Bytes := "a", SpacesBefore := 0 },
            { Type_ := TokenEqual, Bytes := "=", SpacesBefore := 1 },
            { Type_ := TokenIdent, Bytes := "true", SpacesBefore := 0 },
            { Type_ := TokenNewline, Bytes := "\n", SpacesBefore := 0 },
            { Type_ := TokenEOF, Bytes := "", SpacesBefore := 0 } ]
    ∧ formattedTokens (setAttributeValueInFile (buildFile testItemsWideValue []) "a" cty.True)
      = some
          [ { Type_ := TokenIdent, Bytes := "a", SpacesBefore := 0 },
            { Type_ := TokenEqual, Bytes := "=", SpacesBefore := 1 },
            { Type_ := TokenIdent, Bytes := "true", SpacesBefore := 1 },
            { Type_ := TokenNewline, Bytes := "\n", SpacesBefore := 0 },
            { Type_ := TokenEOF, Bytes := "", SpacesBefore := 0 } ]
    ∧ formattedTokens (setAttributeValueInFile (buildFile testItemsWideValue []) "a" cty.True)
      ≠ some (buildFile testItemsWideValue []).BuildTokens
    ∧ (setAttributeValueInFile (buildFile [keywordAttrItem "a" "true"] []) "a" cty.True).map
        File.BuildTokens
      ≠ some (buildFile [keywordAttrItem "a" "true"] []).BuildTokens := by
  refine ⟨by decide, by decide, by decide, by decide, by decide⟩

/-- C23 (amended): setting the value an attribute already has, written as the
renderer writes it. In a file built from parsed constructs, take the first
attribute named `n`, whose expression is the rendering of `v` with any number of
spaces before its first token. `SetAttributeValue(n, v)` succeeds and changes no
kind and no bytes of any token of the file; the formatter pass on the result
gives exactly the tokens it gives on the untouched file; and when the source is
formatted, these are the tokens of the source: no token of the file differs
from what it was before the call. -/
theorem C23_same_value_no_churn (pre post : List Item) (before : Tokens)
    (name equals : Token) (lc nl trailing : Tokens) (v : cty.Value) (x : Token)
    (xs : Tokens) (k : Nat)
    (hfirst : ∀ it ∈ pre, it.attrName ≠ some name.Bytes)
    (hequals : equals.Type_ = TokenEqual)
    (hv : TokensForValue v = x :: xs) :
    ∃ f' : File,
      setAttributeValueInFile
          (buildFile
            (pre ++ Item.ofAttribute before name equals (x.withSpaces k :: xs) lc nl :: post)
            trailing)
          name.Bytes v = some f'
      ∧ f'.BuildTokens.map Token.kindBytes
          = (buildFile
              (pre ++ Item.ofAttribute before name equals (x.withSpaces k :: xs) lc nl :: post)
              trailing).BuildTokens.map Token.kindBytes
      ∧ format f'.BuildTokens
          = format (buildFile
              (pre ++ Item.ofAttribute before name equals (x.withSpaces k :: xs) lc nl :: post)
              trailing).BuildTokens
      ∧ (format (buildFile
              (pre ++ Item.ofAttribute before name equals (x.withSpaces k :: xs) lc nl :: post)
              trailing).BuildTokens
            = (buildFile
              (pre ++ Item.ofAttribute before name equals (x.withSpaces k :: xs) lc nl :: post)
              trailing).BuildTokens →
          format f'.BuildTokens
            = (buildFile
              (pre ++ Item.ofAttribute before name equals (x.withSpaces k :: xs) lc nl :: post)
              trailing).BuildTokens) := by
  have hfmt : format (File.BuildTokens
        { body := buildBody
            (pre ++ Item.ofAttribute before name equals (TokensForValue v) lc nl :: post)
            trailing,
          eof := [{ Type_ := TokenEOF, Bytes := "" }] })
      = format (buildFile
          (pre ++ Item.ofAttribute before name equals (x.withSpaces k :: xs) lc nl :: post)
          trailing).BuildTokens := by
    have he : tokenIsNewline equals = false := by
      simp [tokenIsNewline, hequals]
    have h := format_withSpaces
      (nodes.BuildTokens (buildItems pre) ++ before ++ [name])
      (xs ++ lc ++ nl ++ nodes.BuildTokens (buildItems post) ++ trailing
        ++ [{ Type_ := TokenEOF, Bytes := "" }])
      equals x k 1 he (spaceBefore_equals_value equals x xs v hequals hv)
    simp only [File.BuildTokens, buildFile, BuildTokens_buildBody_attribute, hv]
    simp only [List.append_assoc, List.cons_append, List.nil_append] at h ⊢
    exact h.symm
  refine ⟨{ body := buildBody
              (pre ++ Item.ofAttribute before name equals (TokensForValue v) lc nl :: post)
              trailing,
            eof := [{ Type_ := TokenEOF, Bytes := "" }] }, ?_, ?_, hfmt, ?_⟩
  · simp only [setAttributeValueInFile, buildFile,
      SetAttributeValue_update pre post before name equals (x.withSpaces k :: xs) lc nl
        trailing v hfirst,
      Option.map_some']
  · simp only [File.BuildTokens, buildFile, BuildTokens_buildBody_attribute, hv]
    simp [Token.kindBytes, Token.withSpaces]
  · intro h
    rw [hfmt, h]

/-- C23 (witness): the formatted source `a = true`: after
`SetAttributeValue("a", true)` and the formatter pass the tokens of the file are
those of the source. -/
theorem C23_witness :
    ∃ f' : File,
      setAttributeValueInFile (buildFile [keywordAttrItem "a" "true"] []) "a" cty.True
        = some f'
      ∧ format f'.BuildTokens = (buildFile [keywordAttrItem "a" "true"] []).BuildTokens := by
  obtain ⟨f', h1, -, -, h4⟩ := C23_same_value_no_churn [] [] []
    { Type_ := TokenIdent, Bytes := "a", SpacesBefore := 0 }
    { Type_ := TokenEqual, Bytes := "=", SpacesBefore := 1 } []
    [{ Type_ := TokenNewline, Bytes := "\n", SpacesBefore := 0 }] [] cty.True
    { Type_ := TokenIdent, Bytes := "true" } [] 1
    (by simp) rfl rfl
  exact ⟨f', h1, h4 (by decide)⟩

/-! ## Theorems: lines of the same kinds and bytes -/

theorem isAttributeLine_kindBytes (l l' : Tokens)
    (h : l.map Token.kindBytes = l'.map Token.kindBytes) :
    isAttributeLine l = isAttributeLine l' := by
  match l, l', h with
  | [], [], _ => rfl
  | [_], [_], _ => rfl
  | a :: b :: _, a' :: b' :: _, h =>
    simp only [List.map_cons, List.cons.injEq, Token.kindBytes, Prod.mk.injEq] at h
    simp only [isAttributeLine, h.1.1, h.2.1.1]
  | [], _ :: _, h => simp at h
  | _ :: _, [], h => simp at h
  | [_], _ :: _ :: _, h => simp at h
  | _ :: _ :: _, [_], h => simp at h

theorem isCommentLine_kindBytes (l l' : Tokens)
    (h : l.map Token.kindBytes = l'.map Token.kindBytes) :
    isCommentLine l = isCommentLine l' := by
  match l, l', h with
  | [], [], _ => rfl
  | a :: _, a' :: _, h =>
    simp only [List.map_cons, List.cons.injEq, Token.kindBytes, Prod.mk.injEq] at h
    simp only [isCommentLine, h.1.1]
  | [], _ :: _, h => simp at h
  | _ :: _, [], h => simp at h

theorem depthAfter_append (d : Nat) (a b : Tokens) :
    depthAfter d (a ++ b) = depthAfter (depthAfter d a) b := by
  induction a generalizing d with
  | nil => rfl
  | cons t rest ih =>
    simp only [List.cons_append, depthAfter]
    split
    · exact ih _
    · split
      · exact ih _
      · exact ih _

theorem tokenIsNewline_not_brace (t : Token) (h : tokenIsNewline t = true) :
    t.Type_ ≠ TokenOBrace ∧ t.Type_ ≠ TokenCBrace := by
  simp only [tokenIsNewline, Bool.or_eq_true, Bool.and_eq_true, decide_eq_true_eq] at h
  rcases h with h | ⟨h, -⟩ <;> rw [h] <;> exact ⟨by decide, by decide⟩

theorem formatLines_getLast (d : Nat) (LP : List Tokens) (y : Nat × Tokens)
    (h : (formatLines d LP).getLast? = some y) :
    ∃ l i, LP.getLast? = some l ∧ y.2 = formatLine i l := by
  rcases List.eq_nil_or_concat LP with rfl | ⟨s, l, rfl⟩
  · simp [formatLines] at h
  · rw [List.concat_eq_append] at h ⊢
    rw [formatLines_append] at h
    have hlast : ∀ z : Nat × Tokens, (formatLines d s ++ [z]).getLast? = some z := by
      intro z
      simp
    simp only [formatLines, hlast, Option.some.injEq] at h
    exact ⟨l, _, by simp, by rw [← h]⟩

theorem formatLines_head (d : Nat) (LS : List Tokens) (y : Nat × Tokens)
    (h : (formatLines d LS).head? = some y) :
    ∃ l i, LS.head? = some l ∧ y.2 = formatLine i l := by
  cases LS with
  | nil => simp [formatLines] at h
  | cons l rest =>
    simp only [formatLines, List.head?_cons, Option.some.injEq] at h
    exact ⟨l, _, rfl, by rw [← h]⟩

set_option maxRecDepth 100000 in
/-- The formatter on the tokens of the file `ExampleEncodeIntoBody` prints gives
the expected output of the example. -/
theorem format_exampleEncodeIntoBody :
    Tokens.Bytes (format exampleEncodeIntoBody)
      = "name        = \"awesome-app\"\ndescription = \"Such an awesome application\"\n\nconstraints \x7b\n  os   = \"linux\"\n  arch = \"amd64\"\n\x7d\n\nservice \"web\" \x7b\n  executable = [\"./web\", \"--listen=:8080\"]\n\x7d\nservice \"worker\" \x7b\n  executable = [\"./worker\"]\n\x7d\n\nlocals \x7b\n  hello = \"world\"\n  foo   = bar\n\x7d\n" := by
  decide

/-! ## Theorems: multi-line expressions and continuation lines -/

theorem exprAfter_kindBytes (o : Nat) (l l' : Tokens)
    (h : l.map Token.kindBytes = l'.map Token.kindBytes) : exprAfter o l = exprAfter o l' := by
  induction l generalizing l' o with
  | nil =>
    cases l' with
    | nil => rfl
    | cons _ _ => simp at h
  | cons t rest ih =>
    cases l' with
    | nil => simp at h
    | cons t' rest' =>
      simp only [List.map_cons, List.cons.injEq, Token.kindBytes, Prod.mk.injEq] at h
      obtain ⟨⟨hty, -⟩, hrest⟩ := h
      simp only [exprAfter, isOpenPunct, isClosePunct, hty]
      split
      · exact ih _ _ hrest
      · split
        · exact ih _ _ hrest
        · exact ih _ _ hrest

theorem nameWidth_kindBytes (l l' : Tokens)
    (h : l.map Token.kindBytes = l'.map Token.kindBytes) : nameWidth l = nameWidth l' := by
  match l, l', h with
  | [], [], _ => rfl
  | a :: _, a' :: _, h =>
    simp only [List.map_cons, List.cons.injEq, Token.kindBytes, Prod.mk.injEq] at h
    simp only [nameWidth, h.1.2]
  | [], _ :: _, h => simp at h
  | _ :: _, [], h => simp at h

theorem openAfterLine_kindBytes (o : Nat) (l l' : Tokens)
    (h : l.map Token.kindBytes = l'.map Token.kindBytes) :
    openAfterLine o l = openAfterLine o l' := by
  simp only [openAfterLine, isAttributeLine_kindBytes l l' h, exprAfter_kindBytes o l l' h]

theorem exprAfter_append (o : Nat) (a b : Tokens) :
    exprAfter o (a ++ b) = exprAfter (exprAfter o a) b := by
  induction a generalizing o with
  | nil => rfl
  | cons t rest ih =>
    simp only [List.cons_append, exprAfter]
    split
    · exact ih _
    · split
      · exact ih _
      · exact ih _

/-- Well-nested tokens leave the brackets open that were open before them. -/
theorem exprAfter_wellNested (n o : Nat) (X : Tokens) (h : wellNested n X = true) :
    exprAfter (o + n) X = o := by
  induction X generalizing n with
  | nil =>
    simp only [wellNested, beq_iff_eq] at h
    simp [exprAfter, h]
  | cons t rest ih =>
    simp only [wellNested] at h
    simp only [exprAfter]
    split at h
    · rename_i ho
      simp only [ho, if_true]
      exact ih (n + 1) h
    · rename_i ho
      split at h
      · rename_i hc
        simp only [Bool.and_eq_true, decide_eq_true_eq] at h
        simp only [ho, hc, if_true, Bool.false_eq_true, if_false]
        have := ih (n - 1) h.2
        rw [show o + n - 1 = o + (n - 1) by omega]
        exact this
      · rename_i hc
        simp only [ho, hc, Bool.false_eq_true, if_false]
        split at h
        · simp only [Bool.and_eq_true, decide_eq_true_eq] at h
          exact ih n h.2
        · exact ih n h

theorem tokenIsNewline_not_punct (t : Token) (h : tokenIsNewline t = true) :
    isOpenPunct t = false ∧ isClosePunct t = false := by
  simp only [tokenIsNewline, Bool.or_eq_true, Bool.and_eq_true, decide_eq_true_eq] at h
  rcases h with h | ⟨h, -⟩ <;> simp [isOpenPunct, isClosePunct, h]

theorem exprAfter_newline (o : Nat) (t : Token) (h : tokenIsNewline t = true) :
    exprAfter o [t] = o := by
  obtain ⟨h1, h2⟩ := tokenIsNewline_not_punct t h
  simp [exprAfter, h1, h2]

/-- The lines of the tokens of a well-nested expression and the token that ends
its last line: the line being read goes on to the first line end, and the lines
after it are continuation lines that close the brackets of the expression. -/
theorem linesForFormat_go_wellNested (X : Tokens) (nl : Token) (n e s : Nat) (cur : Tokens)
    (hX : wellNested n X = true) (hcur : exprAfter s cur = e + n)
    (hnl : tokenIsNewline nl = true) :
    ∃ r ls, linesForFormat.go (X ++ [nl]) cur = (cur ++ r) :: ls
      ∧ contLinesTo (exprAfter s (cur ++ r)) e ls = true := by
  induction X generalizing n s cur with
  | nil =>
    simp only [wellNested, beq_iff_eq] at hX
    refine ⟨[nl], [], ?_, ?_⟩
    · simp [linesForFormat.go, hnl]
    · rw [exprAfter_append, hcur, exprAfter_newline _ _ hnl, hX]
      simp [contLinesTo]
  | cons t rest ih =>
    simp only [wellNested] at hX
    split at hX
    · rename_i ho
      have hnt : tokenIsNewline t = false := by
        cases h : tokenIsNewline t with
        | false => rfl
        | true => rw [(tokenIsNewline_not_punct t h).1] at ho; exact absurd ho (by simp)
      have hcur' : exprAfter s (cur ++ [t]) = e + (n + 1) := by
        rw [exprAfter_append, hcur]
        simp [exprAfter, ho]
        omega
      obtain ⟨r, ls, h1, h2⟩ := ih (n + 1) s (cur ++ [t]) hX hcur'
      refine ⟨t :: r, ls, ?_, ?_⟩
      · simp only [List.cons_append, linesForFormat.go, hnt, Bool.false_eq_true, if_false]
        simpa using h1
      · simpa using h2
    · rename_i ho
      split at hX
      · rename_i hc
        simp only [Bool.and_eq_true, decide_eq_true_eq] at hX
        have hnt : tokenIsNewline t = false := by
          cases h : tokenIsNewline t with
          | false => rfl
          | true => rw [(tokenIsNewline_not_punct t h).2] at hc; exact absurd hc (by simp)
        have hcur' : exprAfter s (cur ++ [t]) = e + (n - 1) := by
          rw [exprAfter_append, hcur]
          simp [exprAfter, ho, hc]
          omega
        obtain ⟨r, ls, h1, h2⟩ := ih (n - 1) s (cur ++ [t]) hX.2 hcur'
        refine ⟨t :: r, ls, ?_, ?_⟩
        · simp only [List.cons_append, linesForFormat.go, hnt, Bool.false_eq_true, if_false]
          simpa using h1
        · simpa using h2
      · rename_i hc
        split at hX
        · rename_i hnt
          simp only [Bool.and_eq_true, decide_eq_true_eq] at hX
          have hcur0 : exprAfter (e + n) [] = e + n := rfl
          obtain ⟨r, ls, h1, h2⟩ := ih n (e + n) [] hX.2 hcur0
          refine ⟨[t], ([] ++ r) :: ls, ?_, ?_⟩
          · simp only [List.cons_append, linesForFormat.go, hnt, if_true, List.append_eq]
            rw [h1]
          · have hst : exprAfter s (cur ++ [t]) = e + n := by
              rw [exprAfter_append, hcur, exprAfter_newline _ _ hnt]
            rw [hst]
            simp only [contLinesTo, Bool.and_eq_true, decide_eq_true_eq]
            exact ⟨by omega, h2⟩
        · rename_i hnt
          have hnt' : tokenIsNewline t = false := by simpa using hnt
          have hcur' : exprAfter s (cur ++ [t]) = e + n := by
            rw [exprAfter_append, hcur]
            simp [exprAfter, ho, hc]
          obtain ⟨r, ls, h1, h2⟩ := ih n s (cur ++ [t]) hX hcur'
          refine ⟨t :: r, ls, ?_, ?_⟩
          · simp only [List.cons_append, linesForFormat.go, hnt', Bool.false_eq_true, if_false]
            simpa using h1
          · simpa using h2

theorem contLinesTo_kindBytes (o e : Nat) (ls ls' : List Tokens)
    (h : ls.map (List.map Token.kindBytes) = ls'.map (List.map Token.kindBytes)) :
    contLinesTo o e ls = contLinesTo o e ls' := by
  induction ls generalizing ls' o with
  | nil =>
    cases ls' with
    | nil => rfl
    | cons _ _ => simp at h
  | cons l rest ih =>
    cases ls' with
    | nil => simp at h
    | cons l' rest' =>
      simp only [List.map_cons, List.cons.injEq] at h
      simp only [contLinesTo, exprAfter_kindBytes o l l' h.1, ih _ _ h.2]

/-- Continuation lines are skipped when the width of a run is looked for. -/
theorem runWidth_contLines (depth o e : Nat) (ls rest : List (Nat × Tokens))
    (h : contLinesTo o e (ls.map Prod.snd) = true) :
    runWidth depth o (ls ++ rest) = runWidth depth e rest := by
  induction ls generalizing o with
  | nil =>
    simp only [List.map_nil, contLinesTo, beq_iff_eq] at h
    simp [h]
  | cons y ls' ih =>
    obtain ⟨dy, ly⟩ := y
    simp only [List.map_cons, contLinesTo, Bool.and_eq_true, decide_eq_true_eq] at h
    have hop : openAfterLine o ly = exprAfter o ly := by simp [openAfterLine, h.1]
    simp only [List.cons_append, runWidth, h.1, if_true, hop]
    exact ih _ h.2

/-- Continuation lines are left as they are by the alignment and end no run. -/
theorem alignLines_contLines (back : Option (Nat × Nat)) (o e : Nat)
    (ls rest : List (Nat × Tokens)) (h : contLinesTo o e (ls.map Prod.snd) = true) :
    alignLines back o (ls ++ rest) = ls.map Prod.snd ++ alignLines back e rest := by
  induction ls generalizing o with
  | nil =>
    simp only [List.map_nil, contLinesTo, beq_iff_eq] at h
    simp [h]
  | cons y ls' ih =>
    obtain ⟨dy, ly⟩ := y
    simp only [List.map_cons, contLinesTo, Bool.and_eq_true, decide_eq_true_eq] at h
    have hop : openAfterLine o ly = exprAfter o ly := by simp [openAfterLine, h.1]
    simp only [List.cons_append, alignLines, h.1, if_true, hop, List.map_cons, List.append_eq]
    rw [ih _ h.2]

theorem foldl_depthAfter_flatten (d : Nat) (ls : List Tokens) :
    ls.foldl depthAfter d = depthAfter d ls.flatten := by
  induction ls generalizing d with
  | nil => rfl
  | cons l rest ih => simp only [List.foldl_cons, List.flatten_cons, depthAfter_append, ih]

theorem foldl_depthAfter_linesForFormat (d : Nat) (T : Tokens) :
    (linesForFormat T).foldl depthAfter d = depthAfter d T := by
  rw [foldl_depthAfter_flatten]
  unfold linesForFormat
  rw [linesForFormat_go_flatten]
  rfl

/-- Tokens each of which ends its line: one line for each token. -/
theorem linesForFormat_go_lineEnds (lead : Tokens)
    (h : ∀ t ∈ lead, tokenIsNewline t = true) :
    linesForFormat.go lead [] = lead.map (fun t => [t]) := by
  induction lead with
  | nil => rfl
  | cons t rest ih =>
    have ht := h t (List.mem_cons_self _ _)
    simp only [linesForFormat.go, ht, if_true, List.nil_append, List.map_cons,
      ih (fun x hx => h x (List.mem_cons_of_mem _ hx))]

theorem depthAfter_newline (d : Nat) (t : Token) (h : tokenIsNewline t = true) :
    depthAfter d [t] = d := by
  obtain ⟨h1, h2⟩ := tokenIsNewline_not_brace t h
  simp [depthAfter, h1, h2]

/-- The nesting level after the tokens of a well-formed attribute is the level
before them. -/
theorem depthAfter_attribute (d : Nat) (a : RunAttribute) (ha : a.wellFormed) :
    depthAfter d (a.name :: a.equals :: (a.rest ++ [a.newline])) = d := by
  obtain ⟨-, hname, hequals, -, hdepth, hnl⟩ := ha
  have h1 : depthAfter d (a.name :: a.equals :: (a.rest ++ [a.newline]))
      = depthAfter d (a.rest ++ [a.newline]) := by
    simp [depthAfter, hname, hequals]
  rw [h1, depthAfter_append, hdepth d, depthAfter_newline _ _ hnl]

theorem depthAfter_lineEnds (d : Nat) (lead : Tokens)
    (h : ∀ t ∈ lead, tokenIsNewline t = true) : depthAfter d lead = d := by
  induction lead with
  | nil => rfl
  | cons t rest ih =>
    have ht := depthAfter_newline d t (h t (List.mem_cons_self _ _))
    have := depthAfter_append d [t] rest
    simp only [List.singleton_append] at this
    rw [this, ht, ih (fun x hx => h x (List.mem_cons_of_mem _ hx))]

theorem depthAfter_attribute_tokens (d : Nat) (a : RunAttribute) (ha : a.wellFormed) :
    depthAfter d a.tokens = d := by
  unfold RunAttribute.tokens
  rw [depthAfter_append, depthAfter_lineEnds d a.lead (fun t ht => (ha.1 t ht).2),
    depthAfter_attribute d a ha]

theorem getLast?_attribute_tokens (a : RunAttribute) :
    a.tokens.getLast? = some a.newline := by
  unfold RunAttribute.tokens
  have : a.lead ++ a.name :: a.equals :: (a.rest ++ [a.newline])
      = (a.lead ++ a.name :: a.equals :: a.rest) ++ [a.newline] := by simp
  rw [this, List.getLast?_append]
  simp

/-- The lines of the name, the `=`, the expression and the line end of a
well-formed attribute: the line of the name, then continuation lines. -/
theorem linesForFormat_attribute (a : RunAttribute) (ha : a.wellFormed) :
    ∃ r ls, linesForFormat (a.name :: a.equals :: (a.rest ++ [a.newline]))
        = (a.name :: a.equals :: r) :: ls
      ∧ contLinesTo (exprAfter 0 r) 0 ls = true := by
  obtain ⟨-, hname, hequals, hnest, -, hnl⟩ := ha
  have hn1 : tokenIsNewline a.name = false := by simp [tokenIsNewline, hname]
  have hn2 : tokenIsNewline a.equals = false := by simp [tokenIsNewline, hequals]
  have hcur : exprAfter 0 [a.name, a.equals] = 0 + 0 := by
    simp [exprAfter, isOpenPunct, isClosePunct, hname, hequals]
  obtain ⟨r, ls, h1, h2⟩ :=
    linesForFormat_go_wellNested a.rest a.newline 0 0 0 [a.name, a.equals] hnest hcur hnl
  refine ⟨r, ls, ?_, ?_⟩
  · unfold linesForFormat
    simp only [linesForFormat.go, hn1, hn2, Bool.false_eq_true, if_false, List.nil_append,
      List.cons_append]
    simpa using h1
  · have h3 : exprAfter 0 ([a.name, a.equals] ++ r) = exprAfter 0 r := by
      rw [exprAfter_append, hcur]
    rw [h3] at h2
    exact h2

/-- The lines of a well-formed attribute under the spacing and indentation
rules: a line for each lead comment, the line of the name, continuation
lines. -/
theorem formatLines_attribute (d : Nat) (a : RunAttribute) (ha : a.wellFormed) :
    ∃ g fc,
      formatLines d (linesForFormat (a.name :: a.equals :: (a.rest ++ [a.newline])))
        = (d, a.name.withSpaces (2 * d) :: a.equals.withSpaces 1 :: g) :: fc
      ∧ formatLines d (linesForFormat a.tokens)
        = a.lead.map (fun t => (d, [t.withSpaces (2 * d)]))
          ++ (d, a.name.withSpaces (2 * d) :: a.equals.withSpaces 1 :: g) :: fc
      ∧ contLinesTo (exprAfter 0 g) 0 (fc.map Prod.snd) = true := by
  obtain ⟨r, ls, hlines, hcont⟩ := linesForFormat_attribute a ha
  obtain ⟨hlead, hname, hequals, -, -, -⟩ := ha
  have hc : ¬ (a.name.Type_ = TokenStringLit ∨ a.name.Type_ = TokenCHeredoc) := by
    rw [hname]
    simp
  have hsp : spaceBefore a.name a.equals = some 1 := by
    simp [spaceBefore, isClosePunct, isSuffixPunct, isOpenPunct, endsIdentOrLiteral,
      hname, hequals]
  have hind : indentDepth d (a.name :: a.equals :: r) = d := by
    simp [indentDepth, hname]
  have hcore : formatLines d (linesForFormat (a.name :: a.equals :: (a.rest ++ [a.newline])))
      = (d, a.name.withSpaces (2 * d) :: a.equals.withSpaces 1 :: formatSpaces a.equals r)
        :: formatLines (depthAfter d (a.name :: a.equals :: r)) ls := by
    rw [hlines]
    simp only [formatLines, hind, formatLine, formatSpaces, if_neg hc, hsp]
  refine ⟨formatSpaces a.equals r,
    formatLines (depthAfter d (a.name :: a.equals :: r)) ls, hcore, ?_, ?_⟩
  · have hl : ∀ t ∈ a.lead, tokenIsNewline t = true := fun t ht => (hlead t ht).2
    have hsplit : linesForFormat a.tokens
        = a.lead.map (fun t => [t])
          ++ linesForFormat (a.name :: a.equals :: (a.rest ++ [a.newline])) := by
      unfold RunAttribute.tokens
      rw [linesForFormat_append a.lead _ (fun tok htok => hl tok (List.mem_of_mem_getLast?
        (Option.mem_def.mpr htok)))]
      unfold linesForFormat
      rw [linesForFormat_go_lineEnds a.lead hl]
    have hfl : ∀ (lead : Tokens), (∀ t ∈ lead, t.Type_ = TokenComment ∧ tokenIsNewline t = true) →
        ∀ rest : List Tokens, formatLines d (lead.map (fun t => [t]) ++ rest)
          = lead.map (fun t => (d, [t.withSpaces (2 * d)])) ++ formatLines d rest := by
      intro lead
      induction lead with
      | nil => intro _ rest; rfl
      | cons t lead' ih =>
        intro h rest
        obtain ⟨hty, hnl⟩ := h t (List.mem_cons_self _ _)
        have hd := depthAfter_newline d t hnl
        simp only [List.map_cons, List.cons_append, formatLines, indentDepth, hty,
          reduceCtorEq, if_false, formatLine, or_self, formatSpaces, hd, List.append_eq,
          ih (fun x hx => h x (List.mem_cons_of_mem _ hx)) rest]
    rw [hsplit, hfl a.lead hlead, hcore]
  · rw [exprAfter_kindBytes 0 _ r (formatSpaces_kindBytes a.equals r)]
    rw [contLinesTo_kindBytes _ _ _ ls ?_]
    · exact hcont
    · have := formatLines_lines_kindBytes (depthAfter d (a.name :: a.equals :: r)) ls
      simpa [List.map_map, Function.comp_def] using this

theorem exprAfter_name_equals (nm eq : Token) (g : Tokens) (hnm : nm.Type_ = TokenIdent)
    (heq : eq.Type_ = TokenEqual) : exprAfter 0 (nm :: eq :: g) = exprAfter 0 g := by
  simp [exprAfter, isOpenPunct, isClosePunct, hnm, heq]

/-- The width of a run that begins with the lines of an attribute: the wider of
its name and the run after it. -/
theorem runWidth_attributeLines (d k : Nat) (lead : Tokens) (nm eq : Token) (g : Tokens)
    (fc rest : List (Nat × Tokens))
    (hlead : ∀ t ∈ lead, t.Type_ = TokenComment) (hnm : nm.Type_ = TokenIdent)
    (heq : eq.Type_ = TokenEqual)
    (hcont : contLinesTo (exprAfter 0 g) 0 (fc.map Prod.snd) = true) :
    runWidth d 0 (lead.map (fun t => (d, [t.withSpaces k])) ++ (d, nm :: eq :: g) :: fc ++ rest)
      = max nm.Bytes.length (runWidth d 0 rest) := by
  induction lead with
  | nil =>
    have hop : openAfterLine 0 (nm :: eq :: g) = exprAfter 0 g := by
      simp [openAfterLine, isAttributeLine, hnm, heq, exprAfter_name_equals nm eq g hnm heq]
    simp only [List.map_nil, List.nil_append, List.cons_append, runWidth, Nat.lt_irrefl,
      if_false, isCommentLine, hnm, reduceCtorEq, decide_False, Bool.false_eq_true,
      isAttributeLine, heq, decide_True, Bool.and_self, and_self, if_true, nameWidth, hop,
      List.append_eq]
    rw [runWidth_contLines d _ 0 fc rest hcont]
  | cons t lead' ih =>
    have hty := hlead t (List.mem_cons_self _ _)
    have hop : openAfterLine 0 [t.withSpaces k] = 0 := by
      simp [openAfterLine, isAttributeLine]
    simp only [List.map_cons, List.cons_append, runWidth, Nat.lt_irrefl, if_false,
      isCommentLine, withSpaces_Type, hty, decide_True, if_true, hop, List.append_eq]
    exact ih (fun x hx => hlead x (List.mem_cons_of_mem _ hx))

/-- The alignment over the lines of an attribute: the lead comment lines and the
continuation lines are left as they are, the `=` gets
`max(1, width - name_width + 1)` spaces for the width of the run the attribute
lies in. -/
theorem alignLines_attributeLines (d k : Nat) (lead : Tokens) (nm eq : Token) (g : Tokens)
    (fc rest : List (Nat × Tokens)) (back : Option (Nat × Nat))
    (hlead : ∀ t ∈ lead, t.Type_ = TokenComment) (hnm : nm.Type_ = TokenIdent)
    (heq : eq.Type_ = TokenEqual)
    (hcont : contLinesTo (exprAfter 0 g) 0 (fc.map Prod.snd) = true) :
    alignLines back 0
        (lead.map (fun t => (d, [t.withSpaces k])) ++ (d, nm :: eq :: g) :: fc ++ rest)
      = lead.map (fun t => [t.withSpaces k])
        ++ (nm :: eq.withSpaces
              (max 1 (max (backWidth back d) (max nm.Bytes.length (runWidth d 0 rest))
                - nm.Bytes.length + 1)) :: g)
          :: (fc.map Prod.snd
            ++ alignLines (some (d, max (backWidth back d) (max nm.Bytes.length (runWidth d 0 rest)))) 0 rest) := by
  induction lead with
  | nil =>
    have hop : openAfterLine 0 (nm :: eq :: g) = exprAfter 0 g := by
      simp [openAfterLine, isAttributeLine, hnm, heq, exprAfter_name_equals nm eq g hnm heq]
    have hrw := runWidth_attributeLines d k [] nm eq g fc rest (by simp) hnm heq hcont
    simp only [List.map_nil, List.nil_append, List.cons_append] at hrw
    simp only [List.map_nil, List.nil_append, List.cons_append, alignLines, Nat.lt_irrefl,
      if_false, isCommentLine, hnm, reduceCtorEq, decide_False, Bool.false_eq_true,
      isAttributeLine, heq, decide_True, Bool.and_self, if_true, nameWidth, hop,
      setEqualsSpaces, List.append_eq, hrw]
    rw [alignLines_contLines _ _ 0 fc rest hcont]
  | cons t lead' ih =>
    have hty := hlead t (List.mem_cons_self _ _)
    have hop : openAfterLine 0 [t.withSpaces k] = 0 := by
      simp [openAfterLine, isAttributeLine]
    simp only [List.map_cons, List.cons_append, alignLines, Nat.lt_irrefl, if_false,
      isCommentLine, withSpaces_Type, hty, decide_True, if_true, hop, List.append_eq]
    rw [ih (fun x hx => hlead x (List.mem_cons_of_mem _ hx))]

/-! ## Theorems: the alignment of the equals signs of a run -/

theorem flatten_map_singleton {α β : Type} (f : α → β) (l : List α) :
    (l.map (fun t => [f t])).flatten = l.map f := by
  induction l with
  | nil => rfl
  | cons x xs ih => simp [ih]

theorem isAttributeLine_of_isCommentLine (l : Tokens) (h : isCommentLine l = true) :
    isAttributeLine l = false := by
  match l, h with
  | [t], _ => rfl
  | t :: u :: _, h =>
    simp only [isCommentLine, decide_eq_true_eq] at h
    simp [isAttributeLine, h]

theorem runWidth_noAttributeAhead (d : Nat) (FS : List (Nat × Tokens))
    (h : noAttributeAhead (FS.map Prod.snd) = true) : runWidth d 0 FS = 0 := by
  induction FS with
  | nil => rfl
  | cons y rest ih =>
    obtain ⟨dy, ly⟩ := y
    simp only [List.map_cons, noAttributeAhead] at h
    by_cases hc : isCommentLine ly = true
    · have hop : openAfterLine 0 ly = 0 := by
        simp [openAfterLine, isAttributeLine_of_isCommentLine ly hc]
      simp only [hc, if_true] at h
      simp only [runWidth, Nat.lt_irrefl, if_false, hc, if_true, hop]
      exact ih h
    · simp only [hc, Bool.false_eq_true, if_false, Bool.not_eq_true'] at h
      simp [runWidth, hc, h]

theorem alignLines_noAttributeAhead (back : Option (Nat × Nat)) (FS : List (Nat × Tokens))
    (h : noAttributeAhead (FS.map Prod.snd) = true) :
    alignLines back 0 FS = alignLines none 0 FS := by
  induction FS with
  | nil => rfl
  | cons y rest ih =>
    obtain ⟨dy, ly⟩ := y
    simp only [List.map_cons, noAttributeAhead] at h
    by_cases hc : isCommentLine ly = true
    · have hop : openAfterLine 0 ly = 0 := by
        simp [openAfterLine, isAttributeLine_of_isCommentLine ly hc]
      simp only [hc, if_true] at h
      simp only [alignLines, Nat.lt_irrefl, if_false, hc, if_true, hop]
      rw [ih h]
    · simp only [hc, Bool.false_eq_true, if_false, Bool.not_eq_true'] at h
      simp [alignLines, hc, h]

theorem noAttributeAhead_formatLines (d : Nat) (LS : List Tokens) :
    noAttributeAhead ((formatLines d LS).map Prod.snd) = noAttributeAhead LS := by
  induction LS generalizing d with
  | nil => rfl
  | cons l rest ih =>
    have hkb := formatLine_kindBytes (2 * indentDepth d l) l
    simp only [formatLines, List.map_cons, noAttributeAhead, isCommentLine_kindBytes _ _ hkb,
      isAttributeLine_kindBytes _ _ hkb, ih]

/-- The lines of a run of well-formed attributes followed by more tokens. -/
theorem linesForFormat_run (run : List RunAttribute) (S : Tokens)
    (hrun : ∀ a ∈ run, a.wellFormed) :
    linesForFormat (run.flatMap RunAttribute.tokens ++ S)
      = run.flatMap (fun a => linesForFormat a.tokens) ++ linesForFormat S := by
  induction run with
  | nil => rfl
  | cons a rest ih =>
    have ha := hrun a (List.mem_cons_self _ _)
    have hlast : ∀ tok, a.tokens.getLast? = some tok → tokenIsNewline tok = true := by
      intro tok htok
      rw [getLast?_attribute_tokens] at htok
      cases htok
      exact ha.2.2.2.2.2
    simp only [List.flatMap_cons, List.append_assoc]
    rw [linesForFormat_append a.tokens _ hlast, ih (fun x hx => hrun x (List.mem_cons_of_mem _ hx))]

/-- The spacing and indentation rules over the lines of a run: every attribute
of the run begins at the nesting level the run begins at. -/
theorem formatLines_run (d : Nat) (run : List RunAttribute) (LS : List Tokens)
    (hrun : ∀ a ∈ run, a.wellFormed) :
    formatLines d (run.flatMap (fun a => linesForFormat a.tokens) ++ LS)
      = run.flatMap (fun a => formatLines d (linesForFormat a.tokens)) ++ formatLines d LS := by
  induction run with
  | nil => rfl
  | cons a rest ih =>
    have ha := hrun a (List.mem_cons_self _ _)
    simp only [List.flatMap_cons, List.append_assoc]
    rw [formatLines_append, foldl_depthAfter_linesForFormat, depthAfter_attribute_tokens d a ha,
      ih (fun x hx => hrun x (List.mem_cons_of_mem _ hx))]

/-- The width the formatter finds for a run of attributes is the widest name of
the run. -/
theorem runWidth_run (d : Nat) (run : List RunAttribute) (FS : List (Nat × Tokens))
    (hrun : ∀ a ∈ run, a.wellFormed) (hFS : runWidth d 0 FS = 0) :
    runWidth d 0 (run.flatMap (fun a => formatLines d (linesForFormat a.tokens)) ++ FS)
      = specRunWidth run := by
  induction run with
  | nil => simpa [specRunWidth] using hFS
  | cons a rest ih =>
    have ha := hrun a (List.mem_cons_self _ _)
    obtain ⟨g, fc, -, hlines, hcont⟩ := formatLines_attribute d a ha
    have ih' := ih (fun x hx => hrun x (List.mem_cons_of_mem _ hx))
    simp only [List.flatMap_cons, List.append_assoc, hlines, List.cons_append]
    have h := runWidth_attributeLines d (2 * d) a.lead (a.name.withSpaces (2 * d))
      (a.equals.withSpaces 1) g fc
      (rest.flatMap (fun a => formatLines d (linesForFormat a.tokens)) ++ FS)
      (fun t ht => (ha.1 t ht).1) ha.2.1 ha.2.2.1 hcont
    simp only [List.append_assoc, List.cons_append] at h
    rw [h, ih']
    simp [specRunWidth, Token.withSpaces]

/-- The tokens of an attribute of a run in the words of the spec, by the parts
of its formatted lines. -/
theorem specAlignedAttribute_eq (d W : Nat) (a : RunAttribute) (g : Tokens)
    (fc : List (Nat × Tokens)) (ha : a.wellFormed)
    (hcore : formatLines d (linesForFormat (a.name :: a.equals :: (a.rest ++ [a.newline])))
      = (d, a.name.withSpaces (2 * d) :: a.equals.withSpaces 1 :: g) :: fc)
    (hcont : contLinesTo (exprAfter 0 g) 0 (fc.map Prod.snd) = true) :
    specAlignedAttribute d W a
      = a.lead.map (fun t => t.withSpaces (2 * d))
        ++ a.name.withSpaces (2 * d)
          :: a.equals.withSpaces (max 1 (W - a.name.Bytes.length + 1))
          :: (g ++ (fc.map Prod.snd).flatten) := by
  have h := alignLines_attributeLines d (2 * d) [] (a.name.withSpaces (2 * d))
    (a.equals.withSpaces 1) g fc [] none (by simp) ha.2.1 ha.2.2.1 hcont
  simp only [List.map_nil, List.nil_append, List.append_nil] at h
  unfold specAlignedAttribute formatAt
  rw [hcore, h]
  simp [alignLines]

/-- The alignment over a run of attributes: every `=` of the run gets
`max(1, W - this_name_width + 1)` spaces, where `W` is the widest name of the
whole run. -/
theorem alignLines_run (d W : Nat) (run : List RunAttribute) (FS : List (Nat × Tokens))
    (back : Option (Nat × Nat))
    (hrun : ∀ a ∈ run, a.wellFormed)
    (hFS : noAttributeAhead (FS.map Prod.snd) = true)
    (hW : max (backWidth back d) (specRunWidth run) = W) :
    (alignLines back 0
        (run.flatMap (fun a => formatLines d (linesForFormat a.tokens)) ++ FS)).flatten
      = run.flatMap (specAlignedAttribute d W) ++ (alignLines none 0 FS).flatten := by
  induction run generalizing back with
  | nil =>
    simp only [List.flatMap_nil, List.nil_append]
    rw [alignLines_noAttributeAhead back FS hFS]
  | cons a rest ih =>
    have ha := hrun a (List.mem_cons_self _ _)
    have hrest := fun x hx => hrun x (List.mem_cons_of_mem a hx)
    obtain ⟨g, fc, hcore, hlines, hcont⟩ := formatLines_attribute d a ha
    have hrw := runWidth_run d rest FS hrest (runWidth_noAttributeAhead d FS hFS)
    have h := alignLines_attributeLines d (2 * d) a.lead (a.name.withSpaces (2 * d))
      (a.equals.withSpaces 1) g fc
      (rest.flatMap (fun a => formatLines d (linesForFormat a.tokens)) ++ FS) back
      (fun t ht => (ha.1 t ht).1) ha.2.1 ha.2.2.1 hcont
    have hwidth : max (backWidth back d) (max (a.name.withSpaces (2 * d)).Bytes.length (specRunWidth rest)) = W := by
      rw [← hW]
      simp [specRunWidth, Token.withSpaces]
    have hle : specRunWidth rest ≤ W := by
      rw [← hwidth]
      omega
    have ih' := ih (some (d, W)) hrest (by simpa [backWidth] using hle)
    simp only [List.flatMap_cons, List.append_assoc, hlines, List.cons_append]
    simp only [List.append_assoc, List.cons_append] at h
    rw [h, hrw, hwidth, specAlignedAttribute_eq d W a g fc ha hcore hcont]
    simp only [List.flatten_append, List.flatten_cons, ih', List.append_assoc,
      List.cons_append, flatten_map_singleton (fun t => Token.withSpaces t (2 * d))]
    simp [Token.withSpaces]

theorem openAfterLines_kindBytes (o : Nat) (ls ls' : List Tokens)
    (h : ls.map (List.map Token.kindBytes) = ls'.map (List.map Token.kindBytes)) :
    openAfterLines o ls = openAfterLines o ls' := by
  induction ls generalizing ls' o with
  | nil =>
    cases ls' with
    | nil => rfl
    | cons _ _ => simp at h
  | cons l rest ih =>
    cases ls' with
    | nil => simp at h
    | cons l' rest' =>
      simp only [List.map_cons, List.cons.injEq] at h
      simp only [openAfterLines, List.foldl_cons, openAfterLine_kindBytes o l l' h.1]
      exact ih _ _ h.2

theorem openAfterLines_formatLines (o d : Nat) (ls : List Tokens) :
    openAfterLines o ((formatLines d ls).map Prod.snd) = openAfterLines o ls := by
  apply openAfterLines_kindBytes
  have := formatLines_lines_kindBytes d ls
  simpa [List.map_map, Function.comp_def] using this

/-- A line that is no comment line, no attribute line and no continuation line
ends every run before it. -/
theorem runWidth_append_break (depth o : Nat) (s : List (Nat × Tokens)) (y : Nat × Tokens)
    (rest : List (Nat × Tokens))
    (hc : isCommentLine y.2 = false) (ha : isAttributeLine y.2 = false)
    (hopen : openAfterLines o (s.map Prod.snd) = 0) :
    runWidth depth o (s ++ y :: rest) = runWidth depth o (s ++ [y]) := by
  induction s generalizing o with
  | nil =>
    obtain ⟨dy, ly⟩ := y
    simp only [List.map_nil, openAfterLines, List.foldl_nil] at hopen
    simp only at hc ha
    simp [runWidth, hopen, hc, ha]
  | cons x s' ih =>
    obtain ⟨dx, lx⟩ := x
    simp only [List.map_cons, openAfterLines, List.foldl_cons] at hopen
    have ih' := ih (openAfterLine o lx) hopen
    simp only [List.cons_append, runWidth, List.append_eq, ih']

/-- The alignment after lines that end with a line that is no comment line, no
attribute line and no continuation line starts afresh. -/
theorem alignLines_append_break (back : Option (Nat × Nat)) (o : Nat)
    (s : List (Nat × Tokens)) (y : Nat × Tokens) (rest : List (Nat × Tokens))
    (hc : isCommentLine y.2 = false) (ha : isAttributeLine y.2 = false)
    (hopen : openAfterLines o (s.map Prod.snd) = 0) :
    alignLines back o (s ++ y :: rest)
      = alignLines back o (s ++ [y]) ++ alignLines none 0 rest := by
  induction s generalizing o back with
  | nil =>
    obtain ⟨dy, ly⟩ := y
    simp only [List.map_nil, openAfterLines, List.foldl_nil] at hopen
    simp only at hc ha
    simp [alignLines, hopen, hc, ha, openAfterLine]
  | cons x s' ih =>
    obtain ⟨dx, lx⟩ := x
    have hrw := runWidth_append_break dx o ((dx, lx) :: s') y rest hc ha hopen
    simp only [List.map_cons, openAfterLines, List.foldl_cons] at hopen
    have ih' := fun b => ih b (openAfterLine o lx) hopen
    simp only [List.cons_append] at hrw
    simp only [List.cons_append, alignLines, List.append_eq, ih']
    split
    · rfl
    · rename_i ho
      have ho' : o = 0 := by omega
      subst ho'
      split
      · rfl
      · split
        · rw [hrw]
          rfl
        · rfl

theorem linesForFormat_go_ne_nil (T cur : Tokens) :
    ∀ l ∈ linesForFormat.go T cur, l ≠ [] := by
  induction T generalizing cur with
  | nil =>
    cases cur with
    | nil => simp [linesForFormat.go]
    | cons c cs => simp [linesForFormat.go]
  | cons t rest ih =>
    intro l hl
    unfold linesForFormat.go at hl
    split at hl
    · simp only [List.mem_cons] at hl
      rcases hl with rfl | hl
      · simp
      · exact ih [] l hl
    · exact ih _ l hl

/-- Tokens that end a run are none or end with a line end; the alignment after
them starts afresh. -/
theorem endsRun_spec (P : Tokens) (hP : endsRun P = true) :
    (∀ tok, P.getLast? = some tok → tokenIsNewline tok = true)
    ∧ (∀ d rest, alignLines none 0 (formatLines d (linesForFormat P) ++ rest)
        = alignLines none 0 (formatLines d (linesForFormat P)) ++ alignLines none 0 rest) := by
  unfold endsRun at hP
  rcases List.eq_nil_or_concat (linesForFormat P) with hnil | ⟨s, line, hsl⟩
  · have hPnil : P = [] := by
      have := linesForFormat_go_flatten P []
      unfold linesForFormat at hnil
      rw [hnil] at this
      simpa using this.symm
    subst hPnil
    refine ⟨by simp, ?_⟩
    intro d rest
    rfl
  · rw [List.concat_eq_append] at hsl
    have hlast : (linesForFormat P).getLast? = some line := by simp [hsl]
    have hdrop : (linesForFormat P).dropLast = s := by simp [hsl]
    rw [hlast, hdrop] at hP
    simp only [Bool.and_eq_true, Bool.not_eq_true', decide_eq_true_eq] at hP
    obtain ⟨⟨⟨hend, hc⟩, ha⟩, hopen⟩ := hP
    have hflat : P = s.flatten ++ line := by
      have := linesForFormat_go_flatten P []
      unfold linesForFormat at hsl
      rw [hsl] at this
      simpa using this.symm
    refine ⟨?_, ?_⟩
    · intro tok htok
      rw [hflat, List.getLast?_append] at htok
      cases hl : line.getLast? with
      | none => simp [hl] at hend
      | some t =>
        simp only [hl] at hend htok
        have htok' : t = tok := by simpa [Option.or] using htok
        rw [← htok']
        exact hend
    · intro d rest
      rw [hsl, formatLines_append]
      simp only [formatLines, List.append_assoc, List.singleton_append]
      have hkb := formatLine_kindBytes
        (2 * indentDepth (s.foldl depthAfter d) line) line
      rw [alignLines_append_break none 0 _ _ rest
        (by rw [isCommentLine_kindBytes _ _ hkb]; exact hc)
        (by rw [isAttributeLine_kindBytes _ _ hkb]; exact ha)
        (by rw [openAfterLines_formatLines]; exact hopen)]

/-- The formatter on a run of attributes of one body: see `specAlignedAttribute`. -/
theorem format_run (P S : Tokens) (run : List RunAttribute)
    (hrun : ∀ a ∈ run, a.wellFormed) (hP : endsRun P = true)
    (hS : noAttributeAhead (linesForFormat S) = true) :
    format (P ++ run.flatMap RunAttribute.tokens ++ S)
      = format P
        ++ run.flatMap (specAlignedAttribute (depthAfter 0 P) (specRunWidth run))
        ++ formatAt (depthAfter 0 P) S := by
  obtain ⟨hPend, hPalign⟩ := endsRun_spec P hP
  unfold format formatAt
  rw [List.append_assoc, linesForFormat_append P _ hPend, linesForFormat_run run S hrun,
    formatLines_append, foldl_depthAfter_linesForFormat, formatLines_run _ run _ hrun, hPalign,
    List.flatten_append,
    alignLines_run _ (specRunWidth run) run _ none hrun
      (by rw [noAttributeAhead_formatLines]; exact hS) (by simp [backWidth])]
  simp only [List.append_assoc]

/-- C22: equals alignment. Take a run of consecutive attributes of one body:
each with its lead comments, its name, its `=` and an expression that may span
several lines, with tokens `P` before the run that are none or end with a line
that is no attribute, no comment and no part of an expression (a blank line,
the line that opens the block, the line that closes a block), and tokens `S`
after the run that begin no further attribute (none, or after comment lines a
blank line or a block boundary). The formatter sets `SpacesBefore` of the `=` of
each attribute of the run to `max(1, max_name_width - this_name_width + 1)`,
where `max_name_width` is the widest attribute name of that run alone, and
gives each name the indentation of the body; the tokens before and after the
run are formatted as they are without the run, so the alignment of each run is
computed independently. The tokens of the file `ExampleEncodeIntoBody` prints
are formatted to its expected output: `name` has 8 spaces before `=` next to
`description`, `os` has 3 next to `arch`. In the run `bbb`, `a`, `cccc`, where
the expression of `a` spans three lines (an object under a lead comment, or the
tuple `[`, `1,`, `]`), the `=` get 2, 4 and 1 spaces. -/
theorem C22_equals_alignment (P S : Tokens) (run : List RunAttribute)
    (hrun : ∀ a ∈ run, a.wellFormed) (hP : endsRun P = true)
    (hS : noAttributeAhead (linesForFormat S) = true) :
    format (P ++ run.flatMap RunAttribute.tokens ++ S)
      = format P
        ++ run.flatMap (specAlignedAttribute (depthAfter 0 P) (specRunWidth run))
        ++ formatAt (depthAfter 0 P) S
    ∧ (∀ a ∈ run, ∃ tail : Tokens,
        specAlignedAttribute (depthAfter 0 P) (specRunWidth run) a
          = a.lead.map (fun t => t.withSpaces (2 * depthAfter 0 P))
            ++ { Type_ := a.name.Type_, Bytes := a.name.Bytes,
                 SpacesBefore := 2 * depthAfter 0 P }
              :: { Type_ := a.equals.Type_, Bytes := a.equals.Bytes,
                   SpacesBefore := max 1 (specRunWidth run - a.name.Bytes.length + 1) }
              :: tail)
    ∧ Tokens.Bytes (format exampleEncodeIntoBody)
      = "name        = \"awesome-app\"\ndescription = \"Such an awesome application\"\n\nconstraints \x7b\n  os   = \"linux\"\n  arch = \"amd64\"\n\x7d\n\nservice \"web\" \x7b\n  executable = [\"./web\", \"--listen=:8080\"]\n\x7d\nservice \"worker\" \x7b\n  executable = [\"./worker\"]\n\x7d\n\nlocals \x7b\n  hello = \"world\"\n  foo   = bar\n\x7d\n"
    ∧ Tokens.Bytes (format (exampleMultiLineRun.flatMap RunAttribute.tokens))
      = "bbb  = 2\n# the object\na    = \x7b\n  k = 1\n\x7d\ncccc = 3\n"
    ∧ ((format (exampleTupleRun.flatMap RunAttribute.tokens)).filter
          (fun t => t.Type_ = TokenEqual)).map (fun t => t.SpacesBefore) = [2, 4, 1] := by
  refine ⟨format_run P S run hrun hP hS, ?_, format_exampleEncodeIntoBody, by decide,
    by decide⟩
  intro a _
  exact ⟨_, rfl⟩

/-- C22 (witness): the run `bbb`, `a`, `cccc` between the line that opens the
block `constraints` and the line that closes it, the expression of `a` spanning
three lines under a lead comment: the names get the two spaces of the body, and
the `=` get 2, 4 and 1 spaces. -/
theorem C22_witness :
    Tokens.Bytes (format (exampleConstraintsOpen
        ++ exampleMultiLineRun.flatMap RunAttribute.tokens ++ exampleConstraintsClose))
      = "constraints \x7b\n  bbb  = 2\n  # the object\n  a    = \x7b\n    k = 1\n  \x7d\n  cccc = 3\n\x7d\n" := by
  have h := (C22_equals_alignment exampleConstraintsOpen exampleConstraintsClose
    exampleMultiLineRun
    (by
      intro a ha
      simp only [exampleMultiLineRun, List.mem_cons, List.mem_singleton, List.not_mem_nil,
        or_false] at ha
      rcases ha with rfl | rfl | rfl
      · exact ⟨by decide, rfl, rfl, by decide, fun d => rfl, rfl⟩
      · exact ⟨by decide, rfl, rfl, by decide, fun d => rfl, rfl⟩
      · exact ⟨by decide, rfl, rfl, by decide, fun d => rfl, rfl⟩)
    (by decide) (by decide)).1
  rw [h]
  decide

/-! ## Theorems: the insert path of the attribute setter -/

/-- The formatter on an attribute written on one line: after the name and the
`=`, the tokens under the spacing rules. -/
theorem formatAt_attribute_line (d : Nat) (name equals nl : Token) (V : Tokens)
    (hname : name.Type_ = TokenIdent) (hequals : equals.Type_ = TokenEqual)
    (hV : ∀ t ∈ V, tokenIsNewline t = false) (hnl : tokenIsNewline nl = true) :
    (formatAt d (name :: equals :: (V ++ [nl]))).drop 2 = formatSpaces equals (V ++ [nl]) := by
  have hxs : ∀ tok ∈ name :: equals :: V, tokenIsNewline tok = false := by
    intro tok htok
    simp only [List.mem_cons] at htok
    rcases htok with rfl | rfl | htok
    · simp [tokenIsNewline, hname]
    · simp [tokenIsNewline, hequals]
    · exact hV tok htok
  have hlines := linesForFormat_go_line (name :: equals :: V) nl [] [] hxs hnl
  have h0 : linesForFormat.go [] [] = [] := rfl
  simp only [List.nil_append, List.cons_append, h0] at hlines
  have hc : ¬ (name.Type_ = TokenStringLit ∨ name.Type_ = TokenCHeredoc) := by
    rw [hname]
    simp
  have hsp : spaceBefore name equals = some 1 := by
    simp [spaceBefore, isClosePunct, isSuffixPunct, isOpenPunct, endsIdentOrLiteral,
      hname, hequals]
  unfold formatAt linesForFormat
  rw [hlines]
  simp [formatLines, formatLine, formatSpaces, if_neg hc, hsp, alignLines, isCommentLine,
    isAttributeLine, hname, hequals, Token.withSpaces, setEqualsSpaces]

/-- The spacing rules on a rendered value after `=` and the newline after it:
the first token gets one space, the other tokens are left as they are. -/
theorem formatSpaces_value (equals x : Token) (xs : Tokens) (v : cty.Value)
    (hequals : equals.Type_ = TokenEqual) (hv : TokensForValue v = x :: xs) :
    formatSpaces equals (TokensForValue v
        ++ [{ Type_ := TokenNewline, Bytes := "\n", SpacesBefore := 0 }])
      = x.withSpaces 1 :: xs
        ++ [{ Type_ := TokenNewline, Bytes := "\n", SpacesBefore := 0 }] := by
  have h1 := spaceBefore_equals_value equals x xs v hequals hv
  rw [hv]
  simp only [List.cons_append, formatSpaces, h1]
  congr 1
  cases v with
  | NullVal =>
    simp only [TokensForValue, List.cons.injEq] at hv
    obtain ⟨rfl, rfl⟩ := hv
    simp [formatSpaces, spaceBefore, isClosePunct, isSuffixPunct, isOpenPunct,
      endsIdentOrLiteral]
  | BoolVal b =>
    cases b <;>
    · simp only [TokensForValue, List.cons.injEq] at hv
      obtain ⟨rfl, rfl⟩ := hv
      simp [formatSpaces, spaceBefore, isClosePunct, isSuffixPunct, isOpenPunct,
        endsIdentOrLiteral]
  | StringVal str =>
    simp only [TokensForValue, List.cons.injEq] at hv
    obtain ⟨rfl, rfl⟩ := hv
    simp [formatSpaces, spaceBefore, isClosePunct, isSuffixPunct, isOpenPunct,
      endsIdentOrLiteral]

theorem tokenIsNewline_value (v : cty.Value) :
    ∀ t ∈ TokensForValue v, tokenIsNewline t = false := by
  intro t ht
  cases v with
  | NullVal =>
    simp only [TokensForValue, List.mem_singleton] at ht
    subst ht
    rfl
  | BoolVal b =>
    cases b <;>
    · simp only [TokensForValue, List.mem_singleton] at ht
      subst ht
      rfl
  | StringVal str =>
    simp only [TokensForValue, List.mem_cons, List.mem_singleton, List.not_mem_nil,
      or_false] at ht
    rcases ht with rfl | rfl | rfl <;> rfl

theorem wellNested_value (v : cty.Value) : wellNested 0 (TokensForValue v) = true := by
  cases v with
  | NullVal => rfl
  | BoolVal b => cases b <;> rfl
  | StringVal str => rfl

theorem depthAfter_value (d : Nat) (v : cty.Value) : depthAfter d (TokensForValue v) = d := by
  cases v with
  | NullVal => rfl
  | BoolVal b => cases b <;> rfl
  | StringVal str => rfl

theorem wellNested_steps (steps : List hcl.Traverser) (n : Nat) (tail : Tokens) :
    wellNested n (steps.flatMap TokensForTraverser ++ tail) = wellNested n tail := by
  induction steps with
  | nil => rfl
  | cons st rest ih =>
    cases st with
    | TraverseAttr name =>
      simp only [List.flatMap_cons, TokensForTraverser, List.cons_append, List.nil_append,
        List.append_assoc]
      simpa [wellNested, isOpenPunct, isClosePunct, tokenIsNewline] using ih
    | TraverseIndex key =>
      simp only [List.flatMap_cons, TokensForTraverser, List.cons_append, List.nil_append,
        List.append_assoc]
      simpa [wellNested, isOpenPunct, isClosePunct, tokenIsNewline] using ih

/-- The attribute of the insert path is a well-formed attribute when its
expression is well nested. -/
theorem wellFormed_newRunAttribute (n : String) (expr : Tokens)
    (hnest : wellNested 0 expr = true) (hdepth : ∀ d, depthAfter d expr = d) :
    (newRunAttribute n expr).wellFormed :=
  ⟨by simp [newRunAttribute], rfl, rfl, hnest, hdepth, rfl⟩

theorem specRunWidth_append (run : List RunAttribute) (a : RunAttribute) :
    specRunWidth (run ++ [a]) = max (specRunWidth run) a.name.Bytes.length := by
  induction run with
  | nil => simp [specRunWidth]
  | cons b rest ih =>
    simp only [specRunWidth, List.cons_append, List.map_cons, List.foldr_cons] at ih ⊢
    rw [ih]
    omega

/-- The formatter on tokens that end a run, then a run of attributes, then a new
attribute on one line, then the EOF token. -/
theorem format_run_new_attribute (P : Tokens) (run : List RunAttribute) (n : String)
    (expr : Tokens) (hrun : ∀ a ∈ run, a.wellFormed) (hP : endsRun P = true)
    (hnest : wellNested 0 expr = true) (hdepth : ∀ d, depthAfter d expr = d)
    (hexpr : ∀ t ∈ expr, tokenIsNewline t = false) :
    format (P ++ run.flatMap RunAttribute.tokens
        ++ ([ { Type_ := TokenIdent, Bytes := n, SpacesBefore := 0 },
              { Type_ := TokenEqual, Bytes := "=", SpacesBefore := 0 } ]
            ++ expr ++ [{ Type_ := TokenNewline, Bytes := "\n", SpacesBefore := 0 }])
        ++ [{ Type_ := TokenEOF, Bytes := "", SpacesBefore := 0 }])
      = format P
        ++ run.flatMap
            (specAlignedAttribute (depthAfter 0 P) (max (specRunWidth run) n.length))
        ++ ({ Type_ := TokenIdent, Bytes := n, SpacesBefore := 2 * depthAfter 0 P }
            :: { Type_ := TokenEqual, Bytes := "=",
                 SpacesBefore := max 1 (specRunWidth run - n.length + 1) }
            :: formatSpaces { Type_ := TokenEqual, Bytes := "=", SpacesBefore := 0 }
                (expr ++ [{ Type_ := TokenNewline, Bytes := "\n", SpacesBefore := 0 }]))
        ++ [{ Type_ := TokenEOF, Bytes := "", SpacesBefore := 2 * depthAfter 0 P }] := by
  have hnew := wellFormed_newRunAttribute n expr hnest hdepth
  have hrun' : ∀ a ∈ run ++ [newRunAttribute n expr], a.wellFormed := by
    intro a ha
    rcases List.mem_append.mp ha with h | h
    · exact hrun a h
    · rw [List.mem_singleton.mp h]
      exact hnew
  have h := format_run P [{ Type_ := TokenEOF, Bytes := "", SpacesBefore := 0 }] _ hrun' hP
    (by decide)
  have hdrop := formatAt_attribute_line (depthAfter 0 P)
    { Type_ := TokenIdent, Bytes := n, SpacesBefore := 0 }
    { Type_ := TokenEqual, Bytes := "=", SpacesBefore := 0 }
    { Type_ := TokenNewline, Bytes := "\n", SpacesBefore := 0 } expr rfl rfl hexpr rfl
  have heof : formatAt (depthAfter 0 P) [{ Type_ := TokenEOF, Bytes := "", SpacesBefore := 0 }]
      = [{ Type_ := TokenEOF, Bytes := "", SpacesBefore := 2 * depthAfter 0 P }] := by
    simp [formatAt, linesForFormat, linesForFormat.go, tokenIsNewline, formatLines,
      indentDepth, formatLine, formatSpaces, alignLines, isCommentLine, isAttributeLine,
      Token.withSpaces]
  have hw : max 1 (max (specRunWidth run) n.length - n.length + 1)
      = max 1 (specRunWidth run - n.length + 1) := by omega
  simp only [List.flatMap_append, List.flatMap_cons, List.flatMap_nil, List.append_nil,
    specRunWidth_append, heof] at h
  have hspec : specAlignedAttribute (depthAfter 0 P) (max (specRunWidth run) n.length)
      (newRunAttribute n expr)
      = { Type_ := TokenIdent, Bytes := n, SpacesBefore := 2 * depthAfter 0 P }
        :: { Type_ := TokenEqual, Bytes := "=",
             SpacesBefore := max 1 (specRunWidth run - n.length + 1) }
        :: formatSpaces { Type_ := TokenEqual, Bytes := "=", SpacesBefore := 0 }
            (expr ++ [{ Type_ := TokenNewline, Bytes := "\n", SpacesBefore := 0 }]) := by
    simp only [specAlignedAttribute, newRunAttribute, List.map_nil, List.nil_append, hdrop,
      hw, Token.withSpaces]
  have htok : (newRunAttribute n expr).tokens
      = [ { Type_ := TokenIdent, Bytes := n, SpacesBefore := 0 },
          { Type_ := TokenEqual, Bytes := "=", SpacesBefore := 0 } ]
        ++ expr ++ [{ Type_ := TokenNewline, Bytes := "\n", SpacesBefore := 0 }] := by
    simp [RunAttribute.tokens, newRunAttribute]
  have hlen : (newRunAttribute n expr).name.Bytes.length = n.length := rfl
  rw [hlen, hspec, htok] at h
  simp only [List.append_assoc, List.cons_append, List.nil_append] at h ⊢
  exact h

/-- The traversal setter on a built body without the attribute takes the insert
path. -/
theorem SetAttributeTraversal_insert (items : List Item) (trailing : Tokens) (n : String)
    (tr : hcl.Traversal) (hno : ∀ it ∈ items, it.attrName ≠ some n) :
    (buildBody items trailing).SetAttributeTraversal n tr
      = some { children :=
          (buildBody items trailing).children
            ++ newlineBeforeAppend (buildBody items trailing).BuildTokens
            ++ [(newAttribute n (TokensForTraversal tr)).toContent] } := by
  have hupd : Body.SetAttributeValue.update n (TokensForTraversal tr)
      (buildItems items ++ strayNode trailing) = some none := by
    rw [update_buildItems_other _ _ items _ hno]
    have h := update_strayNode n (TokensForTraversal tr) trailing []
    simp only [List.append_nil, Body.SetAttributeValue.update] at h
    rw [h]
    rfl
  simp only [Body.SetAttributeTraversal, buildBody, hupd]

/-- A formatted file whose body is tokens that end a run and a run of
attributes: the formatter leaves each part as it is, and the body ends at
nesting level 0. -/
theorem formatted_run_parts (P : Tokens) (run : List RunAttribute)
    (hrun : ∀ a ∈ run, a.wellFormed) (hP : endsRun P = true)
    (hfmt : format (P ++ run.flatMap RunAttribute.tokens
        ++ [{ Type_ := TokenEOF, Bytes := "", SpacesBefore := 0 }])
      = P ++ run.flatMap RunAttribute.tokens
        ++ [{ Type_ := TokenEOF, Bytes := "", SpacesBefore := 0 }]) :
    format P = P
    ∧ run.flatMap (specAlignedAttribute (depthAfter 0 P) (specRunWidth run))
      = run.flatMap RunAttribute.tokens
    ∧ depthAfter 0 P = 0 := by
  have h := format_run P [{ Type_ := TokenEOF, Bytes := "", SpacesBefore := 0 }] run hrun hP
    (by decide)
  have heof : formatAt (depthAfter 0 P) [{ Type_ := TokenEOF, Bytes := "", SpacesBefore := 0 }]
      = [{ Type_ := TokenEOF, Bytes := "", SpacesBefore := 2 * depthAfter 0 P }] := by
    simp [formatAt, linesForFormat, linesForFormat.go, tokenIsNewline, formatLines,
      indentDepth, formatLine, formatSpaces, alignLines, isCommentLine, isAttributeLine,
      Token.withSpaces]
  rw [hfmt, heof] at h
  have hlenP : (format P).length = P.length := by
    have := congrArg List.length (format_kindBytes P)
    simpa using this
  have h1 := List.append_inj' h (by simp)
  have h2 := List.append_inj h1.1 hlenP.symm
  refine ⟨h2.1.symm, h2.2.symm, ?_⟩
  have h3 := h1.2
  simp only [List.cons.injEq, Token.mk.injEq, and_true, true_and] at h3
  omega

/-- C6 (counterexample): four formatted or unformatted sources on which
`SetAttributeValue` on the insert path and the formatter pass do not give what
the claim says. After `bb = 0`, the `=` of the new `a` gets two spaces (it is
aligned with the `=` of `bb`), not one. After `b = 0`, inserting `aa` moves the
`=` of `b`, an original token, from one space to two. In `a   = 1` (not
formatted) the `=` of `a` goes from three spaces to one. And after `a = 1`
without a final newline a newline token is inserted first, so the original
tokens are not directly followed by the identifier. -/
theorem C6_counterexample :
    formattedTokens (setAttributeValueInFile (buildFile [numberAttrItem [] "bb" "0"] [])
        "a" cty.True)
      = some
          [ { Type_ := TokenIdent, Bytes := "bb", SpacesBefore := 0 },
            { Type_ := TokenEqual, Bytes := "=", SpacesBefore := 1 },
            { Type_ := TokenNumberLit, Bytes := "0", SpacesBefore := 1 },
            { Type_ := TokenNewline, Bytes := "\n", SpacesBefore := 0 },
            { Type_ := TokenIdent, Bytes := "a", SpacesBefore := 0 },
            { Type_ := TokenEqual, Bytes := "=", SpacesBefore := 2 },
            { Type_ := TokenIdent, Bytes := "true", SpacesBefore := 1 },
            { Type_ := TokenNewline, Bytes := "\n", SpacesBefore := 0 },
            { Type_ := TokenEOF, Bytes := "", SpacesBefore := 0 } ]
    ∧ formattedTokens (setAttributeValueInFile (buildFile [numberAttrItem [] "bb" "0"] [])
        "a" cty.True)
      ≠ some
          ((buildBody [numberAttrItem [] "bb" "0"] []).BuildTokens
            ++ [ { Type_ := TokenIdent, Bytes := "a", SpacesBefore := 0 },
                 { Type_ := TokenEqual, Bytes := "=", SpacesBefore := 1 },
                 { Type_ := TokenIdent, Bytes := "true", SpacesBefore := 1 },
                 { Type_ := TokenNewline, Bytes := "\n", SpacesBefore := 0 },
                 { Type_ := TokenEOF, Bytes := "", SpacesBefore := 0 } ])
    ∧ format (buildFile [numberAttrItem [] "b" "0"] []).BuildTokens
      = (buildFile [numberAttrItem [] "b" "0"] []).BuildTokens
    ∧ formattedTokens (setAttributeValueInFile (buildFile [numberAttrItem [] "b" "0"] [])
        "aa" cty.True)
      = some
          [ { Type_ := TokenIdent, Bytes := "b", SpacesBefore := 0 },
            { Type_ := TokenEqual, Bytes := "=", SpacesBefore := 2 },
            { Type_ := TokenNumberLit, Bytes := "0", SpacesBefore := 1 },
            { Type_ := TokenNewline, Bytes := "\n", SpacesBefore := 0 },
            { Type_ := TokenIdent, Bytes := "aa", SpacesBefore := 0 },
            { Type_ := TokenEqual, Bytes := "=", SpacesBefore := 1 },
            { Type_ := TokenIdent, Bytes := "true", SpacesBefore := 1 },
            { Type_ := TokenNewline, Bytes := "\n", SpacesBefore := 0 },
            { Type_ := TokenEOF, Bytes := "", SpacesBefore := 0 } ]
    ∧ (buildBody [numberAttrItem [] "b" "0"] []).BuildTokens
      = [ { Type_ := TokenIdent, Bytes := "b", SpacesBefore := 0 },
          { Type_ := TokenEqual, Bytes := "=", SpacesBefore := 1 },
          { Type_ := TokenNumberLit, Bytes := "0", SpacesBefore := 1 },
          { Type_ := TokenNewline, Bytes := "\n", SpacesBefore := 0 } ]
    ∧ (buildBody testItemsWideEquals []).BuildTokens
      = [ { Type_ := TokenIdent, Bytes := "a", SpacesBefore := 0 },
          { Type_ := TokenEqual, Bytes := "=", SpacesBefore := 3 },
          { Type_ := TokenNumberLit, Bytes := "1", SpacesBefore := 1 },
          { Type_ := TokenNewline, Bytes := "\n", SpacesBefore := 0 } ]
    ∧ formattedTokens (setAttributeValueInFile (buildFile testItemsWideEquals [])
        "b" cty.True)
      = some
          [ { Type_ := TokenIdent, Bytes := "a", SpacesBefore := 0 },
            { Type_ := TokenEqual, Bytes := "=", SpacesBefore := 1 },
            { Type_ := TokenNumberLit, Bytes := "1", SpacesBefore := 1 },
            { Type_ := TokenNewline, Bytes := "\n", SpacesBefore := 0 },
            { Type_ := TokenIdent, Bytes := "b", SpacesBefore := 0 },
            { Type_ := TokenEqual, Bytes := "=", SpacesBefore := 1 },
            { Type_ := TokenIdent, Bytes := "true", SpacesBefore := 1 },
            { Type_ := TokenNewline, Bytes := "\n", SpacesBefore := 0 },
            { Type_ := TokenEOF, Bytes := "", SpacesBefore := 0 } ]
    ∧ format (buildFile testItemsNoNewline []).BuildTokens
      = (buildFile testItemsNoNewline []).BuildTokens
    ∧ (buildBody testItemsNoNewline []).BuildTokens
      = [ { Type_ := TokenIdent, Bytes := "a", SpacesBefore := 0 },
          { Type_ := TokenEqual, Bytes := "=", SpacesBefore := 1 },
          { Type_ := TokenNumberLit, Bytes := "1", SpacesBefore := 1 } ]
    ∧ formattedTokens (setAttributeValueInFile (buildFile testItemsNoNewline [])
        "b" cty.True)
      = some
          [ { Type_ := TokenIdent, Bytes := "a", SpacesBefore := 0 },
            { Type_ := TokenEqual, Bytes := "=", SpacesBefore := 1 },
            { Type_ := TokenNumberLit, Bytes := "1", SpacesBefore := 1 },
            { Type_ := TokenNewline, Bytes := "\n", SpacesBefore := 0 },
            { Type_ := TokenIdent, Bytes := "b", SpacesBefore := 0 },
            { Type_ := TokenEqual, Bytes := "=", SpacesBefore := 1 },
            { Type_ := TokenIdent, Bytes := "true", SpacesBefore := 1 },
            { Type_ := TokenNewline, Bytes := "\n", SpacesBefore := 0 },
            { Type_ := TokenEOF, Bytes := "", SpacesBefore := 0 } ] := by
  refine ⟨by decide, by decide, by decide, by decide, by decide, by decide, by decide,
    by decide, by decide, by decide⟩

/-- C6 (amended): insert path of `SetAttributeValue`. Take a formatted file built
from parsed constructs whose body is empty or ends with a newline token and has
no attribute named `n`; let the tokens of the body be tokens `P` that end a run
(none, or ending with a blank line or a block boundary) followed by the run of
attributes that ends the body, and `W` the widest name of that run (0 if the
run is empty). After `SetAttributeValue(n, v)` and formatting, the file's token
sequence is the tokens of `P` unchanged, the attributes of the run aligned for
the width `max(W, len(n))`, then identifier `n` (`SpacesBefore` 0), `=`
(`SpacesBefore` `max(1, W - len(n) + 1)`), the rendering of `v` (first token
`SpacesBefore` 1), a newline token, and exactly one EOF token as the last token.
When the run is empty or `n` is no wider than `W`, these are all of the original
tokens before EOF, unchanged and in order, followed by the new tokens. The empty
source becomes `a = true`, and `b = 0` becomes `b = 0`, `a = true`. -/
theorem C6_insert_path (items : List Item) (trailing : Tokens) (n : String) (v : cty.Value)
    (x : Token) (xs : Tokens) (P : Tokens) (run : List RunAttribute)
    (hno : ∀ it ∈ items, it.attrName ≠ some n)
    (hv : TokensForValue v = x :: xs)
    (hfmt : format (buildFile items trailing).BuildTokens
      = (buildFile items trailing).BuildTokens)
    (hnl : ∀ tok, (buildBody items trailing).BuildTokens.getLast? = some tok →
      tok.Type_ = TokenNewline)
    (hbody : (buildBody items trailing).BuildTokens = P ++ run.flatMap RunAttribute.tokens)
    (hrun : ∀ a ∈ run, a.wellFormed) (hP : endsRun P = true) :
    formattedTokens (setAttributeValueInFile (buildFile items trailing) n v)
      = some
          (P ++ run.flatMap (specAlignedAttribute 0 (max (specRunWidth run) n.length))
            ++ [ { Type_ := TokenIdent, Bytes := n, SpacesBefore := 0 },
                 { Type_ := TokenEqual, Bytes := "=",
                   SpacesBefore := max 1 (specRunWidth run - n.length + 1) },
                 x.withSpaces 1 ]
            ++ xs
            ++ [ { Type_ := TokenNewline, Bytes := "\n", SpacesBefore := 0 },
                 { Type_ := TokenEOF, Bytes := "", SpacesBefore := 0 } ])
    ∧ (run = [] ∨ n.length ≤ specRunWidth run →
        formattedTokens (setAttributeValueInFile (buildFile items trailing) n v)
          = some
              ((buildBody items trailing).BuildTokens
                ++ [ { Type_ := TokenIdent, Bytes := n, SpacesBefore := 0 },
                     { Type_ := TokenEqual, Bytes := "=",
                       SpacesBefore := max 1 (specRunWidth run - n.length + 1) },
                     x.withSpaces 1 ]
                ++ xs
                ++ [ { Type_ := TokenNewline, Bytes := "\n", SpacesBefore := 0 },
                     { Type_ := TokenEOF, Bytes := "", SpacesBefore := 0 } ]))
    ∧ (formattedTokens (setAttributeValueInFile (buildFile [] []) "a" cty.True)).map
          Tokens.Bytes = some "a = true\n"
    ∧ (formattedTokens (setAttributeValueInFile (buildFile [numberAttrItem [] "b" "0"] [])
          "a" cty.True)).map Tokens.Bytes = some "b = 0\na = true\n" := by
  have hsep : newlineBeforeAppend (buildBody items trailing).BuildTokens = [] := by
    unfold newlineBeforeAppend
    cases hl : (buildBody items trailing).BuildTokens.getLast? with
    | none => rfl
    | some t => simp [hnl t hl]
  have hfmt' : format (P ++ run.flatMap RunAttribute.tokens
        ++ [{ Type_ := TokenEOF, Bytes := "", SpacesBefore := 0 }])
      = P ++ run.flatMap RunAttribute.tokens
        ++ [{ Type_ := TokenEOF, Bytes := "", SpacesBefore := 0 }] := by
    have h := hfmt
    simp only [File.BuildTokens, buildFile, hbody] at h
    exact h
  obtain ⟨hPfix, hrunfix, hdepth⟩ := formatted_run_parts P run hrun hP hfmt'
  have hnew := format_run_new_attribute P run n (TokensForValue v) hrun hP
    (wellNested_value v) (fun d => depthAfter_value d v) (tokenIsNewline_value v)
  rw [hPfix, hdepth, formatSpaces_value _ x xs v rfl hv] at hnew
  have htokens : formattedTokens (setAttributeValueInFile (buildFile items trailing) n v)
      = some (format (P ++ run.flatMap RunAttribute.tokens
        ++ ([ { Type_ := TokenIdent, Bytes := n, SpacesBefore := 0 },
              { Type_ := TokenEqual, Bytes := "=", SpacesBefore := 0 } ]
            ++ TokensForValue v
            ++ [{ Type_ := TokenNewline, Bytes := "\n", SpacesBefore := 0 }])
        ++ [{ Type_ := TokenEOF, Bytes := "", SpacesBefore := 0 }])) := by
    have hbody' := hbody
    simp only [Body.BuildTokens] at hbody'
    have hnil : nodes.BuildTokens [] = [] := rfl
    have hsep2 : newlineBeforeAppend (P ++ run.flatMap RunAttribute.tokens) = [] := by
      rw [← hbody]
      exact hsep
    simp only [formattedTokens, setAttributeValueInFile, buildFile,
      SetAttributeValue_insert items trailing n v hno, Option.map_some', File.BuildTokens,
      Body.BuildTokens, nodes_BuildTokens_append, newAttribute_BuildTokens, hbody', hsep2,
      hnil, List.append_nil]
  have hgen : formattedTokens (setAttributeValueInFile (buildFile items trailing) n v)
      = some
          (P ++ run.flatMap (specAlignedAttribute 0 (max (specRunWidth run) n.length))
            ++ [ { Type_ := TokenIdent, Bytes := n, SpacesBefore := 0 },
                 { Type_ := TokenEqual, Bytes := "=",
                   SpacesBefore := max 1 (specRunWidth run - n.length + 1) },
                 x.withSpaces 1 ]
            ++ xs
            ++ [ { Type_ := TokenNewline, Bytes := "\n", SpacesBefore := 0 },
                 { Type_ := TokenEOF, Bytes := "", SpacesBefore := 0 } ]) := by
    rw [htokens, hnew]
    simp
  refine ⟨hgen, ?_, by decide, by decide⟩
  intro hW
  rw [hgen, hbody]
  have hsame : run.flatMap (specAlignedAttribute 0 (max (specRunWidth run) n.length))
      = run.flatMap RunAttribute.tokens := by
    rcases hW with h | h
    · subst h
      rfl
    · rw [Nat.max_eq_left h, ← hrunfix, hdepth]
  rw [hsame]

/-- C6 (witness): the formatted source `b = 0`, whose body is the run of the one
attribute `b`, with `a := true`: the formatted file is the tokens of the source,
then `a`, `=` with one space, `true` with one space, a newline, and the EOF
token. -/
theorem C6_witness :
    formattedTokens (setAttributeValueInFile (buildFile [numberAttrItem [] "b" "0"] [])
        "a" cty.True)
      = some
          [ { Type_ := TokenIdent, Bytes := "b", SpacesBefore := 0 },
            { Type_ := TokenEqual, Bytes := "=", SpacesBefore := 1 },
            { Type_ := TokenNumberLit, Bytes := "0", SpacesBefore := 1 },
            { Type_ := TokenNewline, Bytes := "\n", SpacesBefore := 0 },
            { Type_ := TokenIdent, Bytes := "a", SpacesBefore := 0 },
            { Type_ := TokenEqual, Bytes := "=", SpacesBefore := 1 },
            { Type_ := TokenIdent, Bytes := "true", SpacesBefore := 1 },
            { Type_ := TokenNewline, Bytes := "\n", SpacesBefore := 0 },
            { Type_ := TokenEOF, Bytes := "", SpacesBefore := 0 } ] := by
  have hlast : (buildBody [numberAttrItem [] "b" "0"] []).BuildTokens.getLast?
      = some { Type_ := TokenNewline, Bytes := "\n", SpacesBefore := 0 } := by decide
  have h := (C6_insert_path [numberAttrItem [] "b" "0"] [] "a" cty.True
    { Type_ := TokenIdent, Bytes := "true" } [] []
    [ { lead := [],
        name := { Type_ := TokenIdent, Bytes := "b", SpacesBefore := 0 },
        equals := { Type_ := TokenEqual, Bytes := "=", SpacesBefore := 1 },
        rest := [{ Type_ := TokenNumberLit, Bytes := "0", SpacesBefore := 1 }],
        newline := { Type_ := TokenNewline, Bytes := "\n", SpacesBefore := 0 } } ]
    (by decide) rfl (by decide)
    (by
      intro tok htok
      rw [hlast] at htok
      cases htok
      rfl)
    (by decide)
    (by
      intro a ha
      rw [List.mem_singleton.mp ha]
      exact ⟨by decide, rfl, rfl, by decide, fun d => rfl, rfl⟩)
    (by decide)).2.1 (Or.inr (by decide))
  rw [h]
  decide

/-! ## Theorems: setting an attribute to a traversal on any body -/

/-- C17 (counterexample): after the source `bb = 0`, setting `a` to the
traversal `b` and formatting gives the `=` of `a` two spaces (it is aligned with
the `=` of `bb`), not one. -/
theorem C17_counterexample :
    formattedTokens (setAttributeTraversalInFile (buildFile [numberAttrItem [] "bb" "0"] [])
        "a" { RootName := "b", steps := [] })
      = some
          [ { Type_ := TokenIdent, Bytes := "bb", SpacesBefore := 0 },
            { Type_ := TokenEqual, Bytes := "=", SpacesBefore := 1 },
            { Type_ := TokenNumberLit, Bytes := "0", SpacesBefore := 1 },
            { Type_ := TokenNewline, Bytes := "\n", SpacesBefore := 0 },
            { Type_ := TokenIdent, Bytes := "a", SpacesBefore := 0 },
            { Type_ := TokenEqual, Bytes := "=", SpacesBefore := 2 },
            { Type_ := TokenIdent, Bytes := "b", SpacesBefore := 1 },
            { Type_ := TokenNewline, Bytes := "\n", SpacesBefore := 0 },
            { Type_ := TokenEOF, Bytes := "", SpacesBefore := 0 } ]
    ∧ formattedTokens (setAttributeTraversalInFile
          (buildFile [numberAttrItem [] "bb" "0"] []) "a" { RootName := "b", steps := [] })
      ≠ some
          [ { Type_ := TokenIdent, Bytes := "bb", SpacesBefore := 0 },
            { Type_ := TokenEqual, Bytes := "=", SpacesBefore := 1 },
            { Type_ := TokenNumberLit, Bytes := "0", SpacesBefore := 1 },
            { Type_ := TokenNewline, Bytes := "\n", SpacesBefore := 0 },
            { Type_ := TokenIdent, Bytes := "a", SpacesBefore := 0 },
            { Type_ := TokenEqual, Bytes := "=", SpacesBefore := 1 },
            { Type_ := TokenIdent, Bytes := "b", SpacesBefore := 1 },
            { Type_ := TokenNewline, Bytes := "\n", SpacesBefore := 0 },
            { Type_ := TokenEOF, Bytes := "", SpacesBefore := 0 } ] := by
  refine ⟨by decide, by decide⟩

theorem wellNested_traversal (tr : hcl.Traversal) :
    wellNested 0 (TokensForTraversal tr) = true := by
  have h := wellNested_steps tr.steps 0 []
  simp only [List.append_nil] at h
  have h1 : wellNested 0 (TokensForTraversal tr)
      = wellNested 0 (tr.steps.flatMap TokensForTraverser) := by
    simp [TokensForTraversal, wellNested, isOpenPunct, isClosePunct, tokenIsNewline]
  rw [h1, h]
  rfl

theorem depthAfter_traversal (d : Nat) (tr : hcl.Traversal) :
    depthAfter d (TokensForTraversal tr) = d := by
  have h := depthAfter_steps tr.steps d []
  simp only [List.append_nil] at h
  have h1 : depthAfter d (TokensForTraversal tr)
      = depthAfter d (tr.steps.flatMap TokensForTraverser) := by
    simp [TokensForTraversal, depthAfter]
  rw [h1, h]
  rfl

theorem tokenIsNewline_traversal (tr : hcl.Traversal) :
    ∀ t ∈ TokensForTraversal tr, tokenIsNewline t = false := by
  intro t ht
  simp only [TokensForTraversal, List.mem_cons] at ht
  rcases ht with rfl | ht
  · rfl
  · exact tokenIsNewline_steps tr.steps t ht

/-- The spacing rules on a rendered traversal after `=` and the newline after
it: the root gets one space, the step tokens are left without spaces. -/
theorem formatSpaces_traversal (tr : hcl.Traversal) :
    formatSpaces { Type_ := TokenEqual, Bytes := "=", SpacesBefore := 0 }
        (TokensForTraversal tr
          ++ [{ Type_ := TokenNewline, Bytes := "\n", SpacesBefore := 0 }])
      = { Type_ := TokenIdent, Bytes := tr.RootName, SpacesBefore := 1 }
        :: (tr.steps.flatMap TokensForTraverser
          ++ [{ Type_ := TokenNewline, Bytes := "\n", SpacesBefore := 0 }]) := by
  have h2 : spaceBefore { Type_ := TokenEqual, Bytes := "=", SpacesBefore := 0 }
      { Type_ := TokenIdent, Bytes := tr.RootName, SpacesBefore := 0 } = some 1 := by
    simp [spaceBefore, isClosePunct, isSuffixPunct, isOpenPunct, endsIdentOrLiteral]
  simp only [TokensForTraversal, List.cons_append, formatSpaces, h2, List.append_eq]
  rw [formatSpaces_steps _ _ (Or.inl rfl)]
  rfl

/-- C17 (amended): for every absolute traversal (a root name followed by any
sequence of attribute steps and index steps) and every body built from parsed
constructs without an attribute `a`: let the tokens of the body (after the
newline token the insert path puts first when the body does not end with one)
be tokens `P` that end a run (none, or ending with a blank line or a block
boundary) followed by the run of attributes that ends the body, and `W` the
widest name of that run (0 if the run is empty). `SetAttributeTraversal(a,
traversal)` followed by formatting yields the formatted tokens of `P`, the
attributes of the run aligned for the width `max(W, len(a))`, then the
identifier `a`, `=` with `SpacesBefore` `max(1, W - len(a) + 1)` (which is 1
when no attribute of the run has a name wider than `a`), the root identifier
with `SpacesBefore` 1, then for each step in order either a dot token and an
identifier token or an open-bracket, number-literal and close-bracket token,
every one of these step tokens with `SpacesBefore` 0, then a newline and EOF.
The identifier `a` and EOF begin their lines, at the nesting level the body ends
at. On the empty source the traversals `b`, `b.c.d`, `b[0]` and `b[0].c` give
the bytes `a = b`, `a = b.c.d`, `a = b[0]` and `a = b[0].c`, each with a
newline, and after `b = 0` the traversal `b.c[0]` gives `a = b.c[0]`. -/
theorem C17_set_attribute_traversal (items : List Item) (trailing : Tokens) (a : String)
    (tr : hcl.Traversal) (P : Tokens) (run : List RunAttribute)
    (hno : ∀ it ∈ items, it.attrName ≠ some a)
    (hbody : (buildBody items trailing).BuildTokens
        ++ nodes.BuildTokens (newlineBeforeAppend (buildBody items trailing).BuildTokens)
      = P ++ run.flatMap RunAttribute.tokens)
    (hrun : ∀ x ∈ run, x.wellFormed) (hP : endsRun P = true) :
    formattedTokens (setAttributeTraversalInFile (buildFile items trailing) a tr)
      = some
          (format P
            ++ run.flatMap
                (specAlignedAttribute (depthAfter 0 P) (max (specRunWidth run) a.length))
            ++ [ { Type_ := TokenIdent, Bytes := a, SpacesBefore := 2 * depthAfter 0 P },
                 { Type_ := TokenEqual, Bytes := "=",
                   SpacesBefore := max 1 (specRunWidth run - a.length + 1) },
                 { Type_ := TokenIdent, Bytes := tr.RootName, SpacesBefore := 1 } ]
            ++ tr.steps.flatMap TokensForTraverser
            ++ [ { Type_ := TokenNewline, Bytes := "\n", SpacesBefore := 0 },
                 { Type_ := TokenEOF, Bytes := "", SpacesBefore := 2 * depthAfter 0 P } ])
    ∧ (∀ name : String,
        TokensForTraverser (hcl.Traverser.TraverseAttr name)
          = [ { Type_ := TokenDot, Bytes := ".", SpacesBefore := 0 },
              { Type_ := TokenIdent, Bytes := name, SpacesBefore := 0 } ])
    ∧ (∀ key : Nat,
        TokensForTraverser (hcl.Traverser.TraverseIndex key)
          = [ { Type_ := TokenOBrack, Bytes := "[", SpacesBefore := 0 },
              { Type_ := TokenNumberLit, Bytes := Nat.repr key, SpacesBefore := 0 },
              { Type_ := TokenCBrack, Bytes := "]", SpacesBefore := 0 } ])
    ∧ (formattedTokens (setAttributeTraversalInFile (buildFile [] []) "a"
          { RootName := "b", steps := [] })).map Tokens.Bytes = some "a = b\n"
    ∧ (formattedTokens (setAttributeTraversalInFile (buildFile [] []) "a"
          { RootName := "b",
            steps := [hcl.Traverser.TraverseAttr "c", hcl.Traverser.TraverseAttr "d"] })).map
        Tokens.Bytes = some "a = b.c.d\n"
    ∧ (formattedTokens (setAttributeTraversalInFile (buildFile [] []) "a"
          { RootName := "b", steps := [hcl.Traverser.TraverseIndex 0] })).map
        Tokens.Bytes = some "a = b[0]\n"
    ∧ (formattedTokens (setAttributeTraversalInFile (buildFile [] []) "a"
          { RootName := "b",
            steps := [hcl.Traverser.TraverseIndex 0, hcl.Traverser.TraverseAttr "c"] })).map
        Tokens.Bytes = some "a = b[0].c\n"
    ∧ (formattedTokens (setAttributeTraversalInFile (buildFile [numberAttrItem [] "b" "0"] [])
          "a" { RootName := "b",
                steps := [hcl.Traverser.TraverseAttr "c", hcl.Traverser.TraverseIndex 0] })).map
        Tokens.Bytes = some "b = 0\na = b.c[0]\n" := by
  refine ⟨?_, fun _ => rfl, fun _ => rfl, by decide, by decide, by decide, by decide,
    by decide⟩
  have hnew := format_run_new_attribute P run a (TokensForTraversal tr) hrun hP
    (wellNested_traversal tr) (fun d => depthAfter_traversal d tr)
    (tokenIsNewline_traversal tr)
  rw [formatSpaces_traversal] at hnew
  have hbody' := hbody
  simp only [Body.BuildTokens] at hbody'
  simp only [formattedTokens, setAttributeTraversalInFile, buildFile,
    SetAttributeTraversal_insert items trailing a tr hno, Option.map_some', File.BuildTokens,
    Body.BuildTokens, nodes_BuildTokens_append, newAttribute_BuildTokens, hbody']
  rw [hnew]
  simp

/-- C17 (witness): after the source `bb = 0`, whose body is the run of the one
attribute `bb`, setting `a` to the traversal `b.c[0]` and formatting gives
`bb = 0`, then `a`, `=` with two spaces, `b` with one space, the step tokens
without spaces, a newline and EOF. -/
theorem C17_witness :
    formattedTokens (setAttributeTraversalInFile (buildFile [numberAttrItem [] "bb" "0"] [])
        "a" { RootName := "b",
              steps := [hcl.Traverser.TraverseAttr "c", hcl.Traverser.TraverseIndex 0] })
      = some
          [ { Type_ := TokenIdent, Bytes := "bb", SpacesBefore := 0 },
            { Type_ := TokenEqual, Bytes := "=", SpacesBefore := 1 },
            { Type_ := TokenNumberLit, Bytes := "0", SpacesBefore := 1 },
            { Type_ := TokenNewline, Bytes := "\n", SpacesBefore := 0 },
            { Type_ := TokenIdent, Bytes := "a", SpacesBefore := 0 },
            { Type_ := TokenEqual, Bytes := "=", SpacesBefore := 2 },
            { Type_ := TokenIdent, Bytes := "b", SpacesBefore := 1 },
            { Type_ := TokenDot, Bytes := ".", SpacesBefore := 0 },
            { Type_ := TokenIdent, Bytes := "c", SpacesBefore := 0 },
            { Type_ := TokenOBrack, Bytes := "[", SpacesBefore := 0 },
            { Type_ := TokenNumberLit, Bytes := "0", SpacesBefore := 0 },
            { Type_ := TokenCBrack, Bytes := "]", SpacesBefore := 0 },
            { Type_ := TokenNewline, Bytes := "\n", SpacesBefore := 0 },
            { Type_ := TokenEOF, Bytes := "", SpacesBefore := 0 } ] := by
  have h := (C17_set_attribute_traversal [numberAttrItem [] "bb" "0"] [] "a"
    { RootName := "b",
      steps := [hcl.Traverser.TraverseAttr "c", hcl.Traverser.TraverseIndex 0] } []
    [ { lead := [],
        name := { Type_ := TokenIdent, Bytes := "bb", SpacesBefore := 0 },
        equals := { Type_ := TokenEqual, Bytes := "=", SpacesBefore := 1 },
        rest := [{ Type_ := TokenNumberLit, Bytes := "0", SpacesBefore := 1 }],
        newline := { Type_ := TokenNewline, Bytes := "\n", SpacesBefore := 0 } } ]
    (by decide) (by decide)
    (by
      intro x hx
      rw [List.mem_singleton.mp hx]
      exact ⟨by decide, rfl, rfl, by decide, fun d => rfl, rfl⟩)
    (by decide)).1
  rw [h]
  decide

/-! ## Theorems: edit locality inside blocks -/

theorem contLinesTo_append (o m e : Nat) (a b : List Tokens)
    (ha : contLinesTo o m a = true) (hb : contLinesTo m e b = true) :
    contLinesTo o e (a ++ b) = true := by
  induction a generalizing o with
  | nil =>
    simp only [contLinesTo, beq_iff_eq] at ha
    subst ha
    exact hb
  | cons l rest ih =>
    simp only [contLinesTo, Bool.and_eq_true, decide_eq_true_eq] at ha
    simp only [List.cons_append, contLinesTo, Bool.and_eq_true, decide_eq_true_eq]
    exact ⟨ha.1, ih _ ha.2⟩

/-- The line being read when a line end comes or the tokens end: whatever the
tokens read so far, the line goes on with the same tokens, and the same lines
follow. -/
theorem linesForFormat_go_rest (B : Tokens) :
    ∃ b0 LB, b0 ++ LB.flatten = B
      ∧ ∀ q : Tokens, q ≠ [] → linesForFormat.go B q = (q ++ b0) :: LB := by
  induction B with
  | nil =>
    refine ⟨[], [], rfl, ?_⟩
    intro q hq
    cases q with
    | nil => exact absurd rfl hq
    | cons c cs => simp [linesForFormat.go]
  | cons t rest ih =>
    by_cases ht : tokenIsNewline t = true
    · refine ⟨[t], linesForFormat.go rest [], ?_, ?_⟩
      · simp [linesForFormat_go_flatten]
      · intro q _
        simp [linesForFormat.go, ht]
    · obtain ⟨b0, LB, hflat, hgo⟩ := ih
      refine ⟨t :: b0, LB, by simp [hflat], ?_⟩
      intro q _
      rw [linesForFormat.go, if_neg ht, hgo (q ++ [t]) (by simp)]
      simp

/-- The lines of the tokens of a well-nested expression, whatever follows it:
either the expression ends no line and the line being read goes on with it, or
the line being read ends inside the expression, continuation lines follow, and
the last tokens of the expression begin the line that is then being read. -/
theorem linesForFormat_go_expr (X : Tokens) (n : Nat) (cur : Tokens)
    (hX : wellNested n X = true) :
    ∃ pre cur', (∀ B, linesForFormat.go (X ++ B) cur = pre ++ linesForFormat.go B cur')
      ∧ ((pre = [] ∧ cur' = cur ++ X)
        ∨ (∃ r ls, pre = (cur ++ r) :: ls ∧ cur' ≠ []
            ∧ ∀ s e, exprAfter s cur = e + n →
                ∃ s2, contLinesTo (exprAfter s (cur ++ r)) s2 ls = true ∧ 0 < s2
                  ∧ exprAfter s2 cur' = e)) := by
  induction X generalizing n cur with
  | nil =>
    exact ⟨[], cur, fun B => by simp, Or.inl ⟨rfl, by simp⟩⟩
  | cons t rest ih =>
    simp only [wellNested] at hX
    -- the three kinds of token that end no line
    have hstep : ∀ n', wellNested n' rest = true → tokenIsNewline t = false →
        (∀ s e, exprAfter s cur = e + n → exprAfter s (cur ++ [t]) = e + n') →
        ∃ pre cur', (∀ B, linesForFormat.go (t :: rest ++ B) cur
            = pre ++ linesForFormat.go B cur')
          ∧ ((pre = [] ∧ cur' = cur ++ t :: rest)
            ∨ (∃ r ls, pre = (cur ++ r) :: ls ∧ cur' ≠ []
                ∧ ∀ s e, exprAfter s cur = e + n →
                    ∃ s2, contLinesTo (exprAfter s (cur ++ r)) s2 ls = true ∧ 0 < s2
                      ∧ exprAfter s2 cur' = e)) := by
      intro n' hrest hnt hst
      obtain ⟨pre, cur', hgo, hcase⟩ := ih n' (cur ++ [t]) hrest
      refine ⟨pre, cur', ?_, ?_⟩
      · intro B
        simp only [List.cons_append, linesForFormat.go, hnt, Bool.false_eq_true, if_false]
        exact hgo B
      · rcases hcase with ⟨h1, h2⟩ | ⟨r, ls, h1, h2, h3⟩
        · exact Or.inl ⟨h1, by simp [h2]⟩
        · refine Or.inr ⟨t :: r, ls, by simp [h1], h2, ?_⟩
          intro s e hse
          have := h3 s e (hst s e hse)
          simpa using this
    split at hX
    · rename_i ho
      have hnt : tokenIsNewline t = false := by
        cases h : tokenIsNewline t with
        | false => rfl
        | true => rw [(tokenIsNewline_not_punct t h).1] at ho; exact absurd ho (by simp)
      exact hstep (n + 1) hX hnt (by
        intro s e hse
        rw [exprAfter_append, hse]
        simp [exprAfter, ho]
        omega)
    · rename_i ho
      split at hX
      · rename_i hc
        simp only [Bool.and_eq_true, decide_eq_true_eq] at hX
        have hnt : tokenIsNewline t = false := by
          cases h : tokenIsNewline t with
          | false => rfl
          | true => rw [(tokenIsNewline_not_punct t h).2] at hc; exact absurd hc (by simp)
        exact hstep (n - 1) hX.2 hnt (by
          intro s e hse
          rw [exprAfter_append, hse]
          simp [exprAfter, ho, hc]
          omega)
      · rename_i hc
        split at hX
        · rename_i hnt
          simp only [Bool.and_eq_true, decide_eq_true_eq] at hX
          obtain ⟨pre, cur', hgo, hcase⟩ := ih n [] hX.2
          refine ⟨(cur ++ [t]) :: pre, cur', ?_, Or.inr ⟨[t], pre, rfl, ?_, ?_⟩⟩
          · intro B
            simp only [List.cons_append, linesForFormat.go, hnt, if_true, List.append_eq]
            rw [hgo B]
          · rcases hcase with ⟨-, h2⟩ | ⟨r, ls, -, h2, -⟩
            · rw [h2]
              intro hnil
              simp only [List.nil_append] at hnil
              rw [hnil] at hX
              have := hX.2
              simp only [wellNested, beq_iff_eq] at this
              omega
            · exact h2
          · intro s e hse
            have hst : exprAfter s (cur ++ [t]) = e + n := by
              rw [exprAfter_append, hse, exprAfter_newline _ _ hnt]
            rw [hst]
            rcases hcase with ⟨h1, h2⟩ | ⟨r, ls, h1, -, h3⟩
            · refine ⟨e + n, ?_, by omega, ?_⟩
              · rw [h1]
                simp [contLinesTo]
              · rw [h2]
                simpa using exprAfter_wellNested n e rest hX.2
            · obtain ⟨s2, hc2, hpos, hend⟩ := h3 (e + n) e rfl
              refine ⟨s2, ?_, hpos, hend⟩
              rw [h1]
              simp only [contLinesTo, Bool.and_eq_true, decide_eq_true_eq]
              exact ⟨by omega, by simpa using hc2⟩
        · rename_i hnt
          have hnt' : tokenIsNewline t = false := by simpa using hnt
          exact hstep n hX hnt' (by
            intro s e hse
            rw [exprAfter_append, hse]
            simp [exprAfter, ho, hc])

theorem exprAfter_name_equals_any (s : Nat) (nm eq : Token) (g : Tokens)
    (hnm : nm.Type_ = TokenIdent) (heq : eq.Type_ = TokenEqual) :
    exprAfter s (nm :: eq :: g) = exprAfter s g := by
  simp [exprAfter, isOpenPunct, isClosePunct, hnm, heq]

/-- The width of a run that begins with the lines of an attribute whose
continuation lines leave `e` brackets open. -/
theorem runWidth_attribute_seg (depth i e : Nat) (nm eq : Token) (g : Tokens)
    (fc rest : List (Nat × Tokens)) (hnm : nm.Type_ = TokenIdent)
    (heq : eq.Type_ = TokenEqual)
    (hcont : contLinesTo (exprAfter 0 g) e (fc.map Prod.snd) = true) :
    runWidth depth 0 ((i, nm :: eq :: g) :: (fc ++ rest))
      = if i = depth then max nm.Bytes.length (runWidth depth e rest) else 0 := by
  have hop : openAfterLine 0 (nm :: eq :: g) = exprAfter 0 g := by
    simp [openAfterLine, isAttributeLine, hnm, heq, exprAfter_name_equals_any 0 nm eq g hnm heq]
  simp only [List.cons_append, runWidth, Nat.lt_irrefl, if_false, isCommentLine, hnm,
    reduceCtorEq, decide_False, Bool.false_eq_true, isAttributeLine, heq, decide_True,
    Bool.and_self, true_and, nameWidth, hop, List.append_eq]
  rw [runWidth_contLines depth _ e fc rest hcont]

/-- The alignment over the lines of an attribute whose continuation lines leave
`e` brackets open. -/
theorem alignLines_attribute_seg (i e : Nat) (nm eq : Token) (g : Tokens)
    (fc rest : List (Nat × Tokens)) (back : Option (Nat × Nat))
    (hnm : nm.Type_ = TokenIdent) (heq : eq.Type_ = TokenEqual)
    (hcont : contLinesTo (exprAfter 0 g) e (fc.map Prod.snd) = true) :
    alignLines back 0 ((i, nm :: eq :: g) :: (fc ++ rest))
      = setEqualsSpaces
          (max 1 (max (backWidth back i) (max nm.Bytes.length (runWidth i e rest))
            - nm.Bytes.length + 1)) (nm :: eq :: g)
        :: (fc.map Prod.snd
          ++ alignLines (some (i, max (backWidth back i)
                (max nm.Bytes.length (runWidth i e rest)))) e rest) := by
  have hop : openAfterLine 0 (nm :: eq :: g) = exprAfter 0 g := by
    simp [openAfterLine, isAttributeLine, hnm, heq, exprAfter_name_equals_any 0 nm eq g hnm heq]
  have hrw := runWidth_attribute_seg i i e nm eq g fc rest hnm heq hcont
  simp only [List.cons_append, if_true] at hrw
  simp only [List.cons_append, alignLines, Nat.lt_irrefl, if_false, isCommentLine, hnm,
    reduceCtorEq, decide_False, Bool.false_eq_true, isAttributeLine, heq, decide_True,
    Bool.and_self, if_true, nameWidth, hop, List.append_eq, hrw]
  rw [alignLines_contLines _ _ e fc rest hcont]

/-- The width of a run found through lines before two groups of lines that give
the same width. -/
theorem runWidth_congr (depth o : Nat) (pre V V' : List (Nat × Tokens))
    (h : ∀ depth o, runWidth depth o V = runWidth depth o V') :
    runWidth depth o (pre ++ V) = runWidth depth o (pre ++ V') := by
  induction pre generalizing o with
  | nil => exact h depth o
  | cons y pre' ih =>
    obtain ⟨dy, ly⟩ := y
    simp only [List.cons_append, runWidth, List.append_eq, ih]

/-- The alignment over lines, then the lines of an attribute, then more lines,
and the same with the attribute written on one line: the lines before and after
the attribute come out the same, and the `=` of the attribute gets the same
spaces. -/
theorem alignLines_replace (i : Nat) (nm eq : Token) (g g' : Tokens)
    (fc post : List (Nat × Tokens)) (st : Nat → Nat)
    (hnm : nm.Type_ = TokenIdent) (heq : eq.Type_ = TokenEqual)
    (hcont : ∀ s, contLinesTo (exprAfter s g) (st s) (fc.map Prod.snd) = true)
    (hone : ∀ s, exprAfter s g' = st s)
    (pre : List (Nat × Tokens)) (back : Option (Nat × Nat)) (o : Nat) :
    ∃ (R tail : List Tokens) (f : Tokens → Tokens),
      alignLines back o (pre ++ (i, nm :: eq :: g) :: (fc ++ post))
        = R ++ f (nm :: eq :: g) :: (fc.map Prod.snd ++ tail)
      ∧ alignLines back o (pre ++ (i, nm :: eq :: g') :: post)
        = R ++ f (nm :: eq :: g') :: tail
      ∧ R.length = pre.length
      ∧ (f = id ∨ ∃ k, f = setEqualsSpaces k) := by
  have hrw : ∀ depth o, runWidth depth o ((i, nm :: eq :: g) :: (fc ++ post))
      = runWidth depth o ((i, nm :: eq :: g') :: post) := by
    intro depth o
    by_cases ho : 0 < o
    · have h1 : contLinesTo o (st o) (((i, nm :: eq :: g) :: fc).map Prod.snd) = true := by
        simp only [List.map_cons, contLinesTo, Bool.and_eq_true, decide_eq_true_eq]
        exact ⟨ho, by rw [exprAfter_name_equals_any o nm eq g hnm heq]; exact hcont o⟩
      have h2 : contLinesTo o (st o) ([(i, nm :: eq :: g')].map Prod.snd) = true := by
        simp only [List.map_cons, List.map_nil, contLinesTo, Bool.and_eq_true,
          decide_eq_true_eq, beq_iff_eq]
        exact ⟨ho, by rw [exprAfter_name_equals_any o nm eq g' hnm heq]; exact hone o⟩
      have e1 := runWidth_contLines depth o (st o) ((i, nm :: eq :: g) :: fc) post h1
      have e2 := runWidth_contLines depth o (st o) [(i, nm :: eq :: g')] post h2
      simp only [List.cons_append, List.nil_append] at e1 e2
      rw [e1, e2]
    · have ho' : o = 0 := by omega
      subst ho'
      have h2 : contLinesTo (exprAfter 0 g') (st 0) (([] : List (Nat × Tokens)).map Prod.snd)
          = true := by
        simp [contLinesTo, hone 0]
      have e1 := runWidth_attribute_seg depth i (st 0) nm eq g fc post hnm heq (hcont 0)
      have e2 := runWidth_attribute_seg depth i (st 0) nm eq g' [] post hnm heq h2
      simp only [List.cons_append, List.nil_append] at e1 e2
      rw [e1, e2]
  induction pre generalizing back o with
  | nil =>
    by_cases ho : 0 < o
    · have h1 : contLinesTo o (st o) (((i, nm :: eq :: g) :: fc).map Prod.snd) = true := by
        simp only [List.map_cons, contLinesTo, Bool.and_eq_true, decide_eq_true_eq]
        exact ⟨ho, by rw [exprAfter_name_equals_any o nm eq g hnm heq]; exact hcont o⟩
      have h2 : contLinesTo o (st o) ([(i, nm :: eq :: g')].map Prod.snd) = true := by
        simp only [List.map_cons, List.map_nil, contLinesTo, Bool.and_eq_true,
          decide_eq_true_eq, beq_iff_eq]
        exact ⟨ho, by rw [exprAfter_name_equals_any o nm eq g' hnm heq]; exact hone o⟩
      have e1 := alignLines_contLines back o (st o) ((i, nm :: eq :: g) :: fc) post h1
      have e2 := alignLines_contLines back o (st o) [(i, nm :: eq :: g')] post h2
      simp only [List.cons_append, List.nil_append, List.map_cons, List.map_nil] at e1 e2
      refine ⟨[], alignLines back (st o) post, id, ?_, ?_, rfl, Or.inl rfl⟩
      · simpa using e1
      · simpa using e2
    · have ho' : o = 0 := by omega
      subst ho'
      have h2 : contLinesTo (exprAfter 0 g') (st 0) (([] : List (Nat × Tokens)).map Prod.snd)
          = true := by
        simp [contLinesTo, hone 0]
      have e1 := alignLines_attribute_seg i (st 0) nm eq g fc post back hnm heq (hcont 0)
      have e2 := alignLines_attribute_seg i (st 0) nm eq g' [] post back hnm heq h2
      simp only [List.cons_append, List.nil_append, List.map_nil] at e1 e2
      refine ⟨[],
        alignLines (some (i, max (backWidth back i)
          (max nm.Bytes.length (runWidth i (st 0) post)))) (st 0) post,
        setEqualsSpaces (max 1 (max (backWidth back i)
          (max nm.Bytes.length (runWidth i (st 0) post)) - nm.Bytes.length + 1)),
        ?_, ?_, rfl, Or.inr ⟨_, rfl⟩⟩
      · simpa using e1
      · simpa using e2
  | cons y pre' ih =>
    obtain ⟨dy, ly⟩ := y
    have hw := runWidth_congr dy 0 ((dy, ly) :: pre') _ _ hrw
    simp only [List.cons_append] at hw
    simp only [List.cons_append, alignLines, List.append_eq]
    split
    · obtain ⟨R, tail, f, h1, h2, h3, h4⟩ := ih back (openAfterLine o ly)
      exact ⟨ly :: R, tail, f, by rw [h1]; rfl, by rw [h2]; rfl, by simp [h3], h4⟩
    · split
      · obtain ⟨R, tail, f, h1, h2, h3, h4⟩ := ih back (openAfterLine o ly)
        exact ⟨ly :: R, tail, f, by rw [h1]; rfl, by rw [h2]; rfl, by simp [h3], h4⟩
      · split
        · obtain ⟨R, tail, f, h1, h2, h3, h4⟩ :=
            ih (some (dy, max (backWidth back dy)
              (runWidth dy 0 ((dy, ly) :: (pre' ++ (i, nm :: eq :: g') :: post)))))
              (openAfterLine o ly)
          refine ⟨setEqualsSpaces (max 1 (max (backWidth back dy)
              (runWidth dy 0 ((dy, ly) :: (pre' ++ (i, nm :: eq :: g') :: post)))
              - nameWidth ly + 1)) ly :: R, tail, f, ?_, ?_, by simp [h3], h4⟩
          · rw [hw, h1]
            rfl
          · rw [h2]
            rfl
        · obtain ⟨R, tail, f, h1, h2, h3, h4⟩ := ih none (openAfterLine o ly)
          exact ⟨ly :: R, tail, f, by rw [h1]; rfl, by rw [h2]; rfl, by simp [h3], h4⟩

theorem linesForFormat_go_noNewline (V B cur : Tokens)
    (hV : ∀ t ∈ V, tokenIsNewline t = false) :
    linesForFormat.go (V ++ B) cur = linesForFormat.go B (cur ++ V) := by
  induction V generalizing cur with
  | nil => simp
  | cons t rest ih =>
    have ht := hV t (List.mem_cons_self _ _)
    simp only [List.cons_append, linesForFormat.go, ht, Bool.false_eq_true, if_false,
      List.append_eq]
    rw [ih (cur ++ [t]) (fun x hx => hV x (List.mem_cons_of_mem _ hx))]
    simp

/-- The spacing rules on a line in two parts: the second part depends on the
first only through its last token. -/
theorem formatSpaces_append (prev : Token) (a b : Tokens) :
    ∃ ql, formatSpaces prev (a ++ b) = formatSpaces prev a ++ formatSpaces ql b := by
  induction a generalizing prev with
  | nil => exact ⟨prev, rfl⟩
  | cons t rest ih =>
    obtain ⟨ql, h⟩ := ih t
    exact ⟨ql, by simp only [List.cons_append, formatSpaces, List.append_eq, h]⟩

theorem formatLine_append (indent : Nat) (a b : Tokens) (ha : a ≠ []) :
    ∃ ql, formatLine indent (a ++ b) = formatLine indent a ++ formatSpaces ql b := by
  cases a with
  | nil => exact absurd rfl ha
  | cons t rest =>
    obtain ⟨ql, h⟩ := formatSpaces_append t rest b
    exact ⟨ql, by simp only [List.cons_append, formatLine, List.append_eq, h]⟩

theorem formatSpaces_length (prev : Token) (l : Tokens) :
    (formatSpaces prev l).length = l.length := by
  have := congrArg List.length (formatSpaces_kindBytes prev l)
  simpa using this

theorem formatLine_length (indent : Nat) (l : Tokens) :
    (formatLine indent l).length = l.length := by
  have := congrArg List.length (formatLine_kindBytes indent l)
  simpa using this

/-- The lines of an attribute that begins its line, up to the end of the line
on which its expression ends, and the lines of the same attribute with an
expression written on one line. -/
theorem linesForFormat_go_attribute (X B : Tokens) (name equals : Token)
    (hX : wellNested 0 X = true) (hname : name.Type_ = TokenIdent)
    (hequals : equals.Type_ = TokenEqual) :
    ∃ hr conts b0 LB,
      linesForFormat.go (X ++ B) [name, equals] = (name :: equals :: hr) :: (conts ++ LB)
      ∧ (∀ V : Tokens, (∀ t ∈ V, tokenIsNewline t = false) →
          linesForFormat.go (V ++ B) [name, equals] = (name :: equals :: (V ++ b0)) :: LB)
      ∧ (∀ s, contLinesTo (exprAfter s hr) (exprAfter s b0) conts = true)
      ∧ hr ++ conts.flatten = X ++ b0
      ∧ b0 ++ LB.flatten = B
      ∧ ((conts = [] ∧ hr = X ++ b0)
        ∨ (∃ ls cur', conts = ls ++ [cur' ++ b0] ∧ cur' ≠ [])) := by
  obtain ⟨b0, LB, hB, hgoB⟩ := linesForFormat_go_rest B
  obtain ⟨pre, cur', hgo, hcase⟩ := linesForFormat_go_expr X 0 [name, equals] hX
  have hp : ∀ s, exprAfter s [name, equals] = s := by
    intro s
    simp [exprAfter, isOpenPunct, isClosePunct, hname, hequals]
  have hV : ∀ V : Tokens, (∀ t ∈ V, tokenIsNewline t = false) →
      linesForFormat.go (V ++ B) [name, equals] = (name :: equals :: (V ++ b0)) :: LB := by
    intro V hVn
    rw [linesForFormat_go_noNewline V B _ hVn, hgoB _ (by simp)]
    simp
  rcases hcase with ⟨h1, h2⟩ | ⟨r, ls, h1, h2, h3⟩
  · refine ⟨X ++ b0, [], b0, LB, ?_, hV, ?_, by simp, hB, Or.inl ⟨rfl, rfl⟩⟩
    · rw [hgo B, h1, h2, hgoB _ (by simp)]
      simp
    · intro s
      have := exprAfter_wellNested 0 s X hX
      simp only [Nat.add_zero] at this
      simp [contLinesTo, exprAfter_append, this]
  · refine ⟨r, ls ++ [cur' ++ b0], b0, LB, ?_, hV, ?_, ?_, hB, Or.inr ⟨ls, cur', rfl, h2⟩⟩
    · rw [hgo B, h1, hgoB _ h2]
      simp
    · intro s
      obtain ⟨s2, hc, hpos, hend⟩ := h3 s s (by rw [hp s]; rfl)
      have hc' : contLinesTo (exprAfter s r) s2 ls = true := by
        rw [exprAfter_append, hp s] at hc
        exact hc
      apply contLinesTo_append _ s2 _ _ _ hc'
      simp only [contLinesTo, Bool.and_eq_true, decide_eq_true_eq, beq_iff_eq]
      exact ⟨hpos, by rw [exprAfter_append, hend]⟩
    · have hflat := linesForFormat_go_flatten (X ++ []) [name, equals]
      rw [hgo [], h1] at hflat
      have hnil : (linesForFormat.go [] cur').flatten = cur' := by
        cases cur' <;> simp [linesForFormat.go]
      simp only [List.flatten_append, List.flatten_cons, hnil, List.append_nil,
        List.cons_append, List.nil_append, List.cons.injEq, true_and] at hflat
      simp only [List.flatten_append, List.flatten_cons, List.flatten_nil, List.append_nil]
      rw [← hflat]
      simp

theorem formatLines_length (d : Nat) (ls : List Tokens) :
    (formatLines d ls).length = ls.length := by
  induction ls generalizing d with
  | nil => rfl
  | cons l rest ih => simp [formatLines, ih]

/-- Tokens the spacing rules leave as they are after one token are left as they
are after another token that sets no other space before the first of them. -/
theorem formatSpaces_fixed_transfer (ql vlast : Token) (b0 : Tokens)
    (h : formatSpaces ql b0 = b0)
    (hB : ∀ b, b0.head? = some b → spaceBefore vlast b = none ∨ isClosePunct b = true) :
    formatSpaces vlast b0 = b0 := by
  cases b0 with
  | nil => rfl
  | cons b r =>
    simp only [formatSpaces, List.cons.injEq] at h ⊢
    refine ⟨?_, h.2⟩
    rcases hB b rfl with hn | hc
    · simp [hn]
    · have h1 : spaceBefore vlast b = some 0 := by simp [spaceBefore, hc]
      have h2 : spaceBefore ql b = some 0 := by simp [spaceBefore, hc]
      rw [h1]
      rw [h2] at h
      exact h.1

theorem depthAfter_name_equals (d : Nat) (name equals : Token) (l : Tokens)
    (hname : name.Type_ = TokenIdent) (hequals : equals.Type_ = TokenEqual) :
    depthAfter d (name :: equals :: l) = depthAfter d l := by
  simp [depthAfter, hname, hequals]

/-- The lines of a formatted token sequence are left as they are by the spacing,
indentation and alignment rules. -/
theorem lines_of_formatted (T : Tokens) (hfmt : format T = T) :
    alignLines none 0 (formatLines 0 (linesForFormat T)) = linesForFormat T := by
  have h := linesForFormat_format T
  rw [hfmt] at h
  exact h.symm

/-- Replacing the expression of an attribute of a formatted token sequence by
tokens on one line: the formatter changes no token before the expression and
no token after it. The attribute begins its line, the old expression is well
nested, and after the last token of the new expression no spacing rule sets
another space before the token that follows than before. -/
theorem format_replace_expr (A B X V V' : Tokens) (name equals vlast : Token)
    (hA : ∀ tok, A.getLast? = some tok → tokenIsNewline tok = true)
    (hname : name.Type_ = TokenIdent) (hequals : equals.Type_ = TokenEqual)
    (hX : wellNested 0 X = true) (hXd : ∀ d, depthAfter d X = d)
    (hVn : ∀ t ∈ V, tokenIsNewline t = false) (hVw : wellNested 0 V = true)
    (hVd : ∀ d, depthAfter d V = d)
    (hVfmt : ∀ tail, formatSpaces equals (V ++ tail) = V' ++ formatSpaces vlast tail)
    (hB : ∀ b, B.head? = some b → spaceBefore vlast b = none ∨ isClosePunct b = true)
    (hfmt : format (A ++ name :: equals :: (X ++ B)) = A ++ name :: equals :: (X ++ B)) :
    format (A ++ name :: equals :: (V ++ B)) = A ++ name :: equals :: (V' ++ B) := by
  obtain ⟨hr, conts, b0, LB, hT, hT', hstate, hflatX, hflatB, hlastcase⟩ :=
    linesForFormat_go_attribute X B name equals hX hname hequals
  have hn1 : tokenIsNewline name = false := by simp [tokenIsNewline, hname]
  have hn2 : tokenIsNewline equals = false := by simp [tokenIsNewline, hequals]
  have hgo2 : ∀ Y : Tokens, linesForFormat (name :: equals :: Y)
      = linesForFormat.go Y [name, equals] := by
    intro Y
    unfold linesForFormat
    simp [linesForFormat.go, hn1, hn2]
  have hlT : linesForFormat (A ++ name :: equals :: (X ++ B))
      = linesForFormat A ++ (name :: equals :: hr) :: (conts ++ LB) := by
    rw [linesForFormat_append A _ hA, hgo2, hT]
  have hlT' : linesForFormat (A ++ name :: equals :: (V ++ B))
      = linesForFormat A ++ (name :: equals :: (V ++ b0)) :: LB := by
    rw [linesForFormat_append A _ hA, hgo2, hT' V hVn]
  have hAflat : (linesForFormat A).flatten = A := by
    unfold linesForFormat
    rw [linesForFormat_go_flatten]
    rfl
  have hc : ¬ (name.Type_ = TokenStringLit ∨ name.Type_ = TokenCHeredoc) := by
    rw [hname]
    simp
  have hsp : spaceBefore name equals = some 1 := by
    simp [spaceBefore, isClosePunct, isSuffixPunct, isOpenPunct, endsIdentOrLiteral,
      hname, hequals]
  have hfl : ∀ (d : Nat) (l : Tokens), formatLine (2 * d) (name :: equals :: l)
      = name.withSpaces (2 * d) :: equals.withSpaces 1 :: formatSpaces equals l := by
    intro d l
    simp only [formatLine, formatSpaces, if_neg hc, hsp]
  have hind : ∀ (d : Nat) (l : Tokens), indentDepth d (name :: equals :: l) = d := by
    intro d l
    simp [indentDepth, hname]
  -- the nesting level after the lines of the attribute
  have hdT : conts.foldl depthAfter
      (depthAfter ((linesForFormat A).foldl depthAfter 0) (name :: equals :: hr))
      = depthAfter ((linesForFormat A).foldl depthAfter 0) b0 := by
    rw [foldl_depthAfter_flatten, ← depthAfter_append]
    simp only [List.cons_append]
    rw [hflatX, depthAfter_name_equals _ _ _ _ hname hequals, depthAfter_append, hXd]
  have hdT' : depthAfter ((linesForFormat A).foldl depthAfter 0) (name :: equals :: (V ++ b0))
      = depthAfter ((linesForFormat A).foldl depthAfter 0) b0 := by
    rw [depthAfter_name_equals _ _ _ _ hname hequals, depthAfter_append, hVd]
  have hFT : formatLines 0 (linesForFormat A ++ (name :: equals :: hr) :: (conts ++ LB))
      = formatLines 0 (linesForFormat A)
        ++ ((linesForFormat A).foldl depthAfter 0,
            name.withSpaces (2 * (linesForFormat A).foldl depthAfter 0)
              :: equals.withSpaces 1 :: formatSpaces equals hr)
          :: (formatLines (depthAfter ((linesForFormat A).foldl depthAfter 0)
                (name :: equals :: hr)) conts
            ++ formatLines (depthAfter ((linesForFormat A).foldl depthAfter 0) b0) LB) := by
    rw [formatLines_append]
    simp only [formatLines, hind, hfl]
    rw [formatLines_append, hdT]
  have hFT' : formatLines 0 (linesForFormat A ++ (name :: equals :: (V ++ b0)) :: LB)
      = formatLines 0 (linesForFormat A)
        ++ ((linesForFormat A).foldl depthAfter 0,
            name.withSpaces (2 * (linesForFormat A).foldl depthAfter 0)
              :: equals.withSpaces 1 :: formatSpaces equals (V ++ b0))
          :: formatLines (depthAfter ((linesForFormat A).foldl depthAfter 0) b0) LB := by
    rw [formatLines_append]
    simp only [formatLines, hind, hfl, hdT']
  have hcont : ∀ s, contLinesTo (exprAfter s (formatSpaces equals hr)) (exprAfter s b0)
      ((formatLines (depthAfter ((linesForFormat A).foldl depthAfter 0)
        (name :: equals :: hr)) conts).map Prod.snd) = true := by
    intro s
    rw [exprAfter_kindBytes s _ hr (formatSpaces_kindBytes equals hr),
      contLinesTo_kindBytes _ _ _ conts ?_]
    · exact hstate s
    · have := formatLines_lines_kindBytes
        (depthAfter ((linesForFormat A).foldl depthAfter 0) (name :: equals :: hr)) conts
      simpa [List.map_map, Function.comp_def] using this
  have hone : ∀ s, exprAfter s (formatSpaces equals (V ++ b0)) = exprAfter s b0 := by
    intro s
    rw [exprAfter_kindBytes s _ (V ++ b0) (formatSpaces_kindBytes equals (V ++ b0)),
      exprAfter_append]
    have := exprAfter_wellNested 0 s V hVw
    simp only [Nat.add_zero] at this
    rw [this]
  obtain ⟨R, tail, f, hR1, hR2, hRlen, hf⟩ := alignLines_replace
    ((linesForFormat A).foldl depthAfter 0)
    (name.withSpaces (2 * (linesForFormat A).foldl depthAfter 0)) (equals.withSpaces 1)
    (formatSpaces equals hr) (formatSpaces equals (V ++ b0))
    (formatLines (depthAfter ((linesForFormat A).foldl depthAfter 0) (name :: equals :: hr))
      conts)
    (formatLines (depthAfter ((linesForFormat A).foldl depthAfter 0) b0) LB)
    (fun s => exprAfter s b0) hname hequals hcont hone
    (formatLines 0 (linesForFormat A)) none 0
  -- the lines of the formatted sequence are fixed
  have hfix := lines_of_formatted _ hfmt
  rw [hlT, hFT, hR1] at hfix
  have hRlen' : R.length = (linesForFormat A).length := by
    rw [hRlen, formatLines_length]
  obtain ⟨hRA, hrest⟩ := List.append_inj hfix hRlen'
  simp only [List.cons.injEq] at hrest
  obtain ⟨hhead, htl⟩ := hrest
  have hclen : ((formatLines (depthAfter ((linesForFormat A).foldl depthAfter 0)
      (name :: equals :: hr)) conts).map Prod.snd).length = conts.length := by
    rw [List.length_map, formatLines_length]
  obtain ⟨hconts, htail⟩ := List.append_inj htl hclen
  -- what the alignment does to the line of the name
  have hf' : ∀ z : Tokens,
      f (name.withSpaces (2 * (linesForFormat A).foldl depthAfter 0)
          :: equals.withSpaces 1 :: z) = name :: equals :: z
      ∧ formatSpaces equals hr = hr := by
    intro z
    rcases hf with rfl | ⟨k, rfl⟩
    · simp only [id, List.cons.injEq] at hhead ⊢
      exact ⟨⟨hhead.1, hhead.2.1, trivial⟩, hhead.2.2⟩
    · simp only [setEqualsSpaces, List.cons.injEq] at hhead ⊢
      exact ⟨⟨hhead.1, hhead.2.1, trivial⟩, hhead.2.2⟩
  -- the tokens after the expression on its last line are fixed
  have hb0 : ∃ ql, formatSpaces ql b0 = b0 := by
    rcases hlastcase with ⟨-, hhr⟩ | ⟨ls, cur', hcl, hne⟩
    · obtain ⟨ql, hq⟩ := formatSpaces_append equals X b0
      have h1 := (hf' []).2
      rw [hhr, hq] at h1
      exact ⟨ql, (List.append_inj h1 (formatSpaces_length _ _)).2⟩
    · rw [hcl, formatLines_append] at hconts
      simp only [formatLines, List.map_append, List.map_cons, List.map_nil] at hconts
      have h1 := (List.append_inj' hconts (by simp)).2
      simp only [List.cons.injEq, and_true] at h1
      obtain ⟨ql, hq⟩ := formatLine_append
        (2 * indentDepth (ls.foldl depthAfter
          (depthAfter ((linesForFormat A).foldl depthAfter 0) (name :: equals :: hr)))
          (cur' ++ b0)) cur' b0 hne
      rw [hq] at h1
      exact ⟨ql, (List.append_inj h1 (formatLine_length _ _)).2⟩
  obtain ⟨ql, hql⟩ := hb0
  have hb0' : formatSpaces vlast b0 = b0 := by
    apply formatSpaces_fixed_transfer ql vlast b0 hql
    intro b hb
    apply hB b
    rw [← hflatB]
    cases b0 with
    | nil => simp at hb
    | cons c r =>
      simp only [List.head?_cons, Option.some.injEq] at hb
      simp [hb]
  unfold format
  rw [hlT', hFT', hR2, hRA, htail, (hf' _).1, hVfmt, hb0']
  simp only [List.flatten_append, List.flatten_cons, hAflat, List.append_assoc,
    List.cons_append]
  rw [← hflatB]

/-- The spacing rules on a rendered value after `=`, whatever follows it on the
line: the first token gets one space, the other tokens are left as they are,
and what follows depends on the value only through the kind of its last token,
an identifier or a close quote. -/
theorem formatSpaces_value_tail (equals x : Token) (xs : Tokens) (v : cty.Value)
    (hequals : equals.Type_ = TokenEqual) (hv : TokensForValue v = x :: xs) :
    ∃ vlast : Token, (vlast.Type_ = TokenIdent ∨ vlast.Type_ = TokenCQuote)
      ∧ ∀ tail : Tokens, formatSpaces equals (TokensForValue v ++ tail)
          = x.withSpaces 1 :: xs ++ formatSpaces vlast tail := by
  have h1 := spaceBefore_equals_value equals x xs v hequals hv
  cases v with
  | NullVal =>
    simp only [TokensForValue, List.cons.injEq] at hv
    obtain ⟨rfl, rfl⟩ := hv
    exact ⟨{ Type_ := TokenIdent, Bytes := "null" }, Or.inl rfl, fun tail => by
      simp only [TokensForValue, List.cons_append, List.nil_append, formatSpaces, h1,
        List.append_eq]⟩
  | BoolVal b =>
    cases b <;>
    · simp only [TokensForValue, List.cons.injEq] at hv
      obtain ⟨rfl, rfl⟩ := hv
      refine ⟨{ Type_ := TokenIdent, Bytes := "" }, Or.inl rfl, fun tail => by
        simp only [TokensForValue, List.cons_append, List.nil_append, formatSpaces, h1,
          List.append_eq]
        congr 1
        exact formatSpaces_prev_congr _ _ _ rfl⟩
  | StringVal str =>
    simp only [TokensForValue, List.cons.injEq] at hv
    obtain ⟨rfl, rfl⟩ := hv
    refine ⟨{ Type_ := TokenCQuote, Bytes := "\"" }, Or.inr rfl, fun tail => ?_⟩
    simp only [TokensForValue, List.cons_append, List.nil_append, formatSpaces, h1,
      List.append_eq]
    simp [spaceBefore, isClosePunct, isSuffixPunct, isOpenPunct, endsIdentOrLiteral]

/-- No spacing rule speaks for a comment, a newline or the EOF token after a
rendered value; a close brace is close punctuation. -/
theorem spaceBefore_after_value (vlast b : Token)
    (hvlast : vlast.Type_ = TokenIdent ∨ vlast.Type_ = TokenCQuote)
    (hb : b.Type_ = TokenComment ∨ b.Type_ = TokenNewline ∨ b.Type_ = TokenEOF
      ∨ b.Type_ = TokenCBrace) :
    spaceBefore vlast b = none ∨ isClosePunct b = true := by
  rcases hb with hb | hb | hb | hb
  · left
    rcases hvlast with h | h <;>
      simp [spaceBefore, isClosePunct, isSuffixPunct, isOpenPunct, endsIdentOrLiteral, h, hb]
  · left
    rcases hvlast with h | h <;>
      simp [spaceBefore, isClosePunct, isSuffixPunct, isOpenPunct, endsIdentOrLiteral, h, hb]
  · left
    rcases hvlast with h | h <;>
      simp [spaceBefore, isClosePunct, isSuffixPunct, isOpenPunct, endsIdentOrLiteral, h, hb]
  · right
    simp [isClosePunct, hb]

theorem Tokens_Bytes_append (a b : Tokens) :
    Tokens.Bytes (a ++ b) = Tokens.Bytes a ++ Tokens.Bytes b := by
  induction a with
  | nil => simp [Tokens.Bytes]
  | cons t rest ih =>
    simp only [List.cons_append, Tokens.Bytes, List.append_eq, ih, String.append_assoc]

theorem fileWithAttribute_BuildTokens (es : List Enclosing) (pre : List Item)
    (before : Tokens) (name equals : Token) (expr lc nl : Tokens) (post : List Item)
    (trailing : Tokens) :
    (fileWithAttribute es pre before name equals expr lc nl post trailing).BuildTokens
      = tokensBeforeExpr es pre before name equals ++ expr
        ++ tokensAfterExpr es lc nl post trailing := by
  simp only [fileWithAttribute, File.BuildTokens, buildFile, BuildTokens_enclose,
    BuildTokens_buildBody_attribute, tokensBeforeExpr, tokensAfterExpr, List.append_assoc]

theorem openAfterLine_replace (o : Nat) (p1 p2 : Token) (g g' : Tokens)
    (hexpr : ∀ s, exprAfter s g = exprAfter s g') :
    openAfterLine o (p1 :: p2 :: g) = openAfterLine o (p1 :: p2 :: g') := by
  have h : ∀ s, exprAfter s (p1 :: p2 :: g) = exprAfter s (p1 :: p2 :: g') := by
    intro s
    have e1 := exprAfter_append s [p1, p2] g
    have e2 := exprAfter_append s [p1, p2] g'
    simp only [List.cons_append, List.nil_append] at e1 e2
    rw [e1, e2, hexpr]
  simp only [openAfterLine, isAttributeLine, h]

theorem runWidth_replace_line (depth o i : Nat) (p1 p2 : Token) (g g' : Tokens)
    (post : List (Nat × Tokens)) (hexpr : ∀ s, exprAfter s g = exprAfter s g') :
    runWidth depth o ((i, p1 :: p2 :: g) :: post)
      = runWidth depth o ((i, p1 :: p2 :: g') :: post) := by
  simp only [runWidth, isCommentLine, isAttributeLine, nameWidth,
    openAfterLine_replace o p1 p2 g g' hexpr]

/-- The alignment over lines, then a line, then more lines, and the same with
other tokens after the first two tokens of that line that leave as many
brackets open: the lines before and after come out the same, and the line gets
the same spaces before its second token. -/
theorem alignLines_replace_line (i : Nat) (p1 p2 : Token) (g g' : Tokens)
    (post : List (Nat × Tokens)) (hexpr : ∀ s, exprAfter s g = exprAfter s g')
    (pre : List (Nat × Tokens)) (back : Option (Nat × Nat)) (o : Nat) :
    ∃ (R tail : List Tokens) (f : Tokens → Tokens),
      alignLines back o (pre ++ (i, p1 :: p2 :: g) :: post)
        = R ++ f (p1 :: p2 :: g) :: tail
      ∧ alignLines back o (pre ++ (i, p1 :: p2 :: g') :: post)
        = R ++ f (p1 :: p2 :: g') :: tail
      ∧ R.length = pre.length
      ∧ (f = id ∨ ∃ k, f = setEqualsSpaces k) := by
  have hrw : ∀ depth o, runWidth depth o ((i, p1 :: p2 :: g) :: post)
      = runWidth depth o ((i, p1 :: p2 :: g') :: post) :=
    fun depth o => runWidth_replace_line depth o i p1 p2 g g' post hexpr
  have hop := fun o => openAfterLine_replace o p1 p2 g g' hexpr
  induction pre generalizing back o with
  | nil =>
    simp only [List.nil_append, alignLines, isCommentLine, isAttributeLine, nameWidth, hop, hrw]
    split
    · exact ⟨[], _, id, rfl, rfl, rfl, Or.inl rfl⟩
    · split
      · exact ⟨[], _, id, rfl, rfl, rfl, Or.inl rfl⟩
      · split
        · exact ⟨[], _, setEqualsSpaces _, rfl, rfl, rfl, Or.inr ⟨_, rfl⟩⟩
        · exact ⟨[], _, id, rfl, rfl, rfl, Or.inl rfl⟩
  | cons y pre' ih =>
    obtain ⟨dy, ly⟩ := y
    have hw := runWidth_congr dy 0 ((dy, ly) :: pre') _ _ hrw
    simp only [List.cons_append] at hw
    simp only [List.cons_append, alignLines, List.append_eq]
    split
    · obtain ⟨R, tail, f, h1, h2, h3, h4⟩ := ih back (openAfterLine o ly)
      exact ⟨ly :: R, tail, f, by rw [h1]; rfl, by rw [h2]; rfl, by simp [h3], h4⟩
    · split
      · obtain ⟨R, tail, f, h1, h2, h3, h4⟩ := ih back (openAfterLine o ly)
        exact ⟨ly :: R, tail, f, by rw [h1]; rfl, by rw [h2]; rfl, by simp [h3], h4⟩
      · split
        · obtain ⟨R, tail, f, h1, h2, h3, h4⟩ :=
            ih (some (dy, max (backWidth back dy)
              (runWidth dy 0 ((dy, ly) :: (pre' ++ (i, p1 :: p2 :: g') :: post)))))
              (openAfterLine o ly)
          refine ⟨setEqualsSpaces (max 1 (max (backWidth back dy)
              (runWidth dy 0 ((dy, ly) :: (pre' ++ (i, p1 :: p2 :: g') :: post)))
              - nameWidth ly + 1)) ly :: R, tail, f, ?_, ?_, by simp [h3], h4⟩
          · rw [hw, h1]
            rfl
          · rw [h2]
            rfl
        · obtain ⟨R, tail, f, h1, h2, h3, h4⟩ := ih none (openAfterLine o ly)
          exact ⟨ly :: R, tail, f, by rw [h1]; rfl, by rw [h2]; rfl, by simp [h3], h4⟩

/-- The spacing rules on a line in two parts, the first ending with a given
token: the second part is formatted after that token. -/
theorem formatSpaces_append_last (prev e : Token) (a b : Tokens) :
    formatSpaces prev (a ++ e :: b) = formatSpaces prev (a ++ [e]) ++ formatSpaces e b := by
  induction a generalizing prev with
  | nil => simp [formatSpaces]
  | cons t rest ih => simp only [List.cons_append, formatSpaces, List.append_eq, ih]

/-- Replacing, in a formatted token sequence, the expression of an attribute
that is written on one line and does not begin its line (an attribute of a
block written on one line) by tokens on one line: the formatter changes no
token before the expression and no token after it. -/
theorem format_replace_inline (A0 m B X V V' : Tokens) (p1 p2 equals vlast : Token)
    (hA : ∀ tok, A0.getLast? = some tok → tokenIsNewline tok = true)
    (hp : ∀ t ∈ p1 :: p2 :: m, tokenIsNewline t = false)
    (hequals : equals.Type_ = TokenEqual)
    (hXn : ∀ t ∈ X, tokenIsNewline t = false)
    (hX : wellNested 0 X = true) (hXd : ∀ d, depthAfter d X = d)
    (hVn : ∀ t ∈ V, tokenIsNewline t = false) (hVw : wellNested 0 V = true)
    (hVd : ∀ d, depthAfter d V = d)
    (hVfmt : ∀ tail, formatSpaces equals (V ++ tail) = V' ++ formatSpaces vlast tail)
    (hB : ∀ b, B.head? = some b → spaceBefore vlast b = none ∨ isClosePunct b = true)
    (hfmt : format (A0 ++ (p1 :: p2 :: m ++ equals :: (X ++ B)))
      = A0 ++ (p1 :: p2 :: m ++ equals :: (X ++ B))) :
    format (A0 ++ (p1 :: p2 :: m ++ equals :: (V ++ B)))
      = A0 ++ (p1 :: p2 :: m ++ equals :: (V' ++ B)) := by
  obtain ⟨b0, LB, hflatB, hgo⟩ := linesForFormat_go_rest B
  have hn2 : tokenIsNewline equals = false := by simp [tokenIsNewline, hequals]
  have hlines : ∀ Y : Tokens, (∀ t ∈ Y, tokenIsNewline t = false) →
      linesForFormat (A0 ++ (p1 :: p2 :: m ++ equals :: (Y ++ B)))
        = linesForFormat A0 ++ (p1 :: p2 :: (m ++ equals :: (Y ++ b0))) :: LB := by
    intro Y hY
    rw [linesForFormat_append A0 _ hA]
    congr 1
    have e : p1 :: p2 :: m ++ equals :: (Y ++ B) = (p1 :: p2 :: m ++ equals :: Y) ++ B := by
      simp
    have hno : ∀ t ∈ p1 :: p2 :: m ++ equals :: Y, tokenIsNewline t = false := by
      intro t ht
      rcases List.mem_append.mp ht with h | h
      · exact hp t h
      · rcases List.mem_cons.mp h with h | h
        · rw [h]
          exact hn2
        · exact hY t h
    unfold linesForFormat
    rw [e, linesForFormat_go_noNewline _ B [] hno, hgo _ (by simp)]
    simp
  have hAflat : (linesForFormat A0).flatten = A0 := by
    unfold linesForFormat
    rw [linesForFormat_go_flatten]
    rfl
  -- the formatted line
  obtain ⟨q1, q2, hline⟩ : ∃ q1 q2 : Token, ∀ Y : Tokens,
      formatLine (2 * indentDepth ((linesForFormat A0).foldl depthAfter 0) [p1])
          (p1 :: p2 :: (m ++ equals :: (Y ++ b0)))
        = q1 :: q2 :: ((formatSpaces p2 (m ++ [equals])) ++ formatSpaces equals (Y ++ b0)) :=
    ⟨(formatLine (2 * indentDepth ((linesForFormat A0).foldl depthAfter 0) [p1]) [p1]).headD p1,
      (formatSpaces p1 [p2]).headD p2, fun Y => by
      simp only [formatLine, formatSpaces, formatSpaces_append_last p2 equals m (Y ++ b0),
        List.headD_cons]⟩
  have hind : ∀ (d : Nat) (Y : Tokens),
      indentDepth d (p1 :: p2 :: (m ++ equals :: (Y ++ b0))) = indentDepth d [p1] := by
    intro d Y
    simp [indentDepth]
  have hdep : ∀ (d : Nat) (Y : Tokens), (∀ d, depthAfter d Y = d) →
      depthAfter d (p1 :: p2 :: (m ++ equals :: (Y ++ b0)))
        = depthAfter (depthAfter d (p1 :: p2 :: (m ++ [equals]))) b0 := by
    intro d Y hY
    have e : p1 :: p2 :: (m ++ equals :: (Y ++ b0))
        = (p1 :: p2 :: (m ++ [equals])) ++ (Y ++ b0) := by simp
    rw [e, depthAfter_append, depthAfter_append, hY]
  have hFT : ∀ Y : Tokens, (∀ d, depthAfter d Y = d) →
      formatLines 0 (linesForFormat A0 ++ (p1 :: p2 :: (m ++ equals :: (Y ++ b0))) :: LB)
      = formatLines 0 (linesForFormat A0)
        ++ (indentDepth ((linesForFormat A0).foldl depthAfter 0) [p1],
            q1 :: q2 :: ((formatSpaces p2 (m ++ [equals])) ++ formatSpaces equals (Y ++ b0)))
          :: formatLines (depthAfter (depthAfter ((linesForFormat A0).foldl depthAfter 0)
              (p1 :: p2 :: (m ++ [equals]))) b0) LB := by
    intro Y hY
    rw [formatLines_append]
    simp only [formatLines, hind, hline, hdep _ Y hY]
  have hex : ∀ (Y : Tokens), wellNested 0 Y = true → ∀ s,
      exprAfter s ((formatSpaces p2 (m ++ [equals])) ++ formatSpaces equals (Y ++ b0))
        = exprAfter (exprAfter s (formatSpaces p2 (m ++ [equals]))) b0 := by
    intro Y hY s
    rw [exprAfter_append,
      exprAfter_kindBytes _ _ (Y ++ b0) (formatSpaces_kindBytes equals (Y ++ b0)),
      exprAfter_append]
    have := exprAfter_wellNested 0 (exprAfter s (formatSpaces p2 (m ++ [equals]))) Y hY
    simp only [Nat.add_zero] at this
    rw [this]
  obtain ⟨R, tail, f, hR1, hR2, hRlen, hf⟩ := alignLines_replace_line
    (indentDepth ((linesForFormat A0).foldl depthAfter 0) [p1])
    q1 q2
    ((formatSpaces p2 (m ++ [equals])) ++ formatSpaces equals (X ++ b0))
    ((formatSpaces p2 (m ++ [equals])) ++ formatSpaces equals (V ++ b0))
    (formatLines (depthAfter (depthAfter ((linesForFormat A0).foldl depthAfter 0)
      (p1 :: p2 :: (m ++ [equals]))) b0) LB)
    (fun s => by rw [hex X hX s, hex V hVw s])
    (formatLines 0 (linesForFormat A0)) none 0
  have hfix := lines_of_formatted _ hfmt
  rw [hlines X hXn, hFT X hXd, hR1] at hfix
  have hRlen' : R.length = (linesForFormat A0).length := by
    rw [hRlen, formatLines_length]
  obtain ⟨hRA, hrest⟩ := List.append_inj hfix hRlen'
  simp only [List.cons.injEq] at hrest
  obtain ⟨hhead, htail⟩ := hrest
  have hf' : (∀ z : Tokens,
      f (q1 :: q2 :: z) = p1 :: p2 :: z)
      ∧ (formatSpaces p2 (m ++ [equals])) ++ formatSpaces equals (X ++ b0)
          = m ++ equals :: (X ++ b0) := by
    rcases hf with rfl | ⟨k, rfl⟩
    · simp only [id, List.cons.injEq] at hhead ⊢
      exact ⟨fun z => ⟨hhead.1, hhead.2.1, trivial⟩, hhead.2.2⟩
    · simp only [setEqualsSpaces, List.cons.injEq] at hhead ⊢
      exact ⟨fun z => ⟨hhead.1, hhead.2.1, trivial⟩, hhead.2.2⟩
  have hsplit : formatSpaces equals (X ++ b0) = X ++ b0 := by
    have e : m ++ equals :: (X ++ b0) = (m ++ [equals]) ++ (X ++ b0) := by simp
    have h2 := hf'.2
    rw [e] at h2
    exact (List.append_inj h2 (formatSpaces_length _ _)).2
  obtain ⟨ql, hq⟩ := formatSpaces_append equals X b0
  rw [hq] at hsplit
  have hql : formatSpaces ql b0 = b0 := (List.append_inj hsplit (formatSpaces_length _ _)).2
  have hM : formatSpaces p2 (m ++ [equals]) = m ++ [equals] := by
    have e : m ++ equals :: (X ++ b0) = (m ++ [equals]) ++ (X ++ b0) := by simp
    have h2 := hf'.2
    rw [e] at h2
    exact (List.append_inj h2 (formatSpaces_length _ _)).1
  have hb0' : formatSpaces vlast b0 = b0 := by
    apply formatSpaces_fixed_transfer ql vlast b0 hql
    intro b hb
    apply hB b
    rw [← hflatB]
    cases b0 with
    | nil => simp at hb
    | cons c r =>
      simp only [List.head?_cons, Option.some.injEq] at hb
      simp [hb]
  unfold format
  rw [hlines V hVn, hFT V hVd, hR2, hRA, htail, hf'.1, hVfmt, hb0', hM]
  simp only [List.flatten_append, List.flatten_cons, hAflat, List.append_assoc,
    List.cons_append, List.nil_append]
  rw [← hflatB]

/-- A token sequence in two parts: complete lines, then the tokens of a line
that has not ended. -/
theorem split_last_line (A : Tokens) :
    ∃ A0 c : Tokens, A = A0 ++ c
      ∧ (∀ tok, A0.getLast? = some tok → tokenIsNewline tok = true)
      ∧ (∀ t ∈ c, tokenIsNewline t = false) := by
  induction A with
  | nil => exact ⟨[], [], rfl, by simp, by simp⟩
  | cons t rest ih =>
    obtain ⟨A0, c, hA, h0, hc⟩ := ih
    cases A0 with
    | nil =>
      by_cases ht : tokenIsNewline t = true
      · refine ⟨[t], c, by simp [hA], ?_, hc⟩
        intro tok htok
        simp only [List.getLast?_singleton, Option.some.injEq] at htok
        rw [← htok]
        exact ht
      · refine ⟨[], t :: c, by simp [hA], by simp, ?_⟩
        intro u hu
        rcases List.mem_cons.mp hu with h | h
        · rw [h]
          simpa using ht
        · exact hc u h
    | cons a A1 =>
      refine ⟨t :: a :: A1, c, by simp [hA], ?_, hc⟩
      intro tok htok
      rw [List.getLast?_cons_cons] at htok
      exact h0 tok htok

/-- Replacing the expression of an attribute of a formatted token sequence by
tokens on one line: the formatter changes no token before the expression and
no token after it. The attribute begins its line, or its expression is written
on one line. -/
theorem format_replace_attribute (A B X V V' : Tokens) (name equals vlast : Token)
    (hline : (∀ tok, A.getLast? = some tok → tokenIsNewline tok = true)
      ∨ (∀ t ∈ X, tokenIsNewline t = false))
    (hname : name.Type_ = TokenIdent) (hequals : equals.Type_ = TokenEqual)
    (hX : wellNested 0 X = true) (hXd : ∀ d, depthAfter d X = d)
    (hVn : ∀ t ∈ V, tokenIsNewline t = false) (hVw : wellNested 0 V = true)
    (hVd : ∀ d, depthAfter d V = d)
    (hVfmt : ∀ tail, formatSpaces equals (V ++ tail) = V' ++ formatSpaces vlast tail)
    (hB : ∀ b, B.head? = some b → spaceBefore vlast b = none ∨ isClosePunct b = true)
    (hfmt : format (A ++ name :: equals :: (X ++ B)) = A ++ name :: equals :: (X ++ B)) :
    format (A ++ name :: equals :: (V ++ B)) = A ++ name :: equals :: (V' ++ B) := by
  rcases hline with hA | hXn
  · exact format_replace_expr A B X V V' name equals vlast hA hname hequals hX hXd hVn hVw
      hVd hVfmt hB hfmt
  · obtain ⟨A0, c, hsplit, h0, hc⟩ := split_last_line A
    have hn1 : tokenIsNewline name = false := by simp [tokenIsNewline, hname]
    cases c with
    | nil =>
      have hA : ∀ tok, A.getLast? = some tok → tokenIsNewline tok = true := by
        rw [hsplit, List.append_nil]
        exact h0
      exact format_replace_expr A B X V V' name equals vlast hA hname hequals hX hXd hVn hVw
        hVd hVfmt hB hfmt
    | cons c1 cs =>
      cases cs with
      | nil =>
        have h := format_replace_inline A0 [] B X V V' c1 name equals vlast h0
          (by
            intro t ht
            simp only [List.mem_cons, List.not_mem_nil, or_false] at ht
            rcases ht with rfl | rfl
            · exact hc _ (List.mem_cons_self _ _)
            · exact hn1)
          hequals hXn hX hXd hVn hVw hVd hVfmt hB
          (by
            rw [hsplit] at hfmt
            simpa using hfmt)
        rw [hsplit]
        simpa using h
      | cons c2 cs' =>
        have h := format_replace_inline A0 (cs' ++ [name]) B X V V' c1 c2 equals vlast h0
          (by
            intro t ht
            simp only [List.mem_cons, List.mem_append, List.not_mem_nil, or_false] at ht
            rcases ht with rfl | rfl | ht | rfl
            · exact hc _ (List.mem_cons_self _ _)
            · exact hc _ (List.mem_cons_of_mem _ (List.mem_cons_self _ _))
            · exact hc _ (List.mem_cons_of_mem _ (List.mem_cons_of_mem _ ht))
            · exact hn1)
          hequals hXn hX hXd hVn hVw hVd hVfmt hB
          (by
            rw [hsplit] at hfmt
            simpa using hfmt)
        rw [hsplit]
        simpa using h

/-- C19: edit locality inside blocks. Take a formatted file (its tokens are a
fixed point of the formatter) and in it a body that lies inside any number of
enclosing blocks, each the first block of its type and labels in the body that
holds it, and in that body the first attribute named `n`, as the parser
delivers it: it begins its line or its expression is written on one line (an
attribute of a block written on one line), its expression is well nested, and
the token after the expression is a comment, a newline, the EOF token or a
close brace.
`SetAttributeValue(n, v)` called on that body through the chain
`GetBlock(type, labels).Body()` succeeds, and the formatted tokens of the
whole file after the edit are the tokens of the input, each with the
`SpacesBefore` it had, with the attribute's expression token run replaced by
the rendering of `v` (one space before its first token): the enclosing blocks'
type names, labels and braces, the indentation, the sibling constructs, the
attribute's lead comments, name, `=`, line comments and newline are the same
tokens in the same order with the same spaces. On the bytes: the serialized
file is the bytes before the expression, the bytes of the rendered value, the
bytes after the expression, where the input is the bytes before the
expression, the bytes of the expression, the bytes after it. In the two test
sources (`attr1` in `service "label1"`, `attr2` in `child` inside `parent`) the
formatted file is the input with the quoted value replaced. -/
theorem C19_edit_inside_blocks (es : List Enclosing) (pre post : List Item)
    (before : Tokens) (name equals : Token) (expr lc nl trailing : Tokens) (v : cty.Value)
    (x : Token) (xs : Tokens)
    (hblocks : ∀ e ∈ es, ∀ it ∈ e.pre, ¬ (it.blockType = some e.typeName.Bytes
      ∧ it.blockLabels
          = some (e.labels.map (fun toks => unquoteLabel (labelText toks)))))
    (hfirst : ∀ it ∈ pre, it.attrName ≠ some name.Bytes)
    (hv : TokensForValue v = x :: xs)
    (hattr : parsedAttribute name equals expr)
    (hline : (∀ tok : Token,
        (tokensBeforeInner es ++ nodes.BuildTokens (buildItems pre) ++ before).getLast?
            = some tok → tokenIsNewline tok = true)
      ∨ (∀ t ∈ expr, tokenIsNewline t = false))
    (hnext : ∀ tok : Token, (tokensAfterExpr es lc nl post trailing).head? = some tok →
      tok.Type_ = TokenComment ∨ tok.Type_ = TokenNewline ∨ tok.Type_ = TokenEOF
        ∨ tok.Type_ = TokenCBrace)
    (hfmt : format
        (fileWithAttribute es pre before name equals expr lc nl post trailing).BuildTokens
      = (fileWithAttribute es pre before name equals expr lc nl post trailing).BuildTokens) :
    ∃ b' : Body,
      setAttributeValueAt (enclosingPath es)
          (fileWithAttribute es pre before name equals expr lc nl post trailing).body
          name.Bytes v = some b'
      ∧ (fileWithAttribute es pre before name equals expr lc nl post trailing).BuildTokens
          = tokensBeforeExpr es pre before name equals ++ expr
            ++ tokensAfterExpr es lc nl post trailing
      ∧ format (File.BuildTokens
          { fileWithAttribute es pre before name equals expr lc nl post trailing with
            body := b' })
          = tokensBeforeExpr es pre before name equals ++ (x.withSpaces 1 :: xs)
            ++ tokensAfterExpr es lc nl post trailing
      ∧ Tokens.Bytes
          (fileWithAttribute es pre before name equals expr lc nl post trailing).BuildTokens
          = Tokens.Bytes (tokensBeforeExpr es pre before name equals)
            ++ Tokens.Bytes expr
            ++ Tokens.Bytes (tokensAfterExpr es lc nl post trailing)
      ∧ formattedBytes
          (fileWithAttribute es pre before name equals expr lc nl post trailing) (some b')
          = some (Tokens.Bytes (tokensBeforeExpr es pre before name equals)
            ++ Tokens.Bytes (x.withSpaces 1 :: xs)
            ++ Tokens.Bytes (tokensAfterExpr es lc nl post trailing))
      ∧ formattedBytes (buildFile testItemsInBlock [])
          (setAttributeValueAt [("service", ["label1"])] (buildFile testItemsInBlock []).body
            "attr1" (cty.StringVal "updated1"))
          = some "service \"label1\" \x7b\n  attr1 = \"updated1\"\n\x7d\n"
      ∧ Tokens.Bytes (buildFile testItemsInBlock []).BuildTokens
          = "service \"label1\" \x7b\n  attr1 = \"val1\"\n\x7d\n"
      ∧ formattedBytes (buildFile testItemsNestedBlock [])
          (setAttributeValueAt [("parent", []), ("child", [])]
            (buildFile testItemsNestedBlock []).body "attr2" (cty.StringVal "updated2"))
          = some "parent \x7b\n  attr1 = \"val1\"\n  child \x7b\n    attr2 = \"updated2\"\n  \x7d\n\x7d\n"
      ∧ Tokens.Bytes (buildFile testItemsNestedBlock []).BuildTokens
          = "parent \x7b\n  attr1 = \"val1\"\n  child \x7b\n    attr2 = \"val2\"\n  \x7d\n\x7d\n" := by
  obtain ⟨hname, hequals, hexpr, hdepth⟩ := hattr
  obtain ⟨vlast, hvlast, hvfmt⟩ := formatSpaces_value_tail equals x xs v hequals hv
  have hB : ∀ b, (tokensAfterExpr es lc nl post trailing).head? = some b →
      spaceBefore vlast b = none ∨ isClosePunct b = true :=
    fun b hb => spaceBefore_after_value vlast b hvlast (hnext b hb)
  have htoks := fileWithAttribute_BuildTokens es pre before name equals expr lc nl post trailing
  have hfmt' : format
      ((tokensBeforeInner es ++ nodes.BuildTokens (buildItems pre) ++ before)
        ++ name :: equals :: (expr ++ tokensAfterExpr es lc nl post trailing))
      = (tokensBeforeInner es ++ nodes.BuildTokens (buildItems pre) ++ before)
        ++ name :: equals :: (expr ++ tokensAfterExpr es lc nl post trailing) := by
    have e : (tokensBeforeInner es ++ nodes.BuildTokens (buildItems pre) ++ before)
        ++ name :: equals :: (expr ++ tokensAfterExpr es lc nl post trailing)
        = (fileWithAttribute es pre before name equals expr lc nl post
            trailing).BuildTokens := by
      rw [htoks]
      simp only [tokensBeforeExpr, List.append_assoc, List.cons_append, List.nil_append]
    rw [e]
    exact hfmt
  have hmain := format_replace_attribute
    (tokensBeforeInner es ++ nodes.BuildTokens (buildItems pre) ++ before)
    (tokensAfterExpr es lc nl post trailing) expr (TokensForValue v) (x.withSpaces 1 :: xs)
    name equals vlast hline hname hequals hexpr hdepth (tokenIsNewline_value v)
    (wellNested_value v) (fun d => depthAfter_value d v) hvfmt hB hfmt'
  have hset := setAttributeValueAt_enclose es _ _ trailing name.Bytes v hblocks
    (SetAttributeValue_update pre post before name equals expr lc nl trailing v hfirst)
  have hnew : format (File.BuildTokens
      { fileWithAttribute es pre before name equals expr lc nl post trailing with
        body := buildBody
          (enclose es
            (pre ++ Item.ofAttribute before name equals (TokensForValue v) lc nl :: post,
              trailing)).1
          (enclose es
            (pre ++ Item.ofAttribute before name equals (TokensForValue v) lc nl :: post,
              trailing)).2 })
      = tokensBeforeExpr es pre before name equals ++ (x.withSpaces 1 :: xs)
        ++ tokensAfterExpr es lc nl post trailing := by
    have e : File.BuildTokens
        { fileWithAttribute es pre before name equals expr lc nl post trailing with
          body := buildBody
            (enclose es
              (pre ++ Item.ofAttribute before name equals (TokensForValue v) lc nl :: post,
                trailing)).1
            (enclose es
              (pre ++ Item.ofAttribute before name equals (TokensForValue v) lc nl :: post,
                trailing)).2 }
        = (tokensBeforeInner es ++ nodes.BuildTokens (buildItems pre) ++ before)
          ++ name :: equals :: (TokensForValue v ++ tokensAfterExpr es lc nl post trailing) := by
      have h := fileWithAttribute_BuildTokens es pre before name equals (TokensForValue v)
        lc nl post trailing
      simp only [fileWithAttribute, File.BuildTokens, buildFile] at h ⊢
      rw [h]
      simp only [tokensBeforeExpr, List.append_assoc, List.cons_append, List.nil_append]
    rw [e, hmain]
    simp only [tokensBeforeExpr, List.append_assoc, List.cons_append, List.nil_append]
  refine ⟨_, hset, htoks, hnew, ?_, ?_, by decide, by decide, by decide, by decide⟩
  · rw [htoks, Tokens_Bytes_append, Tokens_Bytes_append]
  · simp only [formattedBytes, Option.map_some']
    rw [hnew, Tokens_Bytes_append, Tokens_Bytes_append]

/-- C19 (witness): the nested test source, `attr2 = "val2"` in the block
`child` inside the block `parent`, after the attribute `attr1`: the source is
formatted, the setter called through `parent` and `child` succeeds and the
formatted file is the source with the quoted value replaced. -/
theorem C19_witness :
    format (buildFile testItemsNestedBlock []).BuildTokens
        = (buildFile testItemsNestedBlock []).BuildTokens
      ∧ ∃ b' : Body,
        setAttributeValueAt [("parent", []), ("child", [])]
            (buildFile testItemsNestedBlock []).body "attr2" (cty.StringVal "updated2")
          = some b'
        ∧ formattedBytes (buildFile testItemsNestedBlock []) (some b')
          = some "parent \x7b\n  attr1 = \"val1\"\n  child \x7b\n    attr2 = \"updated2\"\n  \x7d\n\x7d\n" := by
  have hfmt : format (buildFile testItemsNestedBlock []).BuildTokens
      = (buildFile testItemsNestedBlock []).BuildTokens := by decide
  obtain ⟨b', h1, -, -, -, h5, -⟩ := C19_edit_inside_blocks
    [ { pre := [],
        before := [],
        typeName := { Type_ := TokenIdent, Bytes := "parent", SpacesBefore := 0 },
        labels := [],
        open_ := [ { Type_ := TokenOBrace, Bytes := "\x7b", SpacesBefore := 1 },
                   { Type_ := TokenNewline, Bytes := "\n", SpacesBefore := 0 } ],
        close := [ { Type_ := TokenCBrace, Bytes := "\x7d", SpacesBefore := 0 },
                   { Type_ := TokenNewline, Bytes := "\n", SpacesBefore := 0 } ],
        post := [],
        trailing := [] },
      { pre := [stringAttrItem 2 "attr1" "val1"],
        before := [],
        typeName := { Type_ := TokenIdent, Bytes := "child", SpacesBefore := 2 },
        labels := [],
        open_ := [ { Type_ := TokenOBrace, Bytes := "\x7b", SpacesBefore := 1 },
                   { Type_ := TokenNewline, Bytes := "\n", SpacesBefore := 0 } ],
        close := [ { Type_ := TokenCBrace, Bytes := "\x7d", SpacesBefore := 2 },
                   { Type_ := TokenNewline, Bytes := "\n", SpacesBefore := 0 } ],
        post := [],
        trailing := [] } ]
    [] [] []
    { Type_ := TokenIdent, Bytes := "attr2", SpacesBefore := 4 }
    { Type_ := TokenEqual, Bytes := "=", SpacesBefore := 1 }
    (quotedTokens "val2") []
    [{ Type_ := TokenNewline, Bytes := "\n", SpacesBefore := 0 }] []
    (cty.StringVal "updated2") _ _
    (by
      intro e he it hit
      simp only [List.mem_cons, List.mem_singleton, List.not_mem_nil, or_false] at he
      rcases he with rfl | rfl
      · simp at hit
      · simp only [List.mem_singleton] at hit
        subst hit
        simp [stringAttrItem, Item.blockType])
    (by simp)
    rfl
    ⟨rfl, rfl, by decide, fun d => by simp [depthAfter, quotedTokens]⟩
    (Or.inl (by
      intro tok h
      have e : (tokensBeforeInner
          [ { pre := [],
              before := [],
              typeName := { Type_ := TokenIdent, Bytes := "parent", SpacesBefore := 0 },
              labels := [],
              open_ := [ { Type_ := TokenOBrace, Bytes := "\x7b", SpacesBefore := 1 },
                         { Type_ := TokenNewline, Bytes := "\n", SpacesBefore := 0 } ],
              close := [ { Type_ := TokenCBrace, Bytes := "\x7d", SpacesBefore := 0 },
                         { Type_ := TokenNewline, Bytes := "\n", SpacesBefore := 0 } ],
              post := [],
              trailing := [] },
            { pre := [stringAttrItem 2 "attr1" "val1"],
              before := [],
              typeName := { Type_ := TokenIdent, Bytes := "child", SpacesBefore := 2 },
              labels := [],
              open_ := [ { Type_ := TokenOBrace, Bytes := "\x7b", SpacesBefore := 1 },
                         { Type_ := TokenNewline, Bytes := "\n", SpacesBefore := 0 } ],
              close := [ { Type_ := TokenCBrace, Bytes := "\x7d", SpacesBefore := 2 },
                         { Type_ := TokenNewline, Bytes := "\n", SpacesBefore := 0 } ],
              post := [],
              trailing := [] } ]
          ++ nodes.BuildTokens (buildItems []) ++ []).getLast?
          = some { Type_ := TokenNewline, Bytes := "\n", SpacesBefore := 0 } := by decide
      rw [e] at h
      cases h
      rfl))
    (by
      intro tok h
      have e : tok = { Type_ := TokenNewline, Bytes := "\n", SpacesBefore := 0 } := by
        simpa [tokensAfterExpr] using h.symm
      subst e
      exact Or.inr (Or.inl rfl))
    hfmt
  exact ⟨hfmt, b', h1, h5.trans (by decide)⟩

end hclwrite
